import Mathlib

/-!
# Merkle tree of `pkg/blockchain/merkle.go`, hash helpers of `pkg/utils/hash.go`, difficulty codec of `pkg/utils/crypto.go`, encodings of `pkg/utils/encoding.go`

Shallow embedding.

* A Go `[]byte` is a `List UInt8`; a Go `[32]byte` is `Hash32`, a list of
  exactly 32 bytes.
* `crypto/sha256.Sum256` is a library function: it is a parameter
  `Sum256 : List UInt8 → Hash32` of every definition that hashes.
* `*MerkleNode` is an address into a node store (`Heap`): `none` is the nil
  pointer, `some a` points at the node stored at position `a`.  Allocation
  appends to the store, assignment through a pointer rewrites the stored node.
* A function whose Go body can panic (or whose model needs fuel for a `for`
  loop without a syntactic bound) returns `Option`: `none` means that the call
  does not return normally.  A Go function returning a pointer that may be nil
  returns an inner `Option`.
* A Go `uint32` is a `Nat`, reduced modulo `2 ^ 32` where the Go operation can
  wrap; a Go `int` and a `*big.Int` are `Int`.  `encoding/binary.LittleEndian`
  and the `math/big` methods used by the code are in the namespaces
  `LittleEndian` and `Big`.
* A Go `error` result is an `Option` of an error type with one constructor per
  `return` of an error in the source; `none` is `nil`.
* A Go `uint64` is a `Nat`; a Go `string` is the list of its bytes, and a string
  literal of the source is `asciiBytes` of the same literal.  `encoding/hex` is in
  the namespace `Hex`, the call of `fmt.Sscanf` made by `HexToBytes` in the
  namespace `Fmt`.
* `MerkleProof`, `GenerateMerkleProof` and `VerifyMerkleProof` exist twice in the
  source: those of merkle.go are in the namespace `Blockchain`, those of hash.go
  in the namespace `Utils`.
-/

/-- The Go type `[32]byte`. -/
abbrev Hash32 : Type := { l : List UInt8 // l.length = 32 }

/-- The zero value of `[32]byte`. -/
def zeroHash : Hash32 := ⟨List.replicate 32 0, by simp⟩

/-- Go builtin `copy(dst, src)` on byte slices: the first
`min (len dst) (len src)` bytes of `dst` are overwritten. -/
def copyBytes (dst src : List UInt8) : List UInt8 :=
  src.take dst.length ++ dst.drop src.length

/-- The statement `copy(dst[:], src)` for `dst` of type `[32]byte`. -/
def copy32 (dst : Hash32) (src : List UInt8) : Hash32 :=
  ⟨copyBytes dst.val src, by
    have := dst.property
    simp only [copyBytes, List.length_append, List.length_take, List.length_drop]
    omega⟩

namespace Utils

/-- Go `DoubleSHA256` of hash.go: `second := Sum256(first[:])` of `first := Sum256(data)`. -/
def DoubleSHA256 (Sum256 : List UInt8 → Hash32) (data : List UInt8) : List UInt8 :=
  let first := Sum256 data
  let second := Sum256 first.val
  second.val

/-- Go `MerkleHash` of hash.go; `none` is the panic on an input that is not 32 bytes long.
`combined` is 64 zero bytes overwritten by `left` and then `right`. -/
def MerkleHash (Sum256 : List UInt8 → Hash32) (left right : List UInt8) :
    Option (List UInt8) :=
  if left.length ≠ 32 ∨ right.length ≠ 32 then none
  else
    let combined := left ++ right
    some (DoubleSHA256 Sum256 combined)

/-- The inner `for i := 0; i < len(currentLevel); i += 2` loop of `MerkleRoot`;
`none` is a panic of `MerkleHash`. -/
def merkleRootLevel (Sum256 : List UInt8 → Hash32) :
    List (List UInt8) → Option (List (List UInt8))
  | [] => some []
  | [left] => do
      let parentHash ← MerkleHash Sum256 left left
      some [parentHash]
  | left :: right :: rest => do
      let parentHash ← MerkleHash Sum256 left right
      let nextLevel ← merkleRootLevel Sum256 rest
      some (parentHash :: nextLevel)

/-- The outer `for len(currentLevel) > 1` loop of `MerkleRoot`, with fuel. -/
def merkleRootLoop (Sum256 : List UInt8 → Hash32) :
    Nat → List (List UInt8) → Option (List (List UInt8))
  | 0, currentLevel => if currentLevel.length > 1 then none else some currentLevel
  | fuel + 1, currentLevel =>
      if currentLevel.length > 1 then do
        let nextLevel ← merkleRootLevel Sum256 currentLevel
        merkleRootLoop Sum256 fuel nextLevel
      else some currentLevel

/-- Go `MerkleRoot` of hash.go; `none` is a panic. -/
def MerkleRoot (Sum256 : List UInt8 → Hash32) (hashes : List (List UInt8)) :
    Option (List UInt8) :=
  if hashes.length = 0 then some (List.replicate 32 0)
  else if hashes.length = 1 then hashes[0]?
  else if hashes.any (fun hash => hash.length != 32) then none
  else do
    let currentLevel := hashes.map (fun hash => copyBytes (List.replicate 32 0) hash)
    let last ← merkleRootLoop Sum256 hashes.length currentLevel
    last[0]?

end Utils

namespace Blockchain

/-- Go `MerkleNode` of merkle.go; the three pointers are addresses into the store. -/
structure MerkleNode where
  Hash : Hash32
  Left : Option Nat
  Right : Option Nat
  Parent : Option Nat
  IsLeaf : Bool
  TxIndex : Int
  deriving DecidableEq

/-- The node store: the node at position `a` is what the pointer `some a` points at. -/
abbrev Heap : Type := List MerkleNode

/-- The assignment `p.Parent = node` through the pointer `p`. -/
def setParent (heap : Heap) (p node : Nat) : Heap :=
  match heap[p]? with
  | some n => heap.set p { n with Parent := some node }
  | none => heap

/-- The assignment `p.TxIndex = i` through the pointer `p`. -/
def setTxIndex (heap : Heap) (p : Nat) (i : Int) : Heap :=
  match heap[p]? with
  | some n => heap.set p { n with TxIndex := i }
  | none => heap

/-- Go `NewMerkleNode`: allocates the node, then sets the parent pointer of each non-nil child. -/
def NewMerkleNode (heap : Heap) (hash : Hash32) (left right : Option Nat) : Heap × Nat :=
  let node := heap.length
  let heap1 := heap ++ [{ Hash := hash, Left := left, Right := right, Parent := none,
                          IsLeaf := left.isNone && right.isNone, TxIndex := 0 }]
  let heap2 := match left with
    | some l => setParent heap1 l node
    | none => heap1
  let heap3 := match right with
    | some r => setParent heap2 r node
    | none => heap2
  (heap3, node)

/-- Go `IsRoot`; `none` when the pointer is dangling. -/
def IsRoot (heap : Heap) (n : Nat) : Option Bool := do
  let node ← heap[n]?
  some node.Parent.isNone

/-- Go `GetSibling`; the outer `none` is a dereference of a dangling pointer. -/
def GetSibling (heap : Heap) (n : Nat) : Option (Option Nat) := do
  let node ← heap[n]?
  match node.Parent with
  | none => some none
  | some p => do
      let parent ← heap[p]?
      if parent.Left = some n then some parent.Right else some parent.Left

/-- Go `MerkleTree` of merkle.go together with the store its pointers refer to
(the mutex is not modelled). -/
structure MerkleTree where
  heap : Heap
  Root : Option Nat
  Leaves : List Nat
  Levels : List (List Nat)
  TransactionCount : Int
  TreeDepth : Int

/-- Go `calculateParentHash`: `combined` is the 64 bytes `leftHash ++ rightHash`. -/
def calculateParentHash (Sum256 : List UInt8 → Hash32) (leftHash rightHash : Hash32) : Hash32 :=
  let combined := leftHash.val ++ rightHash.val
  let hash := Utils.DoubleSHA256 Sum256 combined
  copy32 zeroHash hash

/-- The leaf loop of `NewMerkleTree`: `i` is the index of the first hash of the list. -/
def makeLeaves (heap : Heap) (i : Nat) : List (List UInt8) → Heap × List Nat
  | [] => (heap, [])
  | hash :: rest =>
      let hashArray := copy32 zeroHash hash
      let (heap1, node) := NewMerkleNode heap hashArray none none
      let heap2 := setTxIndex heap1 node i
      let (heap3, leaves) := makeLeaves heap2 (i + 1) rest
      (heap3, node :: leaves)

/-- The inner `for i := 0; i < len(currentLevel); i += 2` loop of `NewMerkleTree`
on the nodes of `currentLevel` from position `i` on. -/
def pairLevel (Sum256 : List UInt8 → Hash32) (heap : Heap) :
    List Nat → Option (Heap × List Nat)
  | [] => some (heap, [])
  | [left] => do
      let l ← heap[left]?
      let parentHash := calculateParentHash Sum256 l.Hash l.Hash
      let (heap1, parentNode) := NewMerkleNode heap parentHash (some left) (some left)
      some (heap1, [parentNode])
  | left :: right :: rest => do
      let l ← heap[left]?
      let r ← heap[right]?
      let parentHash := calculateParentHash Sum256 l.Hash r.Hash
      let (heap1, parentNode) := NewMerkleNode heap parentHash (some left) (some right)
      let (heap2, nextLevel) ← pairLevel Sum256 heap1 rest
      some (heap2, parentNode :: nextLevel)

/-- The outer `for len(currentLevel) > 1` loop of `NewMerkleTree`, with fuel;
returns the store, `tree.Levels` and the last `currentLevel`. -/
def buildLevels (Sum256 : List UInt8 → Hash32) :
    Nat → Heap → List (List Nat) → List Nat → Option (Heap × List (List Nat) × List Nat)
  | 0, heap, levels, currentLevel =>
      if currentLevel.length > 1 then none else some (heap, levels, currentLevel)
  | fuel + 1, heap, levels, currentLevel =>
      if currentLevel.length > 1 then do
        let (heap1, nextLevel) ← pairLevel Sum256 heap currentLevel
        buildLevels Sum256 fuel heap1 (levels ++ [nextLevel]) nextLevel
      else some (heap, levels, currentLevel)

/-- Go `NewMerkleTree`; `none` is the panic on a hash that is not 32 bytes long. -/
def NewMerkleTree (Sum256 : List UInt8 → Hash32) (txHashes : List (List UInt8)) :
    Option MerkleTree :=
  if txHashes.length = 0 then
    some { heap := [], Root := none, Leaves := [], Levels := [],
           TransactionCount := 0, TreeDepth := 0 }
  else if txHashes.any (fun hash => hash.length != 32) then none
  else
    let (heap0, leaves) := makeLeaves [] 0 txHashes
    match buildLevels Sum256 txHashes.length heap0 [leaves] leaves with
    | none => none
    | some (heap, levels, currentLevel) =>
        match currentLevel[0]? with
        | none => none
        | some root =>
            some { heap := heap, Root := some root, Leaves := leaves, Levels := levels,
                   TransactionCount := txHashes.length, TreeDepth := levels.length }

/-- Go `GetRoot`; `none` when the root pointer is dangling. -/
def GetRoot (mt : MerkleTree) : Option Hash32 :=
  match mt.Root with
  | none => some zeroHash
  | some r => do
      let root ← mt.heap[r]?
      some root.Hash

/-- Go `GetLeaf`: the pointer stored at `index`, nil (`none`) when out of range. -/
def GetLeaf (mt : MerkleTree) (index : Int) : Option Nat :=
  if index < 0 ∨ index ≥ mt.Leaves.length then none
  else mt.Leaves[index.toNat]?

/-- Go `MerkleProof` of merkle.go. -/
structure MerkleProof where
  TransactionHash : Hash32
  TransactionIndex : Int
  MerkleRoot : Hash32
  ProofHashes : List (List UInt8)
  ProofFlags : List Bool
  TreeDepth : Int
  deriving DecidableEq

/-- Go `NewMerkleProof`; `TreeDepth` keeps its zero value. -/
def NewMerkleProof (txHash : Hash32) (txIndex : Int) (root : Hash32) : MerkleProof :=
  { TransactionHash := txHash, TransactionIndex := txIndex, MerkleRoot := root,
    ProofHashes := [], ProofFlags := [], TreeDepth := 0 }

/-- The `for current.Parent != nil` loop of `GenerateProof`, with fuel: returns the
final `ProofHashes` and `ProofFlags`. -/
def proofLoop : Nat → Heap → Nat → List (List UInt8) → List Bool →
    Option (List (List UInt8) × List Bool)
  | fuel, heap, current, proofHashes, proofFlags => do
      let cur ← heap[current]?
      match cur.Parent with
      | none => some (proofHashes, proofFlags)
      | some parent =>
          match fuel with
          | 0 => none
          | fuel + 1 => do
              let sibling ← GetSibling heap current
              match sibling with
              | some s => do
                  let sib ← heap[s]?
                  let siblingHash := copyBytes (List.replicate 32 0) sib.Hash.val
                  let par ← heap[parent]?
                  let isRightSibling := decide (par.Right = some s)
                  proofLoop fuel heap parent (proofHashes ++ [siblingHash])
                    (proofFlags ++ [isRightSibling])
              | none => proofLoop fuel heap parent proofHashes proofFlags

/-- Go `GenerateProof`; the inner `none` is the nil result, the outer `none` a
call that does not return. -/
def GenerateProof (mt : MerkleTree) (txIndex : Int) : Option (Option MerkleProof) :=
  if txIndex < 0 ∨ txIndex ≥ mt.Leaves.length then some none
  else
    match mt.Root with
    | none => some none
    | some r => do
        let leafPtr ← mt.Leaves[txIndex.toNat]?
        let leaf ← mt.heap[leafPtr]?
        let root ← mt.heap[r]?
        let proof := NewMerkleProof leaf.Hash txIndex root.Hash
        let proof := { proof with TreeDepth := mt.TreeDepth }
        let (proofHashes, proofFlags) ← proofLoop mt.heap.length mt.heap leafPtr
          proof.ProofHashes proof.ProofFlags
        some (some { proof with ProofHashes := proofHashes, ProofFlags := proofFlags })

/-- The `for i, siblingHashBytes := range proofHashes` loop of `VerifyMerkleProof`:
`proofFlags` holds the flags from position `i` on.  The result is the final
`currentHash`, or `none` when the loop returns false. -/
def verifyLoop (Sum256 : List UInt8 → Hash32) :
    List (List UInt8) → List Bool → Hash32 → Int → Option Hash32
  | [], _, currentHash, _ => some currentHash
  | siblingHashBytes :: proofHashes, proofFlags, currentHash, currentIndex =>
      if siblingHashBytes.length ≠ 32 then none
      else
        let siblingHash := copy32 zeroHash siblingHashBytes
        let leftHash := if currentIndex.tmod 2 = 0 then currentHash else siblingHash
        let rightHash := if currentIndex.tmod 2 = 0 then siblingHash else currentHash
        let expectedFlag := decide (currentIndex.tmod 2 = 0)
        match proofFlags with
        | [] => none
        | flag :: flags =>
            if flag ≠ expectedFlag then none
            else
              let combined := leftHash.val ++ rightHash.val
              let parentHashBytes := Utils.DoubleSHA256 Sum256 combined
              verifyLoop Sum256 proofHashes flags (copy32 currentHash parentHashBytes)
                (currentIndex.tdiv 2)

/-- Go `VerifyMerkleProof` of merkle.go. -/
def VerifyMerkleProof (Sum256 : List UInt8 → Hash32) (txHash merkleRoot : Hash32)
    (proofHashes : List (List UInt8)) (proofFlags : List Bool) (txIndex : Int) : Bool :=
  if proofHashes.length ≠ proofFlags.length then false
  else
    match verifyLoop Sum256 proofHashes proofFlags txHash txIndex with
    | none => false
    | some currentHash => decide (currentHash.val = merkleRoot.val)

/-- Go `VerifyProof`: false on a nil proof, otherwise `VerifyMerkleProof` on its fields. -/
def VerifyProof (Sum256 : List UInt8 → Hash32) (_mt : MerkleTree) (proof : Option MerkleProof) :
    Bool :=
  match proof with
  | none => false
  | some p =>
      VerifyMerkleProof Sum256 p.TransactionHash p.MerkleRoot p.ProofHashes p.ProofFlags
        p.TransactionIndex

/-! ## Definitions used to state the properties of the tree -/

/-- Hashes of the next level: adjacent pairs combined, an unpaired last hash
combined with itself. -/
def nextHashes (Sum256 : List UInt8 → Hash32) : List Hash32 → List Hash32
  | [] => []
  | [a] => [calculateParentHash Sum256 a a]
  | a :: b :: rest => calculateParentHash Sum256 a b :: nextHashes Sum256 rest

/-- The node `n` after the assignment `n.Parent = p`. -/
def withParent (p : Nat) (n : MerkleNode) : MerkleNode := { n with Parent := some p }

/-- The node allocated by `NewMerkleNode hash (some l) (some r)`. -/
def innerNode (hash : Hash32) (l r : Nat) : MerkleNode :=
  { Hash := hash, Left := some l, Right := some r, Parent := none, IsLeaf := false, TxIndex := 0 }

/-- The leaf node made from the `i`-th transaction hash. -/
def leafNode (i : Nat) (hash : List UInt8) : MerkleNode :=
  { Hash := copy32 zeroHash hash, Left := none, Right := none, Parent := none,
    IsLeaf := true, TxIndex := i }

/-- Effect on the store `h` of one pass of the inner loop over the nodes at
`s, ..., s + m - 1`: only their parent pointers change, and the parents are
appended. -/
structure PairSpec (Sum256 : List UInt8 → Hash32) (h : Heap) (s m : Nat) (h' : Heap) :
    Prop where
  len : h'.length = h.length + (m + 1) / 2
  outside : ∀ a, a < h.length → (a < s ∨ s + m ≤ a) → h'[a]? = h[a]?
  inside : ∀ j, j < m → h'[s + j]? = (h[s + j]?).map (withParent (h.length + j / 2))
  fresh : ∀ q l r, q < (m + 1) / 2 → h[s + 2 * q]? = some l →
    h[s + min (2 * q + 1) (m - 1)]? = some r →
    h'[h.length + q]? =
      some (innerNode (calculateParentHash Sum256 l.Hash r.Hash) (s + 2 * q)
        (s + min (2 * q + 1) (m - 1)))

/-- Relation `Walk h a path e`: starting at node `a`, the iterations of the loop of
`GenerateProof` record `path` (sibling hash and flag) and arrive at node `e`. -/
inductive Walk (h : Heap) : Nat → List (List UInt8 × Bool) → Nat → Prop
  | done (a : Nat) : Walk h a [] a
  | step (a p s e : Nat) (cur par sib : MerkleNode) (path : List (List UInt8 × Bool)) :
      h[a]? = some cur → cur.Parent = some p → h[p]? = some par →
      (if par.Left = some a then par.Right else par.Left) = some s →
      h[s]? = some sib → Walk h p path e →
      Walk h a ((sib.Hash.val, decide (par.Right = some s)) :: path) e

/-- Hash of the sibling of position `j` in a level with hashes `L`: the right
neighbour of an even position (the node itself when there is none), the left
neighbour of an odd position. -/
def siblingHash (L : List Hash32) (j : Nat) : Hash32 :=
  if j % 2 = 0 then (L[j + 1]?).getD ((L[j]?).getD zeroHash) else (L[j - 1]?).getD zeroHash

/-- Sibling hashes and flags from position `j` of the level `L` up to the
root; `fuel` bounds the number of levels. -/
def refPathAux (Sum256 : List UInt8 → Hash32) : Nat → List Hash32 → Nat → List (List UInt8 × Bool)
  | 0, _, _ => []
  | fuel + 1, L, j =>
      if 1 < L.length then
        ((siblingHash L j).val, decide (j % 2 = 0)) ::
          refPathAux Sum256 fuel (nextHashes Sum256 L) (j / 2)
      else []

/-- Sibling hashes and flags from position `j` of the level `L` up to the root. -/
def refPath (Sum256 : List UInt8 → Hash32) (L : List Hash32) (j : Nat) :
    List (List UInt8 × Bool) :=
  refPathAux Sum256 L.length L j

/-- The hash left after replacing the level by the next one until one hash
remains; `fuel` bounds the number of levels. -/
def rootHashAux (Sum256 : List UInt8 → Hash32) : Nat → List Hash32 → Hash32
  | 0, L => (L[0]?).getD zeroHash
  | fuel + 1, L =>
      if 1 < L.length then rootHashAux Sum256 fuel (nextHashes Sum256 L)
      else (L[0]?).getD zeroHash

/-- The single hash left after replacing the level by the next one until one
hash remains (the zero hash for the empty list). -/
def rootHash (Sum256 : List UInt8 → Hash32) (L : List Hash32) : Hash32 :=
  rootHashAux Sum256 L.length L

/-- Number of levels over `n` nodes, with fuel. -/
def numLevelsAux : Nat → Nat → Nat
  | 0, _ => 1
  | fuel + 1, n => if 1 < n then numLevelsAux fuel ((n + 1) / 2) + 1 else 1

/-- Number of levels of a tree over `n ≥ 1` leaves: halve, rounding up, until
one node remains. -/
def numLevels (n : Nat) : Nat := numLevelsAux n n

/-- The nodes at `s, s+1, ...` carry the hashes `L` and have no parent yet. -/
def LevelAt (h : Heap) (s : Nat) (L : List Hash32) : Prop :=
  ∀ j, j < L.length → ∃ nd, h[s + j]? = some nd ∧ L[j]? = some nd.Hash ∧ nd.Parent = none

/-- Invariant of the outer loop of `NewMerkleTree`: `L0` are the leaf hashes,
the current level is stored at `s, s+1, ...` and carries the hashes `L`. -/
structure BuildInv (Sum256 : List UInt8 → Hash32) (L0 : List Hash32) (h : Heap) (s : Nat)
    (L : List Hash32) : Prop where
  len : h.length = s + L.length
  pos : 0 < L.length
  level : LevelAt h s L
  leaf : ∀ i, i < L0.length → ∃ nd, h[i]? = some nd ∧ L0[i]? = some nd.Hash ∧
    nd.TxIndex = (i : Int) ∧ nd.IsLeaf = true
  walk : ∀ i, i < L0.length → ∃ P j, j < L.length ∧ Walk h i P (s + j) ∧
    refPath Sum256 L0 i = P ++ refPath Sum256 L j
  root : rootHash Sum256 L0 = rootHash Sum256 L
  size : L0.length ≤ h.length

/-- What the outer loop leaves behind: a root node with the reference root
hash, the leaves, and from every leaf a walk to the root recording the
reference path. -/
structure BuildResult (Sum256 : List UInt8 → Hash32) (L0 : List Hash32) (h : Heap) (r : Nat) :
    Prop where
  root : ∃ nd, h[r]? = some nd ∧ nd.Hash = rootHash Sum256 L0 ∧ nd.Parent = none
  leaf : ∀ i, i < L0.length → ∃ nd, h[i]? = some nd ∧ L0[i]? = some nd.Hash ∧
    nd.TxIndex = (i : Int) ∧ nd.IsLeaf = true
  walk : ∀ i, i < L0.length → Walk h i (refPath Sum256 L0 i) r
  size : L0.length ≤ h.length

/-- The leaf hashes as arrays: `copy(hashArray[:], hash)` of every transaction hash. -/
def leafHashes (txHashes : List (List UInt8)) : List Hash32 :=
  txHashes.map (copy32 zeroHash)

/-- Shape of the tree built from a non-empty list of transaction hashes. -/
structure TreeSpec (Sum256 : List UInt8 → Hash32) (txHashes : List (List UInt8))
    (t : MerkleTree) : Prop where
  leaves : t.Leaves = List.range' 0 txHashes.length
  count : t.TransactionCount = (txHashes.length : Int)
  depth : t.TreeDepth = (t.Levels.length : Int)
  levels : t.Levels.length = numLevels txHashes.length
  root : ∃ r, t.Root = some r ∧ BuildResult Sum256 (leafHashes txHashes) t.heap r

/-- The fold of a proof path in the words of the specification: at step `k`
the current hash goes on the left when `txIndex / 2 ^ k` is even, on the right
otherwise. -/
def specFold (Sum256 : List UInt8 → Hash32) (txIndex : Nat) :
    Nat → List (List UInt8) → List UInt8 → List UInt8
  | _, [], current => current
  | k, sibling :: rest, current =>
      specFold Sum256 txIndex (k + 1) rest
        (if (txIndex / 2 ^ k) % 2 = 0 then Utils.DoubleSHA256 Sum256 (current ++ sibling)
         else Utils.DoubleSHA256 Sum256 (sibling ++ current))

/-- The assumption on the double SHA-256 that the rejection of a tampered proof
relies on: two 64-byte inputs that differ in one 32-byte half only have
distinct outputs. -/
def HalfInjective (Sum256 : List UInt8 → Hash32) : Prop :=
  ∀ c x y : List UInt8, c.length = 32 → x.length = 32 → y.length = 32 →
    (Utils.DoubleSHA256 Sum256 (c ++ x) = Utils.DoubleSHA256 Sum256 (c ++ y) → x = y) ∧
    (Utils.DoubleSHA256 Sum256 (x ++ c) = Utils.DoubleSHA256 Sum256 (y ++ c) → x = y)

/-- One level of the reference root of the specification: the double SHA-256
of each adjacent pair, left bytes then right bytes, the last hash paired with
itself when the level has odd size. -/
def specNextLevel (Sum256 : List UInt8 → Hash32) : List (List UInt8) → List (List UInt8)
  | [] => []
  | [a] => [Utils.DoubleSHA256 Sum256 (a ++ a)]
  | a :: b :: rest => Utils.DoubleSHA256 Sum256 (a ++ b) :: specNextLevel Sum256 rest

/-- The level is replaced by the next one until one hash remains; `fuel`
bounds the number of replacements. -/
def specRootAux (Sum256 : List UInt8 → Hash32) : Nat → List (List UInt8) → List (List UInt8)
  | 0, level => level
  | fuel + 1, level =>
      if 1 < level.length then specRootAux Sum256 fuel (specNextLevel Sum256 level) else level

/-- The reference root of the specification for a list of hashes. -/
def specRoot (Sum256 : List UInt8 → Hash32) (hs : List (List UInt8)) : Option (List UInt8) :=
  (specRootAux Sum256 hs.length hs)[0]?

/-- A stand-in for `Sum256`, to evaluate the functions on concrete inputs. -/
def sampleSum256 (data : List UInt8) : Hash32 :=
  ⟨data.foldl (fun acc b => 3 * acc + b + 1) 7 :: List.replicate 31 0, by simp⟩

/-- A stand-in for `Sum256` for which `HalfInjective` holds: 32 bytes are
returned unchanged, 64 bytes give the bytewise sum of their two halves. -/
def halvesSum256 (data : List UInt8) : Hash32 :=
  if h64 : data.length = 64 then
    ⟨List.zipWith (fun a b => a + b) (data.take 32) (data.drop 32), by
      rw [List.length_zipWith, List.length_take, List.length_drop, h64]; rfl⟩
  else if h32 : data.length = 32 then ⟨data, h32⟩
  else zeroHash

/-- A 32-byte hash whose first byte is `b`. -/
def sampleHash (b : UInt8) : List UInt8 := b :: List.replicate 31 0

/-- Three sample transaction hashes. -/
def sampleHashes : List (List UInt8) := [sampleHash 1, sampleHash 2, sampleHash 3]

end Blockchain

/-! ## Serialization of proofs and compact difficulty targets: definitions -/

/-- Conversion `uint32(x)` of a Go `int`: the low 32 bits. -/
def toUint32 (x : Int) : Nat := (x % 4294967296).toNat

/-- Slice expression `data[lo:hi]`; `none` is the panic on bounds out of range. -/
def sliceBytes (data : List UInt8) (lo hi : Nat) : Option (List UInt8) :=
  if lo ≤ hi ∧ hi ≤ data.length then some ((data.drop lo).take (hi - lo)) else none

namespace LittleEndian

/-- Library function `binary.LittleEndian.PutUint32` on a slice of four bytes:
the bytes written for the 32-bit value `v`. -/
def PutUint32 (v : Nat) : List UInt8 :=
  [UInt8.ofNat v, UInt8.ofNat (v >>> 8), UInt8.ofNat (v >>> 16), UInt8.ofNat (v >>> 24)]

/-- Library function `binary.LittleEndian.Uint32`; `none` is the panic on fewer
than four bytes. -/
def Uint32 : List UInt8 → Option Nat
  | b0 :: b1 :: b2 :: b3 :: _ =>
      some (b0.toNat ||| (b1.toNat <<< 8) ||| (b2.toNat <<< 16) ||| (b3.toNat <<< 24))
  | _ => none

end LittleEndian

namespace Big

/-- Library function `big.Int.Lsh`: `x << n`. -/
def Lsh (x : Int) (n : Nat) : Int := x * 2 ^ n

/-- Big-endian bytes of `n` without leading zero bytes; `fuel` bounds their number. -/
def BytesAux : Nat → Nat → List UInt8
  | 0, _ => []
  | fuel + 1, n => if n = 0 then [] else BytesAux fuel (n / 256) ++ [UInt8.ofNat (n % 256)]

/-- Library function `big.Int.Bytes`: the absolute value as a big-endian byte
slice, empty for zero. -/
def Bytes (x : Int) : List UInt8 := BytesAux x.natAbs x.natAbs

end Big

namespace Utils

/-- Go `GetMaxTarget`: `0x00ffff` shifted left by 208 bits. -/
def GetMaxTarget : Int := Big.Lsh 0x00ffff 208

/-- Go `BitsToTarget` on a `uint32` value `bits`. -/
def BitsToTarget (bits : Nat) : Int :=
  let exponent := bits >>> 24
  let mantissa := bits &&& 0x00ffffff
  if exponent ≤ 3 then
    ((mantissa >>> (8 * (3 - exponent)) : Nat) : Int)
  else
    let target := Big.Lsh (mantissa : Int) (8 * (exponent - 3))
    let maxTarget := GetMaxTarget
    if target > maxTarget then maxTarget else target

/-- Go `TargetToBits`; the result is a `uint32`.  The bytes indexed are always
in range, `getD` never takes its default. -/
def TargetToBits (target : Int) : Nat :=
  if target ≤ 0 then 0
  else
    let targetBytes := Big.Bytes target
    let length := targetBytes.length
    if length = 0 then 0
    else
      let (mantissa, exponent) :=
        if length ≤ 3 then
          let mantissa := (List.range length).foldl
            (fun mantissa i =>
              mantissa ||| (((targetBytes.getD (length - 1 - i) 0).toNat <<< (8 * i)) % 4294967296))
            0
          (mantissa, length % 4294967296)
        else
          let mantissa := ((targetBytes.getD 0 0).toNat <<< 16) |||
            ((targetBytes.getD 1 0).toNat <<< 8) ||| (targetBytes.getD 2 0).toNat
          let exponent := length % 4294967296
          if (targetBytes.getD 0 0).toNat ≥ 0x80 then
            (mantissa >>> 8, (exponent + 1) % 4294967296)
          else (mantissa, exponent)
      ((exponent <<< 24) % 4294967296) ||| mantissa

/-- The errors of `ValidateDifficultyBits`, in the order of its checks. -/
inductive DifficultyError where
  | zeroBits
  | badExponent
  | zeroMantissa
  | aboveMaximum
  deriving DecidableEq

/-- Go `ValidateDifficultyBits`; `none` is the nil error. -/
def ValidateDifficultyBits (bits : Nat) : Option DifficultyError :=
  if bits = 0 then some DifficultyError.zeroBits
  else
    let exponent := bits >>> 24
    let mantissa := bits &&& 0x00ffffff
    if exponent = 0 ∨ exponent > 32 then some DifficultyError.badExponent
    else if mantissa = 0 then some DifficultyError.zeroMantissa
    else
      let target := BitsToTarget bits
      let maxTarget := GetMaxTarget
      if target > maxTarget then some DifficultyError.aboveMaximum
      else none

end Utils

namespace Blockchain

/-- Go `Serialize`: the buffer after each `append`. -/
def Serialize (mp : MerkleProof) : List UInt8 :=
  let buf : List UInt8 := []
  let buf := buf ++ mp.TransactionHash.val
  let indexBytes := LittleEndian.PutUint32 (toUint32 mp.TransactionIndex)
  let buf := buf ++ indexBytes
  let buf := buf ++ mp.MerkleRoot.val
  let depthBytes := LittleEndian.PutUint32 (toUint32 mp.TreeDepth)
  let buf := buf ++ depthBytes
  let countBytes := LittleEndian.PutUint32 (toUint32 (mp.ProofHashes.length : Int))
  let buf := buf ++ countBytes
  let buf := mp.ProofHashes.foldl (fun buf hash => buf ++ hash) buf
  let buf := mp.ProofFlags.foldl (fun buf flag => if flag then buf ++ [1] else buf ++ [0]) buf
  buf

/-- The errors of `Deserialize`, in the order of its checks. -/
inductive DeserializeError where
  | tooShort
  | lengthMismatch
  deriving DecidableEq

/-- The `ProofHashes` loop of `Deserialize`: `n` hashes are still to read from
`offset`; returns them and the final offset. -/
def readHashes : Nat → List UInt8 → Nat → Option (List (List UInt8) × Nat)
  | 0, _, offset => some ([], offset)
  | n + 1, data, offset => do
      let s ← sliceBytes data offset (offset + 32)
      let hash := copyBytes (List.replicate 32 0) s
      let (rest, last) ← readHashes n data (offset + 32)
      some (hash :: rest, last)

/-- The `ProofFlags` loop of `Deserialize`: `n` flags are still to read from `offset`. -/
def readFlags : Nat → List UInt8 → Nat → Option (List Bool × Nat)
  | 0, _, offset => some ([], offset)
  | n + 1, data, offset => do
      let b ← data[offset]?
      let (rest, last) ← readFlags n data (offset + 1)
      some (decide (b = 1) :: rest, last)

/-- Go `Deserialize` on the receiver `mp`: the receiver after the call and the
error returned (`none` for nil); the outer `none` is a panic. -/
def Deserialize (mp : MerkleProof) (data : List UInt8) :
    Option (MerkleProof × Option DeserializeError) :=
  if data.length < 76 then some (mp, some DeserializeError.tooShort)
  else do
    let offset := 0
    let s ← sliceBytes data offset (offset + 32)
    let mp := { mp with TransactionHash := copy32 mp.TransactionHash s }
    let offset := offset + 32
    let s ← sliceBytes data offset (offset + 4)
    let v ← LittleEndian.Uint32 s
    let mp := { mp with TransactionIndex := (v : Int) }
    let offset := offset + 4
    let s ← sliceBytes data offset (offset + 32)
    let mp := { mp with MerkleRoot := copy32 mp.MerkleRoot s }
    let offset := offset + 32
    let s ← sliceBytes data offset (offset + 4)
    let v ← LittleEndian.Uint32 s
    let mp := { mp with TreeDepth := (v : Int) }
    let offset := offset + 4
    let s ← sliceBytes data offset (offset + 4)
    let hashCount ← LittleEndian.Uint32 s
    let offset := offset + 4
    let expectedLength := hashCount * 32 + hashCount
    if data.length - offset < expectedLength then
      some (mp, some DeserializeError.lengthMismatch)
    else do
      let (proofHashes, offset) ← readHashes hashCount data offset
      let (proofFlags, _) ← readFlags hashCount data offset
      some ({ mp with ProofHashes := proofHashes, ProofFlags := proofFlags }, none)

/-- Go `GetProofSize`. -/
def GetProofSize (mp : MerkleProof) : Int := 76 + (mp.ProofHashes.length : Int) * 33

/-- The four bytes of the low 32 bits of `x`, least significant byte first. -/
def specLE32 (x : Int) : List UInt8 :=
  let v := (x % 4294967296).toNat
  [UInt8.ofNat (v % 256), UInt8.ofNat (v / 256 % 256), UInt8.ofNat (v / 65536 % 256),
    UInt8.ofNat (v / 16777216 % 256)]

/-- The byte of a direction flag: 1 for true, 0 for false. -/
def specFlagByte (flag : Bool) : UInt8 := if flag then 1 else 0

/-- The layout documented on `Serialize`: transaction hash, index, root, tree
depth, count, hashes, flags. -/
def specSerialize (mp : MerkleProof) : List UInt8 :=
  mp.TransactionHash.val ++ specLE32 mp.TransactionIndex ++ mp.MerkleRoot.val ++
    specLE32 mp.TreeDepth ++ specLE32 (mp.ProofHashes.length : Int) ++
    mp.ProofHashes.flatten ++ mp.ProofFlags.map specFlagByte

/-- The layout without the tree depth: leaf digest, leaf index, claimed root,
path length, sibling digests, flags. -/
def specLayoutNoDepth (mp : MerkleProof) : List UInt8 :=
  mp.TransactionHash.val ++ specLE32 mp.TransactionIndex ++ mp.MerkleRoot.val ++
    specLE32 (mp.ProofHashes.length : Int) ++
    mp.ProofHashes.flatten ++ mp.ProofFlags.map specFlagByte

/-- The zero value of `MerkleProof`, the receiver `&MerkleProof{}` of a fresh proof. -/
def emptyProof : MerkleProof :=
  { TransactionHash := zeroHash, TransactionIndex := 0, MerkleRoot := zeroHash,
    ProofHashes := [], ProofFlags := [], TreeDepth := 0 }

/-- A proof with no siblings and tree depth 3. -/
def sampleProofNoPath : MerkleProof :=
  { TransactionHash := zeroHash, TransactionIndex := 0, MerkleRoot := zeroHash,
    ProofHashes := [], ProofFlags := [], TreeDepth := 3 }

/-- A proof with two siblings. -/
def sampleProof : MerkleProof :=
  { TransactionHash := ⟨sampleHash 7, rfl⟩, TransactionIndex := 2,
    MerkleRoot := ⟨sampleHash 9, rfl⟩,
    ProofHashes := [sampleHash 3, sampleHash 4], ProofFlags := [true, false], TreeDepth := 3 }

/-- A proof with `2 ^ 32` siblings of 32 bytes and as many flags. -/
def hugeProof : MerkleProof :=
  { TransactionHash := zeroHash, TransactionIndex := 0, MerkleRoot := zeroHash,
    ProofHashes := List.replicate 4294967296 (List.replicate 32 0),
    ProofFlags := List.replicate 4294967296 false, TreeDepth := 0 }

end Blockchain

namespace Utils

/-- Number of bytes of the big-endian form of `n` without leading zero bytes,
with fuel. -/
def byteLenAux : Nat → Nat → Nat
  | 0, _ => 0
  | fuel + 1, n => if n = 0 then 0 else byteLenAux fuel (n / 256) + 1

/-- Minimal big-endian byte length of `n`: 0 for 0. -/
def byteLen (n : Nat) : Nat := byteLenAux n n

/-- The reference for `TargetToBits`: with `L` the byte length, `top3` the
three most significant bytes and `msb` the most significant byte. -/
def specTargetToBits (target : Int) : Nat :=
  if target ≤ 0 then 0
  else
    let t := target.toNat
    let L := byteLen t
    if L ≤ 3 then (L <<< 24) ||| t
    else
      let top3 := t / 256 ^ (L - 3)
      let msb := t / 256 ^ (L - 1)
      if msb < 0x80 then (L <<< 24) ||| top3
      else ((L + 1) <<< 24) ||| (top3 >>> 8)

end Utils

/-! ## Difficulty adjustment, variable-length integers, hexadecimal and Base58: definitions -/

/-- The loop `for i := 0; i < 32; i++ { reversed[i] = hash[31-i] }` on a fresh
slice of 32 zero bytes, as written in `HashToString`, `StringToHash` and
`IsValidTarget`.  Each caller has checked that `hash` has 32 bytes, so `getD`
never takes its default. -/
def reverseLoop (hash : List UInt8) : List UInt8 :=
  (List.range 32).foldl (fun reversed i => reversed.set i (hash.getD (31 - i) 0))
    (List.replicate 32 0)

/-- The bytes of an ASCII string literal of the source. -/
def asciiBytes (s : String) : List UInt8 := s.toList.map (fun c => UInt8.ofNat c.toNat)

namespace LittleEndian

/-- Library function `binary.LittleEndian.PutUint16` on a slice of two bytes:
the bytes written for the 16-bit value `v`. -/
def PutUint16 (v : Nat) : List UInt8 := [UInt8.ofNat v, UInt8.ofNat (v >>> 8)]

/-- Library function `binary.LittleEndian.Uint16`; `none` is the panic on fewer
than two bytes. -/
def Uint16 : List UInt8 → Option Nat
  | b0 :: b1 :: _ => some (b0.toNat ||| (b1.toNat <<< 8))
  | _ => none

/-- Library function `binary.LittleEndian.PutUint64` on a slice of eight bytes:
the bytes written for the 64-bit value `v`. -/
def PutUint64 (v : Nat) : List UInt8 :=
  [UInt8.ofNat v, UInt8.ofNat (v >>> 8), UInt8.ofNat (v >>> 16), UInt8.ofNat (v >>> 24),
    UInt8.ofNat (v >>> 32), UInt8.ofNat (v >>> 40), UInt8.ofNat (v >>> 48),
    UInt8.ofNat (v >>> 56)]

/-- Library function `binary.LittleEndian.Uint64`; `none` is the panic on fewer
than eight bytes. -/
def Uint64 : List UInt8 → Option Nat
  | b0 :: b1 :: b2 :: b3 :: b4 :: b5 :: b6 :: b7 :: _ =>
      some (b0.toNat ||| (b1.toNat <<< 8) ||| (b2.toNat <<< 16) ||| (b3.toNat <<< 24) |||
        (b4.toNat <<< 32) ||| (b5.toNat <<< 40) ||| (b6.toNat <<< 48) ||| (b7.toNat <<< 56))
  | _ => none

end LittleEndian

namespace Big

/-- Library function `big.Int.SetBytes`: the unsigned big-endian integer of `buf`. -/
def SetBytes (buf : List UInt8) : Int :=
  ((buf.foldl (fun acc b => acc * 256 + b.toNat) 0 : Nat) : Int)

/-- Library functions `big.Int.Div` and the quotient of `big.Int.DivMod`:
Euclidean division, as the operator `/` of `Int`. -/
def Div (x y : Int) : Int := x / y

/-- Library function `big.Int.Mod` and the remainder of `big.Int.DivMod`:
Euclidean modulus, as the operator `%` of `Int`. -/
def Mod (x y : Int) : Int := x % y

end Big

namespace Hex

/-- Constant `hextable` of `encoding/hex`. -/
def hextable : List UInt8 := asciiBytes "0123456789abcdef"

/-- Library function `hex.EncodeToString`: two characters of `hextable` per
byte, high nibble first. -/
def EncodeToString (src : List UInt8) : List UInt8 :=
  src.flatMap (fun v => [hextable.getD (v.toNat >>> 4) 0, hextable.getD (v.toNat &&& 0x0f) 0])

/-- Value of a hexadecimal digit in `encoding/hex` (`reverseHexTable`): digits,
lower-case and upper-case letters; `none` for every other byte. -/
def fromHexChar (c : UInt8) : Option Nat :=
  if 0x30 ≤ c.toNat ∧ c.toNat ≤ 0x39 then some (c.toNat - 0x30)
  else if 0x61 ≤ c.toNat ∧ c.toNat ≤ 0x66 then some (c.toNat - 0x61 + 10)
  else if 0x41 ≤ c.toNat ∧ c.toNat ≤ 0x46 then some (c.toNat - 0x41 + 10)
  else none

/-- The errors of `hex.DecodeString`. -/
inductive Error where
  | invalidByte (b : UInt8)
  | errLength
  deriving DecidableEq

/-- Library function `hex.DecodeString`: the bytes decoded before the first
error, and the error (`none` for nil). -/
def DecodeString : List UInt8 → List UInt8 × Option Error
  | [] => ([], none)
  | [p] =>
      match fromHexChar p with
      | none => ([], some (Error.invalidByte p))
      | some _ => ([], some Error.errLength)
  | p :: q :: rest =>
      match fromHexChar p with
      | none => ([], some (Error.invalidByte p))
      | some a =>
          match fromHexChar q with
          | none => ([], some (Error.invalidByte q))
          | some b =>
              let (out, err) := DecodeString rest
              (UInt8.ofNat ((a <<< 4) ||| b) :: out, err)

end Hex

namespace Utils

/-- Go `AdjustDifficulty`; `currentBits` and the result are `uint32`, the times
are `int64`.  The `big.Rat` ratio computed first is not used afterwards. -/
def AdjustDifficulty (actualTime targetTime : Int) (currentBits : Nat) : Nat :=
  if actualTime ≤ 0 ∨ targetTime ≤ 0 then currentBits
  else
    let currentTarget := BitsToTarget currentBits
    let newTarget := currentTarget * actualTime
    let newTarget := Big.Div newTarget targetTime
    let maxTarget := GetMaxTarget
    let minAdjustment := Big.Div currentTarget 4
    let maxAdjustment := currentTarget * 4
    let newTarget := if newTarget < minAdjustment then minAdjustment else newTarget
    let newTarget := if newTarget > maxAdjustment then maxAdjustment else newTarget
    let newTarget := if newTarget > maxTarget then maxTarget else newTarget
    TargetToBits newTarget

/-- Go `IsValidTarget`. -/
def IsValidTarget (hash : List UInt8) (target : Int) : Bool :=
  if hash.length ≠ 32 then false
  else
    let reversed := reverseLoop hash
    let hashInt := Big.SetBytes reversed
    decide (hashInt ≤ target)

/-- The errors of `VarIntDecode`, in the order of its checks. -/
inductive VarIntError where
  | empty
  | need3
  | need5
  | need9
  deriving DecidableEq

/-- Go `VarIntEncode` on a `uint64` value. -/
def VarIntEncode (value : Nat) : List UInt8 :=
  if value < 0xfd then [UInt8.ofNat value]
  else if value ≤ 0xffff then 0xfd :: LittleEndian.PutUint16 (value % 65536)
  else if value ≤ 0xffffffff then 0xfe :: LittleEndian.PutUint32 (value % 4294967296)
  else 0xff :: LittleEndian.PutUint64 value

/-- Go `VarIntDecode`: the value, the number of bytes consumed and the error
(`none` for nil); the outer `none` is a panic. -/
def VarIntDecode (data : List UInt8) : Option (Nat × Int × Option VarIntError) :=
  if data.length = 0 then some (0, 0, some VarIntError.empty)
  else do
    let first ← data[0]?
    if first.toNat < 0xfd then some (first.toNat, 1, none)
    else if first.toNat = 0xfd then
      if data.length < 3 then some (0, 0, some VarIntError.need3)
      else do
        let s ← sliceBytes data 1 3
        let value ← LittleEndian.Uint16 s
        some (value, 3, none)
    else if first.toNat = 0xfe then
      if data.length < 5 then some (0, 0, some VarIntError.need5)
      else do
        let s ← sliceBytes data 1 5
        let value ← LittleEndian.Uint32 s
        some (value, 5, none)
    else
      if data.length < 9 then some (0, 0, some VarIntError.need9)
      else do
        let s ← sliceBytes data 1 9
        let value ← LittleEndian.Uint64 s
        some (value, 9, none)

/-- Go `HashToString`; a Go string is the list of its bytes. -/
def HashToString (hash : List UInt8) : List UInt8 :=
  if hash.length ≠ 32 then Hex.EncodeToString hash
  else
    let reversed := reverseLoop hash
    Hex.EncodeToString reversed

/-- The errors of `StringToHash`, in the order of its checks. -/
inductive StringToHashError where
  | badLength
  | decode (e : Hex.Error)
  deriving DecidableEq

/-- Go `StringToHash`: the hash (empty for nil) and the error (`none` for nil). -/
def StringToHash (hashStr : List UInt8) : List UInt8 × Option StringToHashError :=
  if hashStr.length ≠ 64 then ([], some StringToHashError.badLength)
  else
    let (decoded, err) := Hex.DecodeString hashStr
    match err with
    | some e => ([], some (StringToHashError.decode e))
    | none =>
        let hash := reverseLoop decoded
        (hash, none)

/-- Constant `base58Alphabet`. -/
def base58Alphabet : List UInt8 :=
  asciiBytes "123456789ABCDEFGHJKLMNPQRSTUVWXYZabcdefghijkmnopqrstuvwxyz"

/-- The map `base58DecodeMap` filled by `init`: the position of a character in
the alphabet, `none` for a key that is absent.  The keys are the 58 ASCII
characters of the alphabet, so a rune of a string is a key exactly when it is
one byte and that byte is in the alphabet. -/
def base58DecodeMap (char : UInt8) : Option Nat :=
  if base58Alphabet.indexOf char < base58Alphabet.length then
    some (base58Alphabet.indexOf char)
  else none

/-- The loop `for num.Cmp(zero) > 0` of `Base58Encode`, with fuel: the
remainders of the divisions by 58 are appended to `encoded`. -/
def base58Digits : Nat → Int → List UInt8 → List UInt8
  | 0, _, encoded => encoded
  | fuel + 1, num, encoded =>
      if num > 0 then
        let remainder := Big.Mod num 58
        let num := Big.Div num 58
        base58Digits fuel num (encoded ++ [base58Alphabet.getD remainder.toNat 0])
      else encoded

/-- Go `Base58Encode`; the result is the list of the bytes of the string.  The
loop over `num` ends after at most `num` divisions. -/
def Base58Encode (data : List UInt8) : List UInt8 :=
  if data.length = 0 then []
  else
    let leadingZeros := (data.takeWhile (fun b => b = 0)).length
    let num := Big.SetBytes data
    let encoded := base58Digits num.toNat num []
    let encoded := encoded.reverse
    List.replicate leadingZeros (UInt8.ofNat '1'.toNat) ++ encoded

/-- The error of `Base58Decode`. -/
inductive Base58Error where
  | invalidCharacter
  deriving DecidableEq

/-- Go `Base58Decode` on the bytes of the string: the bytes decoded (empty for
nil) and the error (`none` for nil).  The first loop ranges over the runes of
the string; some rune is absent from the map exactly when some byte is not in
the alphabet, and past that loop every rune is one ASCII byte. -/
def Base58Decode (encoded : List UInt8) : List UInt8 × Option Base58Error :=
  if encoded.length = 0 then ([], none)
  else if encoded.any (fun char => (base58DecodeMap char).isNone) then
    ([], some Base58Error.invalidCharacter)
  else
    let leadingOnes := (encoded.takeWhile (fun b => b = UInt8.ofNat '1'.toNat)).length
    let num : Int := encoded.foldl
      (fun num char => num * 58 + (((base58DecodeMap char).getD 0 : Nat) : Int)) 0
    let decoded := Big.Bytes num
    let result := List.replicate (leadingOnes + decoded.length) 0
    (result.take leadingOnes ++ copyBytes (result.drop leadingOnes) decoded, none)

/-- The integer read from `hash` with its first byte least significant. -/
def littleEndianValue : List UInt8 → Nat
  | [] => 0
  | b :: rest => b.toNat + 256 * littleEndianValue rest

/-- The `k` low bytes of `v`, least significant first. -/
def specLEBytes (k v : Nat) : List UInt8 :=
  (List.range k).map (fun i => UInt8.ofNat (v / 256 ^ i % 256))

/-- The character of a hexadecimal digit in lower case. -/
def specHexDigit (d : Nat) : UInt8 :=
  if d < 10 then UInt8.ofNat ('0'.toNat + d) else UInt8.ofNat ('a'.toNat + (d - 10))

/-- Lower-case hexadecimal rendering of a byte string, two characters per byte. -/
def specHex : List UInt8 → List UInt8
  | [] => []
  | b :: rest => specHexDigit (b.toNat / 16) :: specHexDigit (b.toNat % 16) :: specHex rest

end Utils

/-! ## Validation, padding and the proofs of hash.go: definitions -/

/-- Index expression `l[i]` with `i` a Go `int`; `none` is the panic on an index
out of range. -/
def indexInt {α : Type} (l : List α) (i : Int) : Option α :=
  if i < 0 then none else l[i.toNat]?

namespace Fmt

/-- Space characters that `fmt.Sscanf` skips before a number, among the ASCII
characters: tab, vertical tab, form feed, carriage return and space.  A newline
is an error. -/
def isScanSpace (c : UInt8) : Bool :=
  c = 0x09 ∨ c = 0x0b ∨ c = 0x0c ∨ c = 0x0d ∨ c = 0x20

/-- Library function `fmt.Sscanf(chunk, "%02x", &b)` with `b` a byte, on a chunk
of two bytes: the value scanned, `none` for an error.  Two hexadecimal digits
give their byte.  After `fmt/scan.go`: leading space is skipped, then at most two
hexadecimal digits are read, and input left unread is no error. -/
def SscanfHexByte : List UInt8 → Option UInt8
  | [c1, c2] =>
      match Hex.fromHexChar c1 with
      | some a =>
          match Hex.fromHexChar c2 with
          | some b => some (UInt8.ofNat (a * 16 + b))
          | none => some (UInt8.ofNat a)
      | none =>
          if isScanSpace c1 then (Hex.fromHexChar c2).map UInt8.ofNat else none
  | _ => none

end Fmt

namespace Utils

/-- The errors of `ValidateBase58`, in the order of its checks. -/
inductive ValidateBase58Error where
  | emptyString
  | invalidCharacter
  deriving DecidableEq

/-- Go `ValidateBase58` on the bytes of the string; `none` is the nil error.
The loop ranges over the runes of the string; some rune is absent from the map
exactly when some byte is not in the alphabet. -/
def ValidateBase58 (encoded : List UInt8) : Option ValidateBase58Error :=
  if encoded.length = 0 then some ValidateBase58Error.emptyString
  else if encoded.any (fun char => (base58DecodeMap char).isNone) then
    some ValidateBase58Error.invalidCharacter
  else none

/-- Go `IsValidBase58`: `ValidateBase58(encoded) == nil`. -/
def IsValidBase58 (encoded : List UInt8) : Bool := (ValidateBase58 encoded).isNone

/-- The error of `HexToBytes`. -/
inductive HexToBytesError where
  | invalidHex
  deriving DecidableEq

/-- The loop `for i := 0; i < len(hexStr); i += 2` of `HexToBytes` on a string of
even length: the bytes (empty for nil) and the error (`none` for nil). -/
def hexToBytesLoop : List UInt8 → List UInt8 × Option HexToBytesError
  | c1 :: c2 :: rest =>
      match Fmt.SscanfHexByte [c1, c2] with
      | none => ([], some HexToBytesError.invalidHex)
      | some b =>
          match hexToBytesLoop rest with
          | (_, some e) => ([], some e)
          | (bytes, none) => (b :: bytes, none)
  | _ => ([], none)

/-- Go `HexToBytes` on the bytes of the string. -/
def HexToBytes (hexStr : List UInt8) : List UInt8 × Option HexToBytesError :=
  let hexStr :=
    if hexStr.take 2 = asciiBytes "0x" ∨ hexStr.take 2 = asciiBytes "0X" then hexStr.drop 2
    else hexStr
  let hexStr := if hexStr.length % 2 ≠ 0 then asciiBytes "0" ++ hexStr else hexStr
  hexToBytesLoop hexStr

/-- Go `PadBytes`; `length` is a Go `int`, `none` is the panic of `data[:length]`
on a negative `length`. -/
def PadBytes (data : List UInt8) (length : Int) (padLeft : Bool) : Option (List UInt8) :=
  if (data.length : Int) ≥ length then
    if length < 0 then none else some (data.take length.toNat)
  else
    let padded := List.replicate length.toNat (0 : UInt8)
    if padLeft then
      some (padded.take (length.toNat - data.length) ++
        copyBytes (padded.drop (length.toNat - data.length)) data)
    else some (copyBytes padded data)

/-- Go `CompareHashes`. -/
def CompareHashes (hash1 hash2 : List UInt8) : Bool :=
  if hash1.length ≠ 32 ∨ hash2.length ≠ 32 then false
  else (List.range 32).all (fun i => hash1.getD i 0 == hash2.getD i 0)

/-- Go `MerkleProof` of hash.go. -/
structure MerkleProof where
  Index : Int
  Hashes : List (List UInt8)
  Flags : List Bool
  deriving DecidableEq

/-- The `for len(currentLevel) > 1` loop of `GenerateMerkleProof`, with fuel:
returns the final `proof.Hashes` and `proof.Flags`.  Its inner loop that builds
`nextLevel` is the one of `MerkleRoot`.  `none` is a panic or the end of the fuel. -/
def generateProofLoop (Sum256 : List UInt8 → Hash32) :
    Nat → List (List UInt8) → Int → List (List UInt8) → List Bool →
      Option (List (List UInt8) × List Bool)
  | 0, currentLevel, _, hashes, flags =>
      if currentLevel.length > 1 then none else some (hashes, flags)
  | fuel + 1, currentLevel, currentIndex, hashes, flags =>
      if currentLevel.length > 1 then do
        let siblingIndex := if currentIndex.tmod 2 = 0 then currentIndex + 1 else currentIndex - 1
        let isLeft := if currentIndex.tmod 2 = 0 then false else true
        let sibling ←
          if siblingIndex < currentLevel.length then indexInt currentLevel siblingIndex
          else indexInt currentLevel currentIndex
        let hashes := hashes ++ [sibling]
        let flags := flags ++ [isLeft]
        let nextLevel ← merkleRootLevel Sum256 currentLevel
        generateProofLoop Sum256 fuel nextLevel (currentIndex.tdiv 2) hashes flags
      else some (hashes, flags)

/-- Go `GenerateMerkleProof` of hash.go; the inner `none` is the result
`nil, err`, the outer `none` a call that does not return. -/
def GenerateMerkleProof (Sum256 : List UInt8 → Hash32) (hashes : List (List UInt8))
    (index : Int) : Option (Option MerkleProof) :=
  if index < 0 ∨ index ≥ hashes.length then some none
  else if hashes.length = 0 then some none
  else do
    let currentLevel := hashes
    let (proofHashes, proofFlags) ←
      generateProofLoop Sum256 hashes.length currentLevel index [] []
    some (some { Index := index, Hashes := proofHashes, Flags := proofFlags })

/-- The `for i, siblingHash := range proof.Hashes` loop of `VerifyMerkleProof` of
hash.go: `flags` holds `proof.Flags` from position `i` on; `none` is a panic. -/
def verifyProofLoop (Sum256 : List UInt8 → Hash32) :
    List (List UInt8) → List Bool → List UInt8 → Option (List UInt8)
  | [], _, currentHash => some currentHash
  | siblingHash :: hashes, flags, currentHash =>
      match flags with
      | [] => none
      | flag :: flags => do
          let currentHash ←
            if flag then MerkleHash Sum256 siblingHash currentHash
            else MerkleHash Sum256 currentHash siblingHash
          verifyProofLoop Sum256 hashes flags currentHash

/-- Go `VerifyMerkleProof` of hash.go; `proof` is a pointer, `none` for nil; the
outer `none` of the result is a panic. -/
def VerifyMerkleProof (Sum256 : List UInt8 → Hash32) (leafHash : List UInt8)
    (proof : Option MerkleProof) (merkleRoot : List UInt8) : Option Bool :=
  match proof with
  | none => some false
  | some proof =>
      if proof.Hashes.length ≠ proof.Flags.length then some false
      else do
        let currentHash := copyBytes (List.replicate 32 0) leafHash
        let currentHash ← verifyProofLoop Sum256 proof.Hashes proof.Flags currentHash
        some (CompareHashes currentHash merkleRoot)

end Utils

/-! ## Bytes -/

theorem copyBytes_length (dst src : List UInt8) :
    (copyBytes dst src).length = dst.length := by
  simp [copyBytes]; omega

theorem copyBytes_eq_of_length (dst src : List UInt8) (h : src.length = dst.length) :
    copyBytes dst src = src := by
  simp [copyBytes, ← h]

theorem copy32_val (dst : Hash32) (src : List UInt8) (h : src.length = 32) :
    (copy32 dst src).val = src := by
  simp only [copy32]
  exact copyBytes_eq_of_length _ _ (by rw [h, dst.property])

theorem copy32_eq (dst : Hash32) (src : Hash32) : copy32 dst src.val = src :=
  Subtype.ext (copy32_val dst src.val src.property)

theorem copy32_congr (d1 d2 : Hash32) (src : List UInt8) (h : src.length = 32) :
    copy32 d1 src = copy32 d2 src :=
  Subtype.ext (by rw [copy32_val _ _ h, copy32_val _ _ h])

theorem Utils.DoubleSHA256_length (Sum256 : List UInt8 → Hash32) (data : List UInt8) :
    (Utils.DoubleSHA256 Sum256 data).length = 32 := by
  simp only [Utils.DoubleSHA256]
  exact (Sum256 _).property

namespace Blockchain

theorem calculateParentHash_val (Sum256 : List UInt8 → Hash32) (l r : Hash32) :
    (calculateParentHash Sum256 l r).val = Utils.DoubleSHA256 Sum256 (l.val ++ r.val) := by
  simp only [calculateParentHash]
  exact copy32_val _ _ (Utils.DoubleSHA256_length _ _)

/-! ## The levels of hashes, as lists -/

theorem nextHashes_length (Sum256 : List UInt8 → Hash32) :
    ∀ L : List Hash32, (nextHashes Sum256 L).length = (L.length + 1) / 2
  | [] => rfl
  | [_] => by simp [nextHashes]
  | _ :: _ :: rest => by
      simp only [nextHashes, List.length_cons, nextHashes_length Sum256 rest]
      omega

theorem nextHashes_getElem? (Sum256 : List UInt8 → Hash32) :
    ∀ (L : List Hash32) (q : Nat) (a : Hash32), L[2 * q]? = some a →
      (nextHashes Sum256 L)[q]? =
        some (calculateParentHash Sum256 a ((L[2 * q + 1]?).getD a))
  | [], q, a, h => by simp at h
  | [x], q, a, h => by
      cases q with
      | zero => simp at h; subst h; simp [nextHashes]
      | succ q => simp [Nat.mul_succ] at h
  | x :: y :: rest, q, a, h => by
      cases q with
      | zero => simp at h; subst h; simp [nextHashes]
      | succ q =>
          have h2 : rest[2 * q]? = some a := by
            simpa [Nat.mul_succ] using h
          have ih := nextHashes_getElem? Sum256 rest q a h2
          simp only [nextHashes, List.getElem?_cons_succ, ih, Nat.mul_succ]

/-! ## The node store -/

theorem setParent_length (h : Heap) (p nd : Nat) : (setParent h p nd).length = h.length := by
  unfold setParent
  split <;> simp

theorem setParent_getElem? (h : Heap) (p nd a : Nat) :
    (setParent h p nd)[a]? = if a = p then (h[a]?).map (withParent nd) else h[a]? := by
  unfold setParent
  split
  · rename_i n hn
    rw [List.getElem?_set]
    have hp : p < h.length := by
      by_contra hc
      rw [List.getElem?_eq_none (by omega)] at hn
      exact Option.noConfusion hn
    by_cases hap : a = p
    · subst hap
      simp [hp, hn, withParent]
    · have : ¬ p = a := fun e => hap e.symm
      simp [hap, this]
  · rename_i hn
    by_cases hap : a = p
    · subst hap
      simp [hn]
    · simp [hap]

theorem withParent_withParent (p q : Nat) (n : MerkleNode) :
    withParent p (withParent q n) = withParent p n := rfl

theorem NewMerkleNode_snd (h : Heap) (hash : Hash32) (l r : Option Nat) :
    (NewMerkleNode h hash l r).2 = h.length := rfl

theorem NewMerkleNode_length (h : Heap) (hash : Hash32) (l r : Option Nat) :
    (NewMerkleNode h hash l r).1.length = h.length + 1 := by
  unfold NewMerkleNode
  cases l <;> cases r <;> simp [setParent_length]

theorem NewMerkleNode_getElem? (h : Heap) (hash : Hash32) (l r a : Nat)
    (hl : l < h.length) (hr : r < h.length) :
    (NewMerkleNode h hash (some l) (some r)).1[a]? =
      if a = h.length then some (innerNode hash l r)
      else if a = l ∨ a = r then (h[a]?).map (withParent h.length) else h[a]? := by
  simp only [NewMerkleNode, setParent_getElem?]
  by_cases ha : a = h.length
  · subst ha
    have h1 : ¬ h.length = l := by omega
    have h2 : ¬ h.length = r := by omega
    simp [h1, h2, innerNode]
  · by_cases hlt : a < h.length
    · rw [List.getElem?_append_left hlt]
      rw [if_neg ha]
      cases hget : h[a]? with
      | none => split_ifs <;> rfl
      | some n => split_ifs <;> first | rfl | (exfalso; tauto)
    · have hn : h[a]? = none := List.getElem?_eq_none (by omega)
      rw [List.getElem?_eq_none (by simp; omega)]
      have h1 : ¬ a = l := by omega
      have h2 : ¬ a = r := by omega
      simp [ha, h1, h2, hn]

/-! ## One pass of the inner loop -/

theorem getElem?_some_of_lt (h : Heap) (a : Nat) (ha : a < h.length) :
    ∃ n, h[a]? = some n := ⟨h[a], List.getElem?_eq_getElem ha⟩

theorem pairLevel_spec (Sum256 : List UInt8 → Hash32) :
    ∀ (m : Nat) (h : Heap) (s : Nat), s + m ≤ h.length →
      ∃ h', pairLevel Sum256 h (List.range' s m) =
          some (h', List.range' h.length ((m + 1) / 2)) ∧ PairSpec Sum256 h s m h'
  | 0, h, s, _ => by
      refine ⟨h, by simp [pairLevel], ?_, ?_, ?_, ?_⟩
      · simp
      · intros; rfl
      · intro j hj; omega
      · intro q l r hq; omega
  | 1, h, s, hs => by
      obtain ⟨l, hl⟩ := getElem?_some_of_lt h s (by omega)
      refine ⟨(NewMerkleNode h (calculateParentHash Sum256 l.Hash l.Hash) (some s) (some s)).1,
        ?_, ?_, ?_, ?_, ?_⟩
      · simp [pairLevel, hl, NewMerkleNode_snd]
      · simp [NewMerkleNode_length]
      · intro a ha hout
        rw [NewMerkleNode_getElem? h _ s s a (by omega) (by omega),
          if_neg (by omega), if_neg (by omega)]
      · intro j hj
        have hj0 : j = 0 := by omega
        subst hj0
        rw [NewMerkleNode_getElem? h _ s s _ (by omega) (by omega),
          if_neg (by omega), if_pos (by omega)]
        rfl
      · intro q l' r' hq hl' hr'
        have hq0 : q = 0 := by omega
        subst hq0
        simp at hl' hr'
        rw [hl] at hl' hr'
        cases hl'; cases hr'
        rw [NewMerkleNode_getElem? h _ s s _ (by omega) (by omega), if_pos (by omega)]
        rfl
  | m + 2, h, s, hs => by
      obtain ⟨l, hl⟩ := getElem?_some_of_lt h s (by omega)
      obtain ⟨r, hr⟩ := getElem?_some_of_lt h (s + 1) (by omega)
      have hN := fun a => NewMerkleNode_getElem? h (calculateParentHash Sum256 l.Hash r.Hash)
        s (s + 1) a (by omega) (by omega)
      have hlen1 := NewMerkleNode_length h (calculateParentHash Sum256 l.Hash r.Hash)
        (some s) (some (s + 1))
      generalize hg : (NewMerkleNode h (calculateParentHash Sum256 l.Hash r.Hash) (some s)
        (some (s + 1))).1 = g at hN hlen1
      obtain ⟨h', hrun, hspec⟩ := pairLevel_spec Sum256 m g (s + 2) (by omega)
      refine ⟨h', ?_, ?_, ?_, ?_, ?_⟩
      · have e1 : List.range' s (m + 2) = s :: (s + 1) :: List.range' (s + 2) m := by
          simp [List.range'_succ]
        have e2 : (m + 2 + 1) / 2 = (m + 1) / 2 + 1 := by omega
        rw [e1, e2, List.range'_succ]
        simp only [pairLevel, hl, hr, Option.bind_eq_bind, Option.some_bind, hg,
          NewMerkleNode_snd, hrun, hlen1]
      · rw [hspec.len, hlen1]; omega
      · intro a ha hout
        rw [hspec.outside a (by omega) (by omega), hN a, if_neg (by omega), if_neg (by omega)]
      · intro j hj
        rcases Nat.lt_or_ge j 2 with hj2 | hj2
        · have h3 : j / 2 = 0 := by omega
          rw [hspec.outside (s + j) (by omega) (by omega), hN (s + j), if_neg (by omega),
            if_pos (by omega), h3]
          rfl
        · obtain ⟨k, rfl⟩ : ∃ k, j = k + 2 := ⟨j - 2, by omega⟩
          have e := hspec.inside k (by omega)
          have e3 : s + 2 + k = s + (k + 2) := by omega
          have e4 : g.length + k / 2 = h.length + (k + 2) / 2 := by omega
          rw [e3, e4] at e
          rw [e, hN (s + (k + 2)), if_neg (by omega), if_neg (by omega)]
      · intro q l' r' hq hl' hr'
        cases q with
        | zero =>
            simp at hl' hr'
            rw [hl] at hl'
            rw [hr] at hr'
            cases hl'; cases hr'
            rw [hspec.outside (h.length + 0) (by omega) (by omega),
              hN (h.length + 0), if_pos (by omega)]
            simp
        | succ q =>
            have hm : 1 ≤ m := by omega
            have e1 : s + 2 * (q + 1) = s + 2 + 2 * q := by omega
            have e2 : s + min (2 * (q + 1) + 1) (m + 2 - 1) = s + 2 + min (2 * q + 1) (m - 1) := by
              omega
            rw [e1] at hl' ⊢
            rw [e2] at hr' ⊢
            have hl1 : g[s + 2 + 2 * q]? = some l' := by
              rw [hN _, if_neg (by omega), if_neg (by omega), hl']
            have hr1 : g[s + 2 + min (2 * q + 1) (m - 1)]? = some r' := by
              rw [hN _, if_neg (by omega), if_neg (by omega), hr']
            have e := hspec.fresh q l' r' (by omega) hl1 hr1
            have e3 : h.length + (q + 1) = g.length + q := by omega
            rw [e3, e]

/-! ## The leaf loop -/

theorem setTxIndex_length (h : Heap) (p : Nat) (i : Int) :
    (setTxIndex h p i).length = h.length := by
  unfold setTxIndex
  split <;> simp

theorem setTxIndex_getElem? (h : Heap) (p : Nat) (i : Int) (a : Nat) :
    (setTxIndex h p i)[a]? =
      if a = p then (h[a]?).map (fun n => { n with TxIndex := i }) else h[a]? := by
  unfold setTxIndex
  split
  · rename_i n hn
    rw [List.getElem?_set]
    have hp : p < h.length := by
      by_contra hc
      rw [List.getElem?_eq_none (by omega)] at hn
      exact Option.noConfusion hn
    by_cases hap : a = p
    · subst hap
      simp [hp, hn]
    · have : ¬ p = a := fun e => hap e.symm
      simp [hap, this]
  · rename_i hn
    by_cases hap : a = p
    · subst hap
      simp [hn]
    · simp [hap]

theorem makeLeaves_spec :
    ∀ (hs : List (List UInt8)) (h : Heap) (i : Nat),
      ∃ h', makeLeaves h i hs = (h', List.range' h.length hs.length) ∧
        h'.length = h.length + hs.length ∧
        (∀ a, a < h.length → h'[a]? = h[a]?) ∧
        (∀ k hash, hs[k]? = some hash → h'[h.length + k]? = some (leafNode (i + k) hash))
  | [], h, i => ⟨h, rfl, rfl, fun _ _ => rfl, fun k hash hk => by simp at hk⟩
  | hash :: rest, h, i => by
      have hlen : (setTxIndex (NewMerkleNode h (copy32 zeroHash hash) none none).1
          h.length i).length = h.length + 1 := by
        rw [setTxIndex_length, NewMerkleNode_length]
      have hget : ∀ a, (setTxIndex (NewMerkleNode h (copy32 zeroHash hash) none none).1
          h.length i)[a]? =
          if a = h.length then some (leafNode i hash) else h[a]? := by
        intro a
        rw [setTxIndex_getElem?]
        simp only [NewMerkleNode]
        by_cases ha : a = h.length
        · subst ha
          simp [leafNode]
        · rw [if_neg ha, if_neg ha]
          by_cases hlt : a < h.length
          · rw [List.getElem?_append_left hlt]
          · rw [List.getElem?_eq_none (by simp; omega), List.getElem?_eq_none (by omega)]
      generalize hg : setTxIndex (NewMerkleNode h (copy32 zeroHash hash) none none).1
          h.length i = g at hlen hget
      obtain ⟨h', hrun, hl', hold, hnew⟩ := makeLeaves_spec rest g (i + 1)
      refine ⟨h', ?_, ?_, ?_, ?_⟩
      · simp only [makeLeaves, NewMerkleNode_snd, hg, hrun, List.length_cons,
          List.range'_succ, hlen]
      · rw [hl', hlen, List.length_cons]; omega
      · intro a ha
        rw [hold a (by omega), hget a, if_neg (by omega)]
      · intro k hash' hk
        cases k with
        | zero =>
            simp at hk
            subst hk
            rw [hold _ (by omega), hget, if_pos (by omega)]
            simp
        | succ k =>
            simp at hk
            have e := hnew k hash' hk
            have e1 : g.length + k = h.length + (k + 1) := by omega
            have e2 : i + 1 + k = i + (k + 1) := by omega
            rw [e1, e2] at e
            exact e

/-! ## Walking up the parent pointers -/

theorem Walk.append {h : Heap} {a b c : Nat} {p1 p2 : List (List UInt8 × Bool)}
    (w1 : Walk h a p1 b) (w2 : Walk h b p2 c) : Walk h a (p1 ++ p2) c := by
  induction w1 with
  | done a => simpa using w2
  | step a p s e cur par sib path h1 h2 h3 h4 h5 _ ih =>
      exact Walk.step a p s c cur par sib (path ++ p2) h1 h2 h3 h4 h5 (ih w2)

theorem proofLoop_of_walk {h : Heap} {a e : Nat} {path : List (List UInt8 × Bool)}
    (w : Walk h a path e) (nd : MerkleNode) (he : h[e]? = some nd) (hp : nd.Parent = none) :
    ∀ (fuel : Nat), path.length ≤ fuel → ∀ (H : List (List UInt8)) (F : List Bool),
      proofLoop fuel h a H F = some (H ++ path.map Prod.fst, F ++ path.map Prod.snd) := by
  induction w with
  | done a =>
      intro fuel _ H F
      unfold proofLoop
      simp [he, hp]
  | step a p s e cur par sib path h1 h2 h3 h4 h5 _ ih =>
      intro fuel hf H F
      obtain ⟨f, rfl⟩ : ∃ f, fuel = f + 1 := ⟨fuel - 1, by simp at hf; omega⟩
      have hsib : GetSibling h a = some (some s) := by
        simp only [GetSibling, h1, h2, h3, Option.bind_eq_bind, Option.some_bind]
        split_ifs with hc
        · rw [if_pos hc] at h4; rw [h4]
        · rw [if_neg hc] at h4; rw [h4]
      have hcopy : copyBytes (List.replicate 32 0) sib.Hash.val = sib.Hash.val :=
        copyBytes_eq_of_length _ _ (by simp [sib.Hash.property])
      unfold proofLoop
      simp only [h1, h2, h3, h5, hsib, hcopy, Option.bind_eq_bind, Option.some_bind]
      rw [ih he (f) (by simp at hf; omega)]
      simp

/-- Fields other than the parent pointer survive a pass of the inner loop, and
so does the parent pointer of every node that has one. -/
theorem PairSpec.preserved {Sum256 : List UInt8 → Hash32} {h h' : Heap} {s m : Nat}
    (sp : PairSpec Sum256 h s m h')
    (hcur : ∀ j nd, j < m → h[s + j]? = some nd → nd.Parent = none)
    (a : Nat) (n : MerkleNode) (ha : h[a]? = some n) :
    ∃ n', h'[a]? = some n' ∧ n'.Hash = n.Hash ∧ n'.Left = n.Left ∧ n'.Right = n.Right ∧
      n'.IsLeaf = n.IsLeaf ∧ n'.TxIndex = n.TxIndex ∧ (n.Parent ≠ none → n'.Parent = n.Parent) := by
  have hlt : a < h.length := by
    by_contra hc
    rw [List.getElem?_eq_none (by omega)] at ha
    exact Option.noConfusion ha
  by_cases hin : a < s ∨ s + m ≤ a
  · exact ⟨n, by rw [sp.outside a hlt hin, ha], rfl, rfl, rfl, rfl, rfl, fun _ => rfl⟩
  · obtain ⟨j, rfl⟩ : ∃ j, a = s + j := ⟨a - s, by omega⟩
    have hj : j < m := by omega
    refine ⟨withParent (h.length + j / 2) n, by rw [sp.inside j hj, ha]; rfl,
      rfl, rfl, rfl, rfl, rfl, ?_⟩
    intro hne
    exact absurd (hcur j n hj ha) hne

theorem Walk.frame {Sum256 : List UInt8 → Hash32} {h h' : Heap} {s m : Nat}
    (sp : PairSpec Sum256 h s m h')
    (hcur : ∀ j nd, j < m → h[s + j]? = some nd → nd.Parent = none)
    {a e : Nat} {path : List (List UInt8 × Bool)} (w : Walk h a path e) :
    Walk h' a path e := by
  induction w with
  | done a => exact Walk.done a
  | step a p s0 e cur par sib path h1 h2 h3 h4 h5 _ ih =>
      obtain ⟨cur', c1, _, _, _, _, _, c7⟩ := sp.preserved hcur a cur h1
      obtain ⟨par', p1, _, p3, p4, _, _, _⟩ := sp.preserved hcur p par h3
      obtain ⟨sib', s1, s2, _, _, _, _, _⟩ := sp.preserved hcur s0 sib h5
      have hpar : cur'.Parent = some p := by
        rw [c7 (by rw [h2]; exact Option.noConfusion), h2]
      have hs : (if par'.Left = some a then par'.Right else par'.Left) = some s0 := by
        rw [p3, p4]; exact h4
      have := Walk.step a p s0 e cur' par' sib' path c1 hpar p1 hs s1 ih
      rw [s2, p4] at this
      exact this

/-! ## Reference functions on the list of hashes of a level -/

theorem refPathAux_fuel (Sum256 : List UInt8 → Hash32) :
    ∀ (f1 f2 : Nat) (L : List Hash32) (j : Nat), L.length ≤ f1 + 1 → L.length ≤ f2 + 1 →
      refPathAux Sum256 f1 L j = refPathAux Sum256 f2 L j := by
  intro f1
  induction f1 with
  | zero =>
      intro f2 L j h1 _
      cases f2 with
      | zero => rfl
      | succ f2 => simp only [refPathAux, if_neg (show ¬ 1 < L.length by omega)]
  | succ f1 ih =>
      intro f2 L j h1 h2
      by_cases hL : 1 < L.length
      · obtain ⟨g, rfl⟩ : ∃ g, f2 = g + 1 := ⟨f2 - 1, by omega⟩
        have hn := nextHashes_length Sum256 L
        simp only [refPathAux, if_pos hL]
        rw [ih g (nextHashes Sum256 L) (j / 2) (by omega) (by omega)]
      · cases f2 with
        | zero => simp only [refPathAux, if_neg hL]
        | succ f2 => simp only [refPathAux, if_neg hL]

theorem rootHashAux_fuel (Sum256 : List UInt8 → Hash32) :
    ∀ (f1 f2 : Nat) (L : List Hash32), L.length ≤ f1 + 1 → L.length ≤ f2 + 1 →
      rootHashAux Sum256 f1 L = rootHashAux Sum256 f2 L := by
  intro f1
  induction f1 with
  | zero =>
      intro f2 L h1 _
      cases f2 with
      | zero => rfl
      | succ f2 => simp only [rootHashAux, if_neg (show ¬ 1 < L.length by omega)]
  | succ f1 ih =>
      intro f2 L h1 h2
      by_cases hL : 1 < L.length
      · obtain ⟨g, rfl⟩ : ∃ g, f2 = g + 1 := ⟨f2 - 1, by omega⟩
        have hn := nextHashes_length Sum256 L
        simp only [rootHashAux, if_pos hL]
        rw [ih g (nextHashes Sum256 L) (by omega) (by omega)]
      · cases f2 with
        | zero => simp only [rootHashAux, if_neg hL]
        | succ f2 => simp only [rootHashAux, if_neg hL]

theorem numLevelsAux_fuel :
    ∀ (f1 f2 n : Nat), n ≤ f1 + 1 → n ≤ f2 + 1 → numLevelsAux f1 n = numLevelsAux f2 n := by
  intro f1
  induction f1 with
  | zero =>
      intro f2 n h1 _
      cases f2 with
      | zero => rfl
      | succ f2 => simp only [numLevelsAux, if_neg (show ¬ 1 < n by omega)]
  | succ f1 ih =>
      intro f2 n h1 h2
      by_cases hL : 1 < n
      · obtain ⟨g, rfl⟩ : ∃ g, f2 = g + 1 := ⟨f2 - 1, by omega⟩
        simp only [numLevelsAux, if_pos hL]
        rw [ih g ((n + 1) / 2) (by omega) (by omega)]
      · cases f2 with
        | zero => simp only [numLevelsAux, if_neg hL]
        | succ f2 => simp only [numLevelsAux, if_neg hL]

theorem refPath_of_lt (Sum256 : List UInt8 → Hash32) (L : List Hash32) (j : Nat)
    (h : 1 < L.length) :
    refPath Sum256 L j =
      ((siblingHash L j).val, decide (j % 2 = 0)) ::
        refPath Sum256 (nextHashes Sum256 L) (j / 2) := by
  have hn := nextHashes_length Sum256 L
  rw [refPath, refPathAux_fuel Sum256 L.length (L.length - 1 + 1) L j (by omega) (by omega)]
  simp only [refPathAux, if_pos h]
  rw [refPath, refPathAux_fuel Sum256 (L.length - 1) (nextHashes Sum256 L).length _ _
    (by omega) (by omega)]

theorem refPath_of_le (Sum256 : List UInt8 → Hash32) (L : List Hash32) (j : Nat)
    (h : L.length ≤ 1) : refPath Sum256 L j = [] := by
  rw [refPath, refPathAux_fuel Sum256 L.length 0 L j (by omega) (by omega)]
  rfl

theorem rootHash_of_lt (Sum256 : List UInt8 → Hash32) (L : List Hash32) (h : 1 < L.length) :
    rootHash Sum256 L = rootHash Sum256 (nextHashes Sum256 L) := by
  have hn := nextHashes_length Sum256 L
  rw [rootHash, rootHashAux_fuel Sum256 L.length (L.length - 1 + 1) L (by omega) (by omega)]
  simp only [rootHashAux, if_pos h]
  rw [rootHash, rootHashAux_fuel Sum256 (L.length - 1) (nextHashes Sum256 L).length _
    (by omega) (by omega)]

theorem rootHash_of_le (Sum256 : List UInt8 → Hash32) (L : List Hash32) (h : L.length ≤ 1) :
    rootHash Sum256 L = (L[0]?).getD zeroHash := by
  rw [rootHash, rootHashAux_fuel Sum256 L.length 0 L (by omega) (by omega)]
  rfl

theorem numLevels_of_lt (n : Nat) (h : 1 < n) : numLevels n = numLevels ((n + 1) / 2) + 1 := by
  rw [numLevels, numLevelsAux_fuel n (n - 1 + 1) n (by omega) (by omega)]
  simp only [numLevelsAux, if_pos h]
  rw [numLevels, numLevelsAux_fuel (n - 1) ((n + 1) / 2) _ (by omega) (by omega)]

theorem numLevels_of_le (n : Nat) (h : n ≤ 1) : numLevels n = 1 := by
  rw [numLevels, numLevelsAux_fuel n 0 n (by omega) (by omega)]
  rfl

/-! ## The invariant of the outer loop -/

theorem LevelAt.parent_none {h : Heap} {s : Nat} {L : List Hash32} (lv : LevelAt h s L) :
    ∀ j nd, j < L.length → h[s + j]? = some nd → nd.Parent = none := by
  intro j nd hj hnd
  obtain ⟨nd', h1, _, h3⟩ := lv j hj
  rw [h1] at hnd
  cases hnd
  exact h3

theorem LevelAt.pair_hash (Sum256 : List UInt8 → Hash32) {h : Heap} {s : Nat} {L : List Hash32}
    (lv : LevelAt h s L) (q : Nat) (hq : q < (L.length + 1) / 2) :
    ∃ l r, h[s + 2 * q]? = some l ∧ h[s + min (2 * q + 1) (L.length - 1)]? = some r ∧
      (nextHashes Sum256 L)[q]? = some (calculateParentHash Sum256 l.Hash r.Hash) := by
  obtain ⟨l, hl1, hl2, _⟩ := lv (2 * q) (by omega)
  obtain ⟨r, hr1, hr2, _⟩ := lv (min (2 * q + 1) (L.length - 1)) (by omega)
  refine ⟨l, r, hl1, hr1, ?_⟩
  rw [nextHashes_getElem? Sum256 L q l.Hash hl2]
  by_cases hc : 2 * q + 1 < L.length
  · have e : min (2 * q + 1) (L.length - 1) = 2 * q + 1 := by omega
    rw [e] at hr2
    rw [hr2]; rfl
  · have e : min (2 * q + 1) (L.length - 1) = 2 * q := by omega
    rw [e] at hr2
    rw [hl2] at hr2
    have e3 : l.Hash = r.Hash := Option.some.inj hr2
    rw [List.getElem?_eq_none (by omega), ← e3]; rfl

theorem LevelAt.next {Sum256 : List UInt8 → Hash32} {h h' : Heap} {s : Nat} {L : List Hash32}
    (lv : LevelAt h s L) (sp : PairSpec Sum256 h s L.length h') :
    LevelAt h' h.length (nextHashes Sum256 L) := by
  intro q hq
  rw [nextHashes_length] at hq
  obtain ⟨l, r, hl, hr, hn⟩ := lv.pair_hash Sum256 q hq
  exact ⟨_, sp.fresh q l r hq hl hr, hn, rfl⟩

/-- One more iteration of the proof loop after a pass of the inner loop: from
position `j` of the paired level to its parent. -/
theorem Walk.climb {Sum256 : List UInt8 → Hash32} {h h' : Heap} {s : Nat} {L : List Hash32}
    (lv : LevelAt h s L) (sp : PairSpec Sum256 h s L.length h') (j : Nat) (hj : j < L.length) :
    Walk h' (s + j) [((siblingHash L j).val, decide (j % 2 = 0))] (h.length + j / 2) := by
  obtain ⟨cur, hc1, hc2, _⟩ := lv j hj
  have hcur' : h'[s + j]? = some (withParent (h.length + j / 2) cur) := by
    rw [sp.inside j hj, hc1]; rfl
  obtain ⟨l, r, hl, hr, _⟩ := lv.pair_hash Sum256 (j / 2) (by omega)
  have hpar := sp.fresh (j / 2) l r (by omega) hl hr
  by_cases hev : j % 2 = 0
  · have e2 : 2 * (j / 2) = j := by omega
    rw [e2] at hpar
    obtain ⟨sib, hs1, hs2, _⟩ := lv (min (j + 1) (L.length - 1)) (by omega)
    have hsib' : h'[s + min (j + 1) (L.length - 1)]? =
        some (withParent (h.length + min (j + 1) (L.length - 1) / 2) sib) := by
      rw [sp.inside _ (by omega), hs1]; rfl
    have hsh : siblingHash L j = sib.Hash := by
      rw [siblingHash, if_pos hev]
      by_cases hc : j + 1 < L.length
      · have e : min (j + 1) (L.length - 1) = j + 1 := by omega
        rw [e] at hs2
        rw [hs2]; rfl
      · have e : min (j + 1) (L.length - 1) = j := by omega
        rw [e] at hs2
        rw [List.getElem?_eq_none (by omega), hs2]; rfl
    have := Walk.step (h := h') (s + j) (h.length + j / 2) (s + min (j + 1) (L.length - 1))
      (h.length + j / 2) _ _ _ [] hcur' rfl hpar (by simp [innerNode]) hsib' (Walk.done _)
    rw [hsh]
    simpa [innerNode, withParent, hev] using this
  · have e2 : 2 * (j / 2) = j - 1 := by omega
    have e3 : min (2 * (j / 2) + 1) (L.length - 1) = j := by omega
    rw [e3, e2] at hpar
    obtain ⟨sib, hs1, hs2, _⟩ := lv (j - 1) (by omega)
    have hsib' : h'[s + (j - 1)]? = some (withParent (h.length + (j - 1) / 2) sib) := by
      rw [sp.inside _ (by omega), hs1]; rfl
    have hsh : siblingHash L j = sib.Hash := by
      rw [siblingHash, if_neg hev, hs2]; rfl
    have hne : ¬ (s + (j - 1) = s + j) := by omega
    have hne2 : ¬ (s + j = s + (j - 1)) := by omega
    have := Walk.step (h := h') (s + j) (h.length + j / 2) (s + (j - 1))
      (h.length + j / 2) _ _ _ [] hcur' rfl hpar (by simp [innerNode, hne]) hsib' (Walk.done _)
    rw [hsh]
    simpa [innerNode, withParent, hev, hne2] using this

theorem BuildInv.step {Sum256 : List UInt8 → Hash32} {L0 L : List Hash32} {h h' : Heap} {s : Nat}
    (inv : BuildInv Sum256 L0 h s L) (hm : 1 < L.length)
    (sp : PairSpec Sum256 h s L.length h') :
    BuildInv Sum256 L0 h' h.length (nextHashes Sum256 L) where
  len := by rw [sp.len, nextHashes_length]
  pos := by rw [nextHashes_length]; omega
  level := inv.level.next sp
  leaf := by
    intro i hi
    obtain ⟨nd, h1, h2, h3, h4⟩ := inv.leaf i hi
    obtain ⟨nd', g1, g2, _, _, g5, g6, _⟩ := sp.preserved inv.level.parent_none i nd h1
    exact ⟨nd', g1, by rw [g2]; exact h2, by rw [g6]; exact h3, by rw [g5]; exact h4⟩
  walk := by
    intro i hi
    obtain ⟨P, j, hj, w, e⟩ := inv.walk i hi
    refine ⟨P ++ [((siblingHash L j).val, decide (j % 2 = 0))], j / 2, ?_, ?_, ?_⟩
    · rw [nextHashes_length]; omega
    · exact (w.frame sp inv.level.parent_none).append (Walk.climb inv.level sp j hj)
    · rw [e, refPath_of_lt Sum256 L j hm]; simp
  root := by rw [inv.root, rootHash_of_lt Sum256 L hm]
  size := by have := inv.size; rw [sp.len]; omega

theorem buildLevels_spec (Sum256 : List UInt8 → Hash32) (L0 : List Hash32) :
    ∀ (fuel : Nat) (h : Heap) (s : Nat) (L : List Hash32) (levels : List (List Nat)),
      BuildInv Sum256 L0 h s L → L.length ≤ fuel + 1 →
      ∃ h' levels' r,
        buildLevels Sum256 fuel h levels (List.range' s L.length) = some (h', levels', [r]) ∧
        levels'.length + 1 = levels.length + numLevels L.length ∧
        BuildResult Sum256 L0 h' r := by
  intro fuel
  induction fuel with
  | zero =>
      intro h s L levels inv hf
      have h1 : L.length = 1 := by have := inv.pos; omega
      refine ⟨h, levels, s, ?_, ?_, ?_⟩
      · simp [buildLevels, h1]
      · rw [h1, numLevels_of_le 1 (by omega)]
      · obtain ⟨nd, g1, g2, g3⟩ := inv.level 0 (by omega)
        refine ⟨⟨nd, g1, ?_, g3⟩, inv.leaf, ?_, ?_⟩
        · rw [inv.root, rootHash_of_le Sum256 L (by omega), g2]; rfl
        · intro i hi
          obtain ⟨P, j, hj, w, e⟩ := inv.walk i hi
          have hj0 : j = 0 := by omega
          subst hj0
          rw [e, refPath_of_le Sum256 L 0 (by omega), List.append_nil]
          exact w
        · exact inv.size
  | succ f ih =>
      intro h s L levels inv hf
      by_cases h1 : 1 < L.length
      · obtain ⟨h1', hrun, sp⟩ := pairLevel_spec Sum256 L.length h s (by rw [inv.len])
        have inv' := inv.step h1 sp
        have hlen := nextHashes_length Sum256 L
        obtain ⟨h', levels', r, hb, hd, hres⟩ := ih h1' h.length (nextHashes Sum256 L)
          (levels ++ [List.range' h.length ((L.length + 1) / 2)]) inv' (by omega)
        refine ⟨h', levels', r, ?_, ?_, hres⟩
        · rw [hlen] at hb
          simp only [buildLevels, h1, if_true, hrun, Option.bind_eq_bind, Option.some_bind, hb,
            gt_iff_lt, List.length_range']
        · rw [numLevels_of_lt _ h1, ← hlen]
          simp at hd
          omega
      · have h1 : L.length = 1 := by have := inv.pos; omega
        refine ⟨h, levels, s, ?_, ?_, ?_⟩
        · simp [buildLevels, h1]
        · rw [h1, numLevels_of_le 1 (by omega)]
        · obtain ⟨nd, g1, g2, g3⟩ := inv.level 0 (by omega)
          refine ⟨⟨nd, g1, ?_, g3⟩, inv.leaf, ?_, ?_⟩
          · rw [inv.root, rootHash_of_le Sum256 L (by omega), g2]; rfl
          · intro i hi
            obtain ⟨P, j, hj, w, e⟩ := inv.walk i hi
            have hj0 : j = 0 := by omega
            subst hj0
            rw [e, refPath_of_le Sum256 L 0 (by omega), List.append_nil]
            exact w
          · exact inv.size

/-! ## The tree built by `NewMerkleTree` -/

theorem leafHashes_length (txHashes : List (List UInt8)) :
    (leafHashes txHashes).length = txHashes.length := by
  simp [leafHashes]

theorem any_length_ne_eq_false (txHashes : List (List UInt8))
    (h32 : ∀ x ∈ txHashes, x.length = 32) :
    txHashes.any (fun hash => hash.length != 32) = false := by
  rw [List.any_eq_false]
  intro x hx
  simp [h32 x hx]

theorem NewMerkleTree_spec (Sum256 : List UInt8 → Hash32) (txHashes : List (List UInt8))
    (hne : txHashes ≠ []) (h32 : ∀ x ∈ txHashes, x.length = 32) :
    ∃ t, NewMerkleTree Sum256 txHashes = some t ∧ TreeSpec Sum256 txHashes t := by
  have hpos : 0 < txHashes.length := List.length_pos.mpr hne
  obtain ⟨h0, hrun, hlen, _, hnew⟩ := makeLeaves_spec txHashes [] 0
  simp only [List.length_nil, Nat.zero_add] at hrun hlen hnew
  have hnode : ∀ j, j < txHashes.length → ∃ nd, h0[j]? = some nd ∧
      (leafHashes txHashes)[j]? = some nd.Hash ∧ nd.Parent = none ∧
      nd.TxIndex = (j : Int) ∧ nd.IsLeaf = true := by
    intro j hj
    have hx : txHashes[j]? = some txHashes[j] := List.getElem?_eq_getElem hj
    refine ⟨leafNode j txHashes[j], hnew j _ hx, ?_, rfl, rfl, rfl⟩
    simp [leafHashes, hx, leafNode]
  have inv : BuildInv Sum256 (leafHashes txHashes) h0 0 (leafHashes txHashes) := by
    refine ⟨by rw [hlen, leafHashes_length]; omega, by rw [leafHashes_length]; exact hpos,
      ?_, ?_, ?_, rfl, by rw [hlen, leafHashes_length]⟩
    · intro j hj
      rw [leafHashes_length] at hj
      obtain ⟨nd, g1, g2, g3, _, _⟩ := hnode j hj
      exact ⟨nd, by rw [Nat.zero_add]; exact g1, g2, g3⟩
    · intro i hi
      rw [leafHashes_length] at hi
      obtain ⟨nd, g1, g2, _, g4, g5⟩ := hnode i hi
      exact ⟨nd, g1, g2, g4, g5⟩
    · intro i hi
      exact ⟨[], i, hi, by rw [Nat.zero_add]; exact Walk.done i, rfl⟩
  obtain ⟨h', levels', r, hb, hd, hres⟩ := buildLevels_spec Sum256 (leafHashes txHashes)
    txHashes.length h0 0 (leafHashes txHashes) [List.range' 0 txHashes.length] inv
    (by rw [leafHashes_length]; omega)
  rw [leafHashes_length] at hb hd
  refine ⟨{ heap := h', Root := some r, Leaves := List.range' 0 txHashes.length,
            Levels := levels', TransactionCount := txHashes.length,
            TreeDepth := levels'.length }, ?_, ?_⟩
  · have hz : ¬ txHashes.length = 0 := by omega
    simp only [NewMerkleTree, hz, if_false, any_length_ne_eq_false txHashes h32, hrun, hb]
    simp
  · refine ⟨rfl, rfl, rfl, ?_, r, rfl, hres⟩
    simp only [List.length_singleton] at hd
    show levels'.length = numLevels txHashes.length
    omega

theorem numLevels_le : ∀ n : Nat, 1 ≤ n → numLevels n ≤ n := by
  intro n
  induction n using Nat.strong_induction_on with
  | _ n ih =>
      intro hn
      by_cases h1 : 1 < n
      · rw [numLevels_of_lt n h1]
        have := ih ((n + 1) / 2) (by omega) (by omega)
        omega
      · rw [numLevels_of_le n (by omega)]
        exact hn

theorem refPath_length (Sum256 : List UInt8 → Hash32) :
    ∀ (n : Nat) (L : List Hash32) (j : Nat), L.length = n →
      (refPath Sum256 L j).length + 1 = numLevels n := by
  intro n
  induction n using Nat.strong_induction_on with
  | _ n ih =>
      intro L j hL
      by_cases h1 : 1 < n
      · rw [refPath_of_lt Sum256 L j (by omega), numLevels_of_lt n h1, List.length_cons,
          ih ((n + 1) / 2) (by omega) (nextHashes Sum256 L) (j / 2)
            (by rw [nextHashes_length, hL])]
      · rw [refPath_of_le Sum256 L j (by omega), numLevels_of_le n (by omega)]
        rfl

/-- The proof that `GenerateProof` returns for a leaf of a built tree. -/
theorem GenerateProof_spec {Sum256 : List UInt8 → Hash32} {txHashes : List (List UInt8)}
    {t : MerkleTree} (ts : TreeSpec Sum256 txHashes t)
    (i : Nat) (hi : i < txHashes.length) :
    ∃ leaf, (leafHashes txHashes)[i]? = some leaf ∧
      GenerateProof t (i : Int) = some (some
        { TransactionHash := leaf, TransactionIndex := (i : Int),
          MerkleRoot := rootHash Sum256 (leafHashes txHashes),
          ProofHashes := (refPath Sum256 (leafHashes txHashes) i).map Prod.fst,
          ProofFlags := (refPath Sum256 (leafHashes txHashes) i).map Prod.snd,
          TreeDepth := t.TreeDepth }) := by
  obtain ⟨r, hr, res⟩ := ts.root
  obtain ⟨rn, hr1, hr2, hr3⟩ := res.root
  have hi' : i < (leafHashes txHashes).length := by rw [leafHashes_length]; exact hi
  obtain ⟨nd, hn1, hn2, _, _⟩ := res.leaf i hi'
  have hw := res.walk i hi'
  have hfuel : (refPath Sum256 (leafHashes txHashes) i).length ≤ t.heap.length := by
    have h1 := refPath_length Sum256 _ (leafHashes txHashes) i rfl
    have h2 := numLevels_le (leafHashes txHashes).length (by omega)
    have h3 := res.size
    omega
  have hloop := proofLoop_of_walk hw rn hr1 hr3 t.heap.length hfuel [] []
  refine ⟨nd.Hash, hn2, ?_⟩
  have hc : ¬ ((i : Int) < 0 ∨ (i : Int) ≥ (t.Leaves.length : Int)) := by
    rw [ts.leaves]; simp; omega
  have hleaf : t.Leaves[i]? = some i := by
    rw [ts.leaves, List.getElem?_range' _ _ hi]; simp
  simp only [GenerateProof, hc, if_false, hr, Int.toNat_ofNat, hleaf, hn1, hr1, NewMerkleProof,
    hloop, Option.bind_eq_bind, Option.some_bind, List.nil_append, hr2]

/-! ## Verification -/

theorem tmod_two_natCast (j : Nat) : (j : Int).tmod 2 = ((j % 2 : Nat) : Int) :=
  (Int.ofNat_tmod j 2).symm

theorem tdiv_two_natCast (j : Nat) : (j : Int).tdiv 2 = ((j / 2 : Nat) : Int) :=
  (Int.ofNat_tdiv j 2).symm

theorem tmod_two_eq_zero_iff (j : Nat) : (j : Int).tmod 2 = 0 ↔ j % 2 = 0 := by
  rw [tmod_two_natCast]; norm_cast

/-- One step of the loop of `VerifyMerkleProof` for a 32-byte sibling and the expected flag. -/
theorem verifyLoop_cons (Sum256 : List UInt8 → Hash32) (sib : List UInt8)
    (hashes : List (List UInt8)) (flags : List Bool) (cur : Hash32) (c : Nat)
    (h32 : sib.length = 32) :
    verifyLoop Sum256 (sib :: hashes) (decide (c % 2 = 0) :: flags) cur (c : Int) =
      verifyLoop Sum256 hashes flags
        (copy32 zeroHash (if c % 2 = 0 then Utils.DoubleSHA256 Sum256 (cur.val ++ sib)
          else Utils.DoubleSHA256 Sum256 (sib ++ cur.val)))
        ((c / 2 : Nat) : Int) := by
  have hs : (copy32 zeroHash sib).val = sib := copy32_val _ _ h32
  by_cases hc : c % 2 = 0
  · have hc' : (c : Int).tmod 2 = 0 := (tmod_two_eq_zero_iff c).mpr hc
    simp only [verifyLoop, h32, hc, hc', hs, tdiv_two_natCast, ne_eq, not_true_eq_false,
      if_false, if_true, decide_True]
    rw [copy32_congr cur zeroHash _ (Utils.DoubleSHA256_length _ _)]
  · have hc' : ¬ (c : Int).tmod 2 = 0 := fun e => hc ((tmod_two_eq_zero_iff c).mp e)
    simp only [verifyLoop, h32, hc, hc', hs, tdiv_two_natCast, ne_eq, not_true_eq_false,
      if_false, decide_False]
    rw [copy32_congr cur zeroHash _ (Utils.DoubleSHA256_length _ _)]

theorem verifyLoop_bad_length (Sum256 : List UInt8 → Hash32) (sib : List UInt8)
    (hashes : List (List UInt8)) (flags : List Bool) (cur : Hash32) (c : Int)
    (h32 : sib.length ≠ 32) :
    verifyLoop Sum256 (sib :: hashes) flags cur c = none := by
  simp [verifyLoop, h32]

theorem verifyLoop_bad_flag (Sum256 : List UInt8 → Hash32) (sib : List UInt8)
    (hashes : List (List UInt8)) (f : Bool) (flags : List Bool) (cur : Hash32) (c : Nat)
    (hf : f ≠ decide (c % 2 = 0)) :
    verifyLoop Sum256 (sib :: hashes) (f :: flags) cur (c : Int) = none := by
  by_cases h32 : sib.length = 32
  · have e : decide ((c : Int).tmod 2 = 0) = decide (c % 2 = 0) := by
      rw [decide_eq_decide]; exact tmod_two_eq_zero_iff c
    simp [verifyLoop, h32, e, hf]
  · exact verifyLoop_bad_length _ _ _ _ _ _ h32

/-- The loop of `VerifyMerkleProof`, started at step `k` of index `n`, ends with
the hash `out` exactly when every sibling has 32 bytes, every flag is the
expected one and the fold of the path is `out`. -/
theorem verifyLoop_eq_some_iff (Sum256 : List UInt8 → Hash32) (n : Nat) :
    ∀ (hashes : List (List UInt8)) (flags : List Bool) (cur out : Hash32) (k : Nat),
      hashes.length = flags.length →
      (verifyLoop Sum256 hashes flags cur ((n / 2 ^ k : Nat) : Int) = some out ↔
        (∀ s ∈ hashes, s.length = 32) ∧
        (∀ t, t < flags.length → flags[t]? = some (decide ((n / 2 ^ (k + t)) % 2 = 0))) ∧
        specFold Sum256 n k hashes cur.val = out.val)
  | [], flags, cur, out, k, hlen => by
      have hf : flags = [] := List.length_eq_zero.mp hlen.symm
      subst hf
      simp only [verifyLoop, specFold, Option.some.injEq, List.not_mem_nil, false_implies,
        implies_true, List.length_nil, Nat.not_lt_zero, true_and]
      exact ⟨fun e => by rw [e], fun e => Subtype.ext e⟩
  | sib :: hashes, [], cur, out, k, hlen => by simp at hlen
  | sib :: hashes, f :: flags, cur, out, k, hlen => by
      have hlen' : hashes.length = flags.length := by simpa using hlen
      by_cases h32 : sib.length = 32
      · by_cases hf : f = decide ((n / 2 ^ k) % 2 = 0)
        · subst hf
          have hdiv : n / 2 ^ k / 2 = n / 2 ^ (k + 1) := by
            rw [Nat.div_div_eq_div_mul, pow_succ]
          rw [verifyLoop_cons Sum256 sib hashes flags cur _ h32, hdiv,
            verifyLoop_eq_some_iff Sum256 n hashes flags _ out (k + 1) hlen']
          have hv : (copy32 zeroHash (if n / 2 ^ k % 2 = 0 then
              Utils.DoubleSHA256 Sum256 (cur.val ++ sib)
              else Utils.DoubleSHA256 Sum256 (sib ++ cur.val))).val =
              (if n / 2 ^ k % 2 = 0 then Utils.DoubleSHA256 Sum256 (cur.val ++ sib)
              else Utils.DoubleSHA256 Sum256 (sib ++ cur.val)) := by
            apply copy32_val
            split_ifs <;> exact Utils.DoubleSHA256_length _ _
          rw [hv]
          constructor
          · rintro ⟨a1, a2, a3⟩
            refine ⟨?_, ?_, a3⟩
            · intro s hs
              rcases List.mem_cons.mp hs with rfl | hs
              · exact h32
              · exact a1 s hs
            · intro t ht
              cases t with
              | zero => simp
              | succ t =>
                  have := a2 t (by simpa using ht)
                  rw [List.getElem?_cons_succ, this]
                  have e : k + 1 + t = k + (t + 1) := by omega
                  rw [e]
          · rintro ⟨a1, a2, a3⟩
            refine ⟨fun s hs => a1 s (List.mem_cons_of_mem _ hs), ?_, a3⟩
            intro t ht
            have := a2 (t + 1) (by simpa using ht)
            rw [List.getElem?_cons_succ] at this
            rw [this]
            have e : k + 1 + t = k + (t + 1) := by omega
            rw [e]
        · rw [verifyLoop_bad_flag Sum256 sib hashes f flags cur _ hf]
          constructor
          · intro e; exact Option.noConfusion e
          · rintro ⟨_, a2, _⟩
            have := a2 0 (by simp)
            simp at this
            exact absurd this hf
      · rw [verifyLoop_bad_length Sum256 sib hashes _ cur _ h32]
        constructor
        · intro e; exact Option.noConfusion e
        · rintro ⟨a1, _, _⟩
          exact absurd (a1 sib (List.mem_cons_self _ _)) h32

/-! ## The reference path verifies -/

theorem nextHashes_at (Sum256 : List UInt8 → Hash32) (L : List Hash32) (c : Nat) (cur : Hash32)
    (hc : L[c]? = some cur) :
    ∃ cur', (nextHashes Sum256 L)[c / 2]? = some cur' ∧
      cur'.val = if c % 2 = 0 then Utils.DoubleSHA256 Sum256 (cur.val ++ (siblingHash L c).val)
        else Utils.DoubleSHA256 Sum256 ((siblingHash L c).val ++ cur.val) := by
  have hlt : c < L.length := by
    by_contra hn
    rw [List.getElem?_eq_none (by omega)] at hc
    exact Option.noConfusion hc
  by_cases hev : c % 2 = 0
  · have e : 2 * (c / 2) = c := by omega
    have h2 : L[2 * (c / 2)]? = some cur := by rw [e]; exact hc
    refine ⟨_, nextHashes_getElem? Sum256 L (c / 2) cur h2, ?_⟩
    rw [calculateParentHash_val, if_pos hev, e, siblingHash, if_pos hev, hc]
    rfl
  · have e : 2 * (c / 2) = c - 1 := by omega
    have e' : 2 * (c / 2) + 1 = c := by omega
    obtain ⟨a, ha⟩ : ∃ a, L[c - 1]? = some a :=
      ⟨L[c - 1], List.getElem?_eq_getElem (by omega)⟩
    have h2 : L[2 * (c / 2)]? = some a := by rw [e]; exact ha
    refine ⟨_, nextHashes_getElem? Sum256 L (c / 2) a h2, ?_⟩
    rw [calculateParentHash_val, if_neg hev, e', hc, siblingHash, if_neg hev, ha]
    rfl

theorem refPath_fst_length (Sum256 : List UInt8 → Hash32) :
    ∀ (n : Nat) (L : List Hash32) (j : Nat), L.length = n →
      ∀ s ∈ (refPath Sum256 L j).map Prod.fst, s.length = 32 := by
  intro n
  induction n using Nat.strong_induction_on with
  | _ n ih =>
      intro L j hL s hs
      by_cases h1 : 1 < n
      · rw [refPath_of_lt Sum256 L j (by omega), List.map_cons] at hs
        rcases List.mem_cons.mp hs with rfl | hs
        · exact (siblingHash L j).property
        · exact ih ((n + 1) / 2) (by omega) (nextHashes Sum256 L) (j / 2)
            (by rw [nextHashes_length, hL]) s hs
      · rw [refPath_of_le Sum256 L j (by omega)] at hs
        simp at hs

theorem refPath_flags (Sum256 : List UInt8 → Hash32) :
    ∀ (n : Nat) (L : List Hash32) (j : Nat), L.length = n →
      ∀ t, t < ((refPath Sum256 L j).map Prod.snd).length →
        ((refPath Sum256 L j).map Prod.snd)[t]? = some (decide ((j / 2 ^ t) % 2 = 0)) := by
  intro n
  induction n using Nat.strong_induction_on with
  | _ n ih =>
      intro L j hL t ht
      by_cases h1 : 1 < n
      · rw [refPath_of_lt Sum256 L j (by omega), List.map_cons] at ht ⊢
        cases t with
        | zero => simp
        | succ t =>
            rw [List.getElem?_cons_succ, ih ((n + 1) / 2) (by omega) (nextHashes Sum256 L) (j / 2)
              (by rw [nextHashes_length, hL]) t (by simpa using ht),
              Nat.div_div_eq_div_mul, pow_succ, Nat.mul_comm]
      · rw [refPath_of_le Sum256 L j (by omega)] at ht
        simp at ht

theorem refPath_fold (Sum256 : List UInt8 → Hash32) (i : Nat) :
    ∀ (n : Nat) (L : List Hash32) (k : Nat) (cur : Hash32), L.length = n →
      L[i / 2 ^ k]? = some cur →
      specFold Sum256 i k ((refPath Sum256 L (i / 2 ^ k)).map Prod.fst) cur.val =
        (rootHash Sum256 L).val := by
  intro n
  induction n using Nat.strong_induction_on with
  | _ n ih =>
      intro L k cur hL hc
      have hlt : i / 2 ^ k < L.length := by
        by_contra hn
        rw [List.getElem?_eq_none (by omega)] at hc
        exact Option.noConfusion hc
      by_cases h1 : 1 < n
      · obtain ⟨cur', g1, g2⟩ := nextHashes_at Sum256 L _ cur hc
        have hdiv : i / 2 ^ k / 2 = i / 2 ^ (k + 1) := by
          rw [Nat.div_div_eq_div_mul, pow_succ]
        rw [hdiv] at g1
        have := ih ((n + 1) / 2) (by omega) (nextHashes Sum256 L) (k + 1) cur'
          (by rw [nextHashes_length, hL]) g1
        rw [refPath_of_lt Sum256 L _ (by omega), rootHash_of_lt Sum256 L (by omega),
          List.map_cons, specFold, hdiv, ← g2, this]
      · have h0 : i / 2 ^ k = 0 :=
          Nat.lt_one_iff.mp (lt_of_lt_of_le hlt (by omega))
        rw [refPath_of_le Sum256 L _ (by omega), rootHash_of_le Sum256 L (by omega)]
        rw [h0] at hc
        rw [hc]
        rfl

/-- The loop of `VerifyMerkleProof` on the reference path of position `j` ends
with the reference root. -/
theorem verifyLoop_refPath (Sum256 : List UInt8 → Hash32) (L : List Hash32) (j : Nat)
    (cur : Hash32) (hc : L[j]? = some cur) :
    verifyLoop Sum256 ((refPath Sum256 L j).map Prod.fst) ((refPath Sum256 L j).map Prod.snd)
      cur (j : Int) = some (rootHash Sum256 L) := by
  have h := verifyLoop_eq_some_iff Sum256 j ((refPath Sum256 L j).map Prod.fst)
    ((refPath Sum256 L j).map Prod.snd) cur (rootHash Sum256 L) 0 (by simp)
  simp only [pow_zero, Nat.div_one, Nat.zero_add] at h
  rw [h]
  refine ⟨refPath_fst_length Sum256 _ L j rfl, refPath_flags Sum256 _ L j rfl, ?_⟩
  have := refPath_fold Sum256 j _ L 0 cur rfl (by simpa using hc)
  simpa using this

theorem numLevels_eq_clog : ∀ n : Nat, numLevels n = Nat.clog 2 n + 1 := by
  intro n
  induction n using Nat.strong_induction_on with
  | _ n ih =>
      by_cases h1 : 1 < n
      · have e := @Nat.clog_of_two_le 2 n (by omega) (by omega)
        have e2 : (n + 2 - 1) / 2 = (n + 1) / 2 := by omega
        rw [e2] at e
        rw [numLevels_of_lt n h1, ih ((n + 1) / 2) (by omega), e]
      · rw [numLevels_of_le n (by omega), Nat.clog_of_right_le_one (by omega)]

/-! ## Consequences for the functions of merkle.go -/

theorem NewMerkleTree_nil (Sum256 : List UInt8 → Hash32) :
    NewMerkleTree Sum256 [] =
      some { heap := [], Root := none, Leaves := [], Levels := [],
             TransactionCount := 0, TreeDepth := 0 } := by
  simp [NewMerkleTree]

theorem NewMerkleTree_some_length (Sum256 : List UInt8 → Hash32) (hs : List (List UInt8))
    (t : MerkleTree) (ht : NewMerkleTree Sum256 hs = some t) :
    ∀ x ∈ hs, x.length = 32 := by
  by_contra hc
  push_neg at hc
  obtain ⟨x, hx, hbad⟩ := hc
  have hne : ¬ hs.length = 0 := by
    intro h0
    rw [List.length_eq_zero.mp h0] at hx
    simp at hx
  have hany : hs.any (fun hash => hash.length != 32) = true := by
    rw [List.any_eq_true]
    exact ⟨x, hx, by simpa using hbad⟩
  simp [NewMerkleTree, hne, hany] at ht

theorem NewMerkleTree_leaves (Sum256 : List UInt8 → Hash32) (hs : List (List UInt8))
    (t : MerkleTree) (ht : NewMerkleTree Sum256 hs = some t) :
    t.Leaves = List.range' 0 hs.length := by
  by_cases hne : hs = []
  · subst hne
    rw [NewMerkleTree_nil] at ht
    cases ht
    rfl
  · obtain ⟨t', ht', ts⟩ := NewMerkleTree_spec Sum256 hs hne
      (NewMerkleTree_some_length Sum256 hs t ht)
    rw [ht] at ht'
    cases ht'
    exact ts.leaves

theorem GenerateProof_out_of_range (t : MerkleTree) (i : Int)
    (hi : i < 0 ∨ i ≥ (t.Leaves.length : Int)) : GenerateProof t i = some none := by
  simp only [GenerateProof, hi, if_true]

/-- Result of `VerifyMerkleProof` on the proof generated for leaf `i`, against any root. -/
theorem VerifyMerkleProof_refPath (Sum256 : List UInt8 → Hash32) (L : List Hash32) (i : Nat)
    (leaf root : Hash32) (hl : L[i]? = some leaf) :
    VerifyMerkleProof Sum256 leaf root ((refPath Sum256 L i).map Prod.fst)
      ((refPath Sum256 L i).map Prod.snd) (i : Int) =
      decide ((rootHash Sum256 L).val = root.val) := by
  simp only [VerifyMerkleProof, List.length_map, ne_eq, not_true_eq_false, if_false,
    verifyLoop_refPath Sum256 L i leaf hl]

/-- The tree built from a non-empty list of 32-byte hashes and the proof it
generates for leaf `i`. -/
theorem built_and_proved (Sum256 : List UInt8 → Hash32) (hs : List (List UInt8)) (i : Nat)
    (hne : hs ≠ []) (h32 : ∀ x ∈ hs, x.length = 32) (hi : i < hs.length) :
    ∃ t leaf, NewMerkleTree Sum256 hs = some t ∧ TreeSpec Sum256 hs t ∧
      (leafHashes hs)[i]? = some leaf ∧
      GenerateProof t (i : Int) = some (some
        { TransactionHash := leaf, TransactionIndex := (i : Int),
          MerkleRoot := rootHash Sum256 (leafHashes hs),
          ProofHashes := (refPath Sum256 (leafHashes hs) i).map Prod.fst,
          ProofFlags := (refPath Sum256 (leafHashes hs) i).map Prod.snd,
          TreeDepth := t.TreeDepth }) := by
  obtain ⟨t, ht, ts⟩ := NewMerkleTree_spec Sum256 hs hne h32
  obtain ⟨leaf, hl, hg⟩ := GenerateProof_spec ts i hi
  exact ⟨t, leaf, ht, ts, hl, hg⟩

theorem GetRoot_of_spec {Sum256 : List UInt8 → Hash32} {hs : List (List UInt8)} {t : MerkleTree}
    (ts : TreeSpec Sum256 hs t) : GetRoot t = some (rootHash Sum256 (leafHashes hs)) := by
  obtain ⟨r, hr, res⟩ := ts.root
  obtain ⟨nd, h1, h2, _⟩ := res.root
  simp [GetRoot, hr, h1, h2]

/-- C1: for every non-empty list of 32-byte hashes and every index `i` below
its length, the tree is built, `GenerateProof i` returns a proof, and that
proof passes both `VerifyProof` and the standalone `VerifyMerkleProof` applied
to its fields. -/
theorem C1_generated_proof_verifies (Sum256 : List UInt8 → Hash32) (hs : List (List UInt8))
    (i : Nat) (hne : hs ≠ []) (h32 : ∀ x ∈ hs, x.length = 32) (hi : i < hs.length) :
    ∃ t p, NewMerkleTree Sum256 hs = some t ∧ GenerateProof t (i : Int) = some (some p) ∧
      VerifyProof Sum256 t (some p) = true ∧
      VerifyMerkleProof Sum256 p.TransactionHash p.MerkleRoot p.ProofHashes p.ProofFlags
        p.TransactionIndex = true := by
  obtain ⟨t, leaf, ht, _, hl, hg⟩ := built_and_proved Sum256 hs i hne h32 hi
  have hv := VerifyMerkleProof_refPath Sum256 (leafHashes hs) i leaf
    (rootHash Sum256 (leafHashes hs)) hl
  rw [decide_eq_true rfl] at hv
  exact ⟨t, _, ht, hg, hv, hv⟩

theorem sampleHashes_length : ∀ x ∈ sampleHashes, x.length = 32 := by
  intro x hx
  simp only [sampleHashes, List.mem_cons, List.mem_singleton, List.not_mem_nil, or_false] at hx
  rcases hx with rfl | rfl | rfl <;> rfl

theorem C1_witness :
    ∃ t p, NewMerkleTree sampleSum256 sampleHashes = some t ∧
      GenerateProof t ((2 : Nat) : Int) = some (some p) ∧
      VerifyProof sampleSum256 t (some p) = true ∧
      VerifyMerkleProof sampleSum256 p.TransactionHash p.MerkleRoot p.ProofHashes p.ProofFlags
        p.TransactionIndex = true :=
  C1_generated_proof_verifies sampleSum256 sampleHashes 2 (by decide) sampleHashes_length
    (by decide)

/-- C3: the tree of the empty list has a nil root, transaction count 0 and
depth 0, its `GetRoot` is the all-zero hash and `GenerateProof` returns nil on
it for every integer; on any built tree with `n` leaves `GenerateProof i`
returns nil for every `i < 0` and every `i ≥ n`. -/
theorem C3_empty_tree_and_out_of_range (Sum256 : List UInt8 → Hash32) :
    (∃ t, NewMerkleTree Sum256 [] = some t ∧ t.Root = none ∧ t.TransactionCount = 0 ∧
      t.TreeDepth = 0 ∧ GetRoot t = some zeroHash ∧ zeroHash.val = List.replicate 32 0 ∧
      ∀ i : Int, GenerateProof t i = some none) ∧
    (∀ (hs : List (List UInt8)) (t : MerkleTree) (i : Int),
      NewMerkleTree Sum256 hs = some t → (i < 0 ∨ i ≥ (hs.length : Int)) →
      GenerateProof t i = some none) := by
  refine ⟨⟨_, NewMerkleTree_nil Sum256, rfl, rfl, rfl, rfl, rfl, ?_⟩, ?_⟩
  · intro i
    by_cases hi : i < 0 ∨ i ≥ ((([] : List Nat).length : Nat) : Int)
    · simp only [GenerateProof, hi, if_true]
    · simp only [GenerateProof, hi, if_false]
  · intro hs t i ht hi
    apply GenerateProof_out_of_range
    rw [NewMerkleTree_leaves Sum256 hs t ht, List.length_range']
    exact hi

theorem C3_witness :
    ∃ t, NewMerkleTree sampleSum256 sampleHashes = some t ∧
      GenerateProof t (-1) = some none ∧ GenerateProof t 3 = some none := by
  obtain ⟨t, ht, _⟩ := NewMerkleTree_spec sampleSum256 sampleHashes (by decide)
    sampleHashes_length
  exact ⟨t, ht,
    (C3_empty_tree_and_out_of_range sampleSum256).2 sampleHashes t (-1) ht (by decide),
    (C3_empty_tree_and_out_of_range sampleSum256).2 sampleHashes t 3 ht (by decide)⟩

/-- C4: for a tree built from a non-empty list of 32-byte hashes and an index
`i` in range, the generated proof carries the root of the tree, and with its
`MerkleRoot` replaced by any other value `VerifyProof` returns false. -/
theorem C4_wrong_root_rejected (Sum256 : List UInt8 → Hash32) (hs : List (List UInt8))
    (i : Nat) (hne : hs ≠ []) (h32 : ∀ x ∈ hs, x.length = 32) (hi : i < hs.length) :
    ∃ t p root, NewMerkleTree Sum256 hs = some t ∧ GenerateProof t (i : Int) = some (some p) ∧
      GetRoot t = some root ∧ p.MerkleRoot = root ∧
      ∀ root' : Hash32, root' ≠ root →
        VerifyProof Sum256 t (some { p with MerkleRoot := root' }) = false := by
  obtain ⟨t, leaf, ht, ts, hl, hg⟩ := built_and_proved Sum256 hs i hne h32 hi
  refine ⟨t, _, _, ht, hg, GetRoot_of_spec ts, rfl, ?_⟩
  intro root' hr
  have hv := VerifyMerkleProof_refPath Sum256 (leafHashes hs) i leaf root' hl
  rw [decide_eq_false (fun e => hr (Subtype.ext e).symm)] at hv
  exact hv

theorem C4_witness :
    ∃ t p root, NewMerkleTree sampleSum256 sampleHashes = some t ∧
      GenerateProof t ((1 : Nat) : Int) = some (some p) ∧
      GetRoot t = some root ∧ p.MerkleRoot = root ∧
      ∀ root' : Hash32, root' ≠ root →
        VerifyProof sampleSum256 t (some { p with MerkleRoot := root' }) = false :=
  C4_wrong_root_rejected sampleSum256 sampleHashes 1 (by decide) sampleHashes_length (by decide)

/-- Closed form of `VerifyMerkleProof` at a non-negative index. -/
theorem VerifyMerkleProof_eq_true_iff (Sum256 : List UInt8 → Hash32) (txHash root : Hash32)
    (hashes : List (List UInt8)) (flags : List Bool) (n : Nat) :
    VerifyMerkleProof Sum256 txHash root hashes flags (n : Int) = true ↔
      hashes.length = flags.length ∧ (∀ s ∈ hashes, s.length = 32) ∧
      (∀ k, k < flags.length → flags[k]? = some (decide ((n / 2 ^ k) % 2 = 0))) ∧
      specFold Sum256 n 0 hashes txHash.val = root.val := by
  by_cases hlen : hashes.length = flags.length
  · have h := fun out => verifyLoop_eq_some_iff Sum256 n hashes flags txHash out 0 hlen
    simp only [pow_zero, Nat.div_one, Nat.zero_add] at h
    simp only [VerifyMerkleProof, hlen, ne_eq, not_true_eq_false, if_false, true_and]
    cases hv : verifyLoop Sum256 hashes flags txHash (n : Int) with
    | none =>
        simp only [Bool.false_eq_true, false_iff]
        rintro ⟨a1, a2, a3⟩
        have := (h root).mpr ⟨a1, a2, a3⟩
        rw [hv] at this
        exact Option.noConfusion this
    | some out =>
        obtain ⟨a1, a2, a3⟩ := (h out).mp hv
        simp only [decide_eq_true_eq]
        constructor
        · intro e
          exact ⟨a1, a2, by rw [a3, e]⟩
        · rintro ⟨_, _, b3⟩
          rw [← a3, b3]
  · simp [VerifyMerkleProof, hlen]

/-- C6: for every index `n ≥ 0`, `VerifyMerkleProof` returns true exactly when
there are as many siblings as flags, every sibling has 32 bytes, the flag of
every step `k` says whether `n / 2 ^ k` is even, and the fold of the path from
the transaction hash (current hash on the left at the even steps, on the right
at the odd ones) is the root; so one disagreeing flag makes it return false. -/
theorem C6_verify_iff (Sum256 : List UInt8 → Hash32) (txHash root : Hash32)
    (hashes : List (List UInt8)) (flags : List Bool) (n : Nat) :
    (VerifyMerkleProof Sum256 txHash root hashes flags (n : Int) = true ↔
      hashes.length = flags.length ∧ (∀ s ∈ hashes, s.length = 32) ∧
      (∀ k, k < flags.length → flags[k]? = some (decide ((n / 2 ^ k) % 2 = 0))) ∧
      specFold Sum256 n 0 hashes txHash.val = root.val) ∧
    (∀ k, k < flags.length → flags[k]? ≠ some (decide ((n / 2 ^ k) % 2 = 0)) →
      VerifyMerkleProof Sum256 txHash root hashes flags (n : Int) = false) := by
  have key := VerifyMerkleProof_eq_true_iff Sum256 txHash root hashes flags n
  refine ⟨key, ?_⟩
  intro k hk hbad
  cases hv : VerifyMerkleProof Sum256 txHash root hashes flags (n : Int) with
  | false => rfl
  | true => exact absurd ((key.mp hv).2.2.1 k hk) hbad

/-- C7: for a tree built from `n ≥ 1` leaves, `TreeDepth` is `⌈log₂ n⌉ + 1`,
the least `d ≥ 1` with `n ≤ 2 ^ (d - 1)`, and it is the number of levels kept
in `Levels`. -/
theorem C7_tree_depth (Sum256 : List UInt8 → Hash32) (hs : List (List UInt8))
    (hne : hs ≠ []) (h32 : ∀ x ∈ hs, x.length = 32) :
    ∃ t, NewMerkleTree Sum256 hs = some t ∧
      t.TreeDepth = ((Nat.clog 2 hs.length + 1 : Nat) : Int) ∧
      t.TreeDepth = (t.Levels.length : Int) ∧
      hs.length ≤ 2 ^ (Nat.clog 2 hs.length + 1 - 1) ∧
      ∀ d : Nat, 1 ≤ d → hs.length ≤ 2 ^ (d - 1) → Nat.clog 2 hs.length + 1 ≤ d := by
  obtain ⟨t, ht, ts⟩ := NewMerkleTree_spec Sum256 hs hne h32
  refine ⟨t, ht, ?_, ts.depth, ?_, ?_⟩
  · rw [ts.depth, ts.levels, numLevels_eq_clog]
  · exact (Nat.le_pow_iff_clog_le (by omega)).mpr (by omega)
  · intro d hd hle
    have := (Nat.le_pow_iff_clog_le (show 1 < 2 by omega)).mp hle
    omega

theorem C7_witness :
    ∃ t, NewMerkleTree sampleSum256 sampleHashes = some t ∧
      t.TreeDepth = ((Nat.clog 2 sampleHashes.length + 1 : Nat) : Int) ∧
      t.TreeDepth = (t.Levels.length : Int) ∧
      sampleHashes.length ≤ 2 ^ (Nat.clog 2 sampleHashes.length + 1 - 1) ∧
      ∀ d : Nat, 1 ≤ d → sampleHashes.length ≤ 2 ^ (d - 1) →
        Nat.clog 2 sampleHashes.length + 1 ≤ d :=
  C7_tree_depth sampleSum256 sampleHashes (by decide) sampleHashes_length

/-- C8: for a tree built from `n ≥ 1` leaves and an index `i` in range, the
generated proof has `TreeDepth - 1` sibling hashes and as many flags. -/
theorem C8_proof_length (Sum256 : List UInt8 → Hash32) (hs : List (List UInt8))
    (i : Nat) (hne : hs ≠ []) (h32 : ∀ x ∈ hs, x.length = 32) (hi : i < hs.length) :
    ∃ t p, NewMerkleTree Sum256 hs = some t ∧ GenerateProof t (i : Int) = some (some p) ∧
      (p.ProofHashes.length : Int) = t.TreeDepth - 1 ∧
      (p.ProofFlags.length : Int) = t.TreeDepth - 1 := by
  obtain ⟨t, leaf, ht, ts, _, hg⟩ := built_and_proved Sum256 hs i hne h32 hi
  have hlen := refPath_length Sum256 _ (leafHashes hs) i rfl
  rw [leafHashes_length] at hlen
  have hd : t.TreeDepth = ((numLevels hs.length : Nat) : Int) := by rw [ts.depth, ts.levels]
  refine ⟨t, _, ht, hg, ?_, ?_⟩
  · simp only [List.length_map]
    rw [hd, ← hlen]; push_cast; ring
  · simp only [List.length_map]
    rw [hd, ← hlen]; push_cast; ring

theorem C8_witness :
    ∃ t p, NewMerkleTree sampleSum256 sampleHashes = some t ∧
      GenerateProof t ((2 : Nat) : Int) = some (some p) ∧
      (p.ProofHashes.length : Int) = t.TreeDepth - 1 ∧
      (p.ProofFlags.length : Int) = t.TreeDepth - 1 :=
  C8_proof_length sampleSum256 sampleHashes 2 (by decide) sampleHashes_length (by decide)

/-- C9: for a tree built from `n ≥ 1` leaves and an index `i` in range, the
flag of every step `k` of the generated proof is true exactly when `i / 2 ^ k`
is even. -/
theorem C9_proof_flags (Sum256 : List UInt8 → Hash32) (hs : List (List UInt8))
    (i : Nat) (hne : hs ≠ []) (h32 : ∀ x ∈ hs, x.length = 32) (hi : i < hs.length) :
    ∃ t p, NewMerkleTree Sum256 hs = some t ∧ GenerateProof t (i : Int) = some (some p) ∧
      ∀ k, k < p.ProofFlags.length →
        p.ProofFlags[k]? = some (decide ((i / 2 ^ k) % 2 = 0)) := by
  obtain ⟨t, leaf, ht, _, _, hg⟩ := built_and_proved Sum256 hs i hne h32 hi
  exact ⟨t, _, ht, hg, refPath_flags Sum256 _ (leafHashes hs) i rfl⟩

theorem C9_witness :
    ∃ t p, NewMerkleTree sampleSum256 sampleHashes = some t ∧
      GenerateProof t ((2 : Nat) : Int) = some (some p) ∧
      ∀ k, k < p.ProofFlags.length →
        p.ProofFlags[k]? = some (decide ((2 / 2 ^ k) % 2 = 0)) :=
  C9_proof_flags sampleSum256 sampleHashes 2 (by decide) sampleHashes_length (by decide)

/-- C10: on the tree built from a list of `n` 32-byte hashes, `GetLeaf i`
returns for `i < n` a node whose hash is the `i`-th input hash, whose `TxIndex`
is `i` and which is a leaf, and returns nil for every `i < 0` and `i ≥ n`. -/
theorem C10_get_leaf (Sum256 : List UInt8 → Hash32) (hs : List (List UInt8))
    (h32 : ∀ x ∈ hs, x.length = 32) :
    ∃ t, NewMerkleTree Sum256 hs = some t ∧
      (∀ i : Nat, i < hs.length → ∃ a nd, GetLeaf t (i : Int) = some a ∧
        t.heap[a]? = some nd ∧ some nd.Hash.val = hs[i]? ∧ nd.TxIndex = (i : Int) ∧
        nd.IsLeaf = true) ∧
      (∀ i : Int, (i < 0 ∨ i ≥ (hs.length : Int)) → GetLeaf t i = none) := by
  by_cases hne : hs = []
  · subst hne
    refine ⟨_, NewMerkleTree_nil Sum256, ?_, ?_⟩
    · intro i hi
      simp at hi
    · intro i hi
      simp [GetLeaf]
  · obtain ⟨t, ht, ts⟩ := NewMerkleTree_spec Sum256 hs hne h32
    obtain ⟨r, _, res⟩ := ts.root
    refine ⟨t, ht, ?_, ?_⟩
    · intro i hi
      obtain ⟨nd, g1, g2, g3, g4⟩ := res.leaf i (by rw [leafHashes_length]; exact hi)
      refine ⟨i, nd, ?_, g1, ?_, g3, g4⟩
      · have hc : ¬ ((i : Int) < 0 ∨ (i : Int) ≥ (t.Leaves.length : Int)) := by
          rw [ts.leaves]; simp; omega
        have hleaf : t.Leaves[i]? = some i := by
          rw [ts.leaves, List.getElem?_range' _ _ hi]; simp
        simp only [GetLeaf, hc, if_false, Int.toNat_ofNat, hleaf]
      · have hx : hs[i]? = some hs[i] := List.getElem?_eq_getElem hi
        simp only [leafHashes, List.getElem?_map, hx, Option.map_some', Option.some.injEq] at g2
        rw [hx, ← g2, copy32_val _ _ (h32 _ (List.getElem_mem hi))]
    · intro i hi
      have hi' : i < 0 ∨ i ≥ (t.Leaves.length : Int) := by
        rw [ts.leaves, List.length_range']; exact hi
      simp only [GetLeaf, hi', if_true]

theorem C10_witness :
    ∃ t, NewMerkleTree sampleSum256 sampleHashes = some t ∧
      (∀ i : Nat, i < sampleHashes.length → ∃ a nd, GetLeaf t (i : Int) = some a ∧
        t.heap[a]? = some nd ∧ some nd.Hash.val = sampleHashes[i]? ∧ nd.TxIndex = (i : Int) ∧
        nd.IsLeaf = true) ∧
      (∀ i : Int, (i < 0 ∨ i ≥ (sampleHashes.length : Int)) → GetLeaf t i = none) :=
  C10_get_leaf sampleSum256 sampleHashes sampleHashes_length

/-! ## The root against `utils.MerkleRoot` and the reference of the specification -/

theorem leafHashes_map_val (hs : List (List UInt8)) (h32 : ∀ x ∈ hs, x.length = 32) :
    (leafHashes hs).map Subtype.val = hs := by
  induction hs with
  | nil => rfl
  | cons x rest ih =>
      simp only [leafHashes, List.map_cons, List.map_map] at ih ⊢
      rw [copy32_val _ _ (h32 x (List.mem_cons_self _ _)),
        ih (fun y hy => h32 y (List.mem_cons_of_mem _ hy))]

theorem specNextLevel_map (Sum256 : List UInt8 → Hash32) :
    ∀ L : List Hash32,
      specNextLevel Sum256 (L.map Subtype.val) = (nextHashes Sum256 L).map Subtype.val
  | [] => rfl
  | [a] => by simp [specNextLevel, nextHashes, calculateParentHash_val]
  | a :: b :: rest => by
      simp only [List.map_cons, specNextLevel, nextHashes, calculateParentHash_val,
        specNextLevel_map Sum256 rest]

theorem specRootAux_map (Sum256 : List UInt8 → Hash32) :
    ∀ (fuel : Nat) (L : List Hash32), L ≠ [] →
      (specRootAux Sum256 fuel (L.map Subtype.val))[0]? = some (rootHashAux Sum256 fuel L).val := by
  intro fuel
  induction fuel with
  | zero =>
      intro L hL
      cases L with
      | nil => exact absurd rfl hL
      | cons a rest =>
          simp only [specRootAux, rootHashAux, List.map_cons, List.getElem?_cons_zero,
            Option.getD_some]
  | succ f ih =>
      intro L hL
      by_cases h1 : 1 < L.length
      · have hn : nextHashes Sum256 L ≠ [] := by
          intro e
          have := nextHashes_length Sum256 L
          rw [e] at this
          simp at this
          omega
        simp only [specRootAux, rootHashAux, List.length_map, h1, if_true,
          specNextLevel_map, ih _ hn]
      · cases L with
        | nil => exact absurd rfl hL
        | cons a rest =>
            have hr : rest = [] :=
              List.length_eq_zero.mp (by simp only [List.length_cons] at h1; omega)
            subst hr
            simp only [specRootAux, rootHashAux, List.map_cons, List.map_nil,
              List.length_singleton, Nat.lt_irrefl, if_false, List.getElem?_cons_zero,
              Option.getD_some]

theorem merkleRootLevel_map (Sum256 : List UInt8 → Hash32) :
    ∀ L : List Hash32,
      Utils.merkleRootLevel Sum256 (L.map Subtype.val) =
        some ((nextHashes Sum256 L).map Subtype.val)
  | [] => rfl
  | [a] => by
      simp only [List.map_cons, List.map_nil, Utils.merkleRootLevel, Utils.MerkleHash,
        a.property, ne_eq, not_true_eq_false, or_self, if_false, Option.bind_eq_bind,
        Option.some_bind, nextHashes, calculateParentHash_val]
  | a :: b :: rest => by
      have e := merkleRootLevel_map Sum256 rest
      simp only [List.map_cons, Utils.merkleRootLevel, Utils.MerkleHash,
        a.property, b.property, ne_eq, not_true_eq_false, or_self, if_false,
        Option.bind_eq_bind, Option.some_bind, nextHashes, calculateParentHash_val, e]

theorem merkleRootLoop_map (Sum256 : List UInt8 → Hash32) :
    ∀ (fuel : Nat) (L : List Hash32), L ≠ [] → L.length ≤ fuel + 1 →
      ∃ last, Utils.merkleRootLoop Sum256 fuel (L.map Subtype.val) = some last ∧
        last[0]? = some (rootHash Sum256 L).val := by
  intro fuel
  induction fuel with
  | zero =>
      intro L hL hf
      cases L with
      | nil => exact absurd rfl hL
      | cons a rest =>
          have hr : rest = [] := List.length_eq_zero.mp (by simpa using hf)
          subst hr
          refine ⟨[a.val], by simp [Utils.merkleRootLoop], ?_⟩
          rw [rootHash_of_le Sum256 [a] (by simp)]
          rfl
  | succ f ih =>
      intro L hL hf
      by_cases h1 : 1 < L.length
      · have hlen := nextHashes_length Sum256 L
        have hn : nextHashes Sum256 L ≠ [] := by
          intro e
          rw [e] at hlen
          simp at hlen
          omega
        obtain ⟨last, g1, g2⟩ := ih (nextHashes Sum256 L) hn (by omega)
        refine ⟨last, ?_, ?_⟩
        · simp only [Utils.merkleRootLoop, List.length_map, gt_iff_lt, h1, if_true,
            merkleRootLevel_map, Option.bind_eq_bind, Option.some_bind, g1]
        · rw [g2, rootHash_of_lt Sum256 L h1]
      · cases L with
        | nil => exact absurd rfl hL
        | cons a rest =>
            have hr : rest = [] :=
              List.length_eq_zero.mp (by simp only [List.length_cons] at h1; omega)
            subst hr
            refine ⟨[a.val], by simp [Utils.merkleRootLoop], ?_⟩
            rw [rootHash_of_le Sum256 [a] (by simp)]
            rfl

theorem MerkleRoot_eq_rootHash (Sum256 : List UInt8 → Hash32) (hs : List (List UInt8))
    (hne : hs ≠ []) (h32 : ∀ x ∈ hs, x.length = 32) :
    Utils.MerkleRoot Sum256 hs = some (rootHash Sum256 (leafHashes hs)).val := by
  have hpos : 0 < hs.length := List.length_pos.mpr hne
  have hmap := leafHashes_map_val hs h32
  by_cases h1 : hs.length = 1
  · obtain ⟨h, rfl⟩ := List.length_eq_one.mp h1
    have e : (rootHash Sum256 (leafHashes [h])).val = h := by
      rw [rootHash_of_le Sum256 _ (by simp [leafHashes])]
      simp only [leafHashes, List.map_cons, List.map_nil, List.getElem?_cons_zero,
        Option.getD_some]
      exact copy32_val _ _ (h32 h (List.mem_singleton.mpr rfl))
    simp [Utils.MerkleRoot, e]
  · have hcopy : hs.map (fun hash => copyBytes (List.replicate 32 0) hash) =
        (leafHashes hs).map Subtype.val := by
      rw [leafHashes, List.map_map]
      rfl
    have hL : leafHashes hs ≠ [] := by
      intro e
      have := leafHashes_length hs
      rw [e] at this
      simp at this
      omega
    obtain ⟨last, g1, g2⟩ := merkleRootLoop_map Sum256 hs.length (leafHashes hs) hL
      (by rw [leafHashes_length]; omega)
    have h0 : ¬ hs.length = 0 := by omega
    simp only [Utils.MerkleRoot, h0, h1, if_false, any_length_ne_eq_false hs h32, hcopy,
      Option.bind_eq_bind, g1, Option.some_bind, g2]
    simp

theorem specRoot_eq_rootHash (Sum256 : List UInt8 → Hash32) (hs : List (List UInt8))
    (hne : hs ≠ []) (h32 : ∀ x ∈ hs, x.length = 32) :
    specRoot Sum256 hs = some (rootHash Sum256 (leafHashes hs)).val := by
  have hL : leafHashes hs ≠ [] := by
    intro e
    have := leafHashes_length hs
    rw [e] at this
    have hpos : 0 < hs.length := List.length_pos.mpr hne
    simp at this
    omega
  have h := specRootAux_map Sum256 hs.length (leafHashes hs) hL
  rw [leafHashes_map_val hs h32] at h
  rw [specRoot, h, rootHash, leafHashes_length]

/-- C2: for every non-empty list of 32-byte hashes the root of the built tree
is the reference root of the specification (levels of double SHA-256 of
adjacent pairs, an unpaired last hash paired with itself, until one hash
remains), it is what `utils.MerkleRoot` returns, and for a single leaf it is
that leaf's hash. -/
theorem C2_root_is_reference_root (Sum256 : List UInt8 → Hash32) (hs : List (List UInt8))
    (hne : hs ≠ []) (h32 : ∀ x ∈ hs, x.length = 32) :
    ∃ t r, NewMerkleTree Sum256 hs = some t ∧ GetRoot t = some r ∧
      specRoot Sum256 hs = some r.val ∧ Utils.MerkleRoot Sum256 hs = some r.val ∧
      (∀ h, hs = [h] → r.val = h) := by
  obtain ⟨t, ht, ts⟩ := NewMerkleTree_spec Sum256 hs hne h32
  refine ⟨t, _, ht, GetRoot_of_spec ts, specRoot_eq_rootHash Sum256 hs hne h32,
    MerkleRoot_eq_rootHash Sum256 hs hne h32, ?_⟩
  intro h e
  subst e
  rw [rootHash_of_le Sum256 _ (by simp [leafHashes])]
  simp only [leafHashes, List.map_cons, List.map_nil, List.getElem?_cons_zero,
    Option.getD_some]
  exact copy32_val _ _ (h32 h (List.mem_singleton.mpr rfl))

theorem C2_witness :
    ∃ t r, NewMerkleTree sampleSum256 sampleHashes = some t ∧ GetRoot t = some r ∧
      specRoot sampleSum256 sampleHashes = some r.val ∧
      Utils.MerkleRoot sampleSum256 sampleHashes = some r.val ∧
      (∀ h, sampleHashes = [h] → r.val = h) :=
  C2_root_is_reference_root sampleSum256 sampleHashes (by decide) sampleHashes_length

/-! ## Tampered proofs -/

theorem zipWith_add_cancel_left :
    ∀ (c x y : List UInt8), c.length = x.length → c.length = y.length →
      List.zipWith (fun a b => a + b) c x = List.zipWith (fun a b => a + b) c y → x = y
  | [], x, y, hx, hy, _ => by
      rw [List.length_nil] at hx hy
      rw [List.length_eq_zero.mp hx.symm, List.length_eq_zero.mp hy.symm]
  | a :: c, [], _, hx, _, _ => by simp at hx
  | a :: c, _ :: _, [], _, hy, _ => by simp at hy
  | a :: c, u :: x, v :: y, hx, hy, h => by
      simp only [List.zipWith_cons_cons, List.cons.injEq] at h
      rw [add_left_cancel h.1, zipWith_add_cancel_left c x y (by simpa using hx)
        (by simpa using hy) h.2]

theorem zipWith_add_cancel_right :
    ∀ (c x y : List UInt8), c.length = x.length → c.length = y.length →
      List.zipWith (fun a b => a + b) x c = List.zipWith (fun a b => a + b) y c → x = y
  | [], x, y, hx, hy, _ => by
      rw [List.length_nil] at hx hy
      rw [List.length_eq_zero.mp hx.symm, List.length_eq_zero.mp hy.symm]
  | a :: c, [], _, hx, _, _ => by simp at hx
  | a :: c, _ :: _, [], _, hy, _ => by simp at hy
  | a :: c, u :: x, v :: y, hx, hy, h => by
      simp only [List.zipWith_cons_cons, List.cons.injEq] at h
      rw [add_right_cancel h.1, zipWith_add_cancel_right c x y (by simpa using hx)
        (by simpa using hy) h.2]

theorem halvesSum256_32 (d : List UInt8) (h : d.length = 32) : (halvesSum256 d).val = d := by
  have hn : ¬ d.length = 64 := by omega
  unfold halvesSum256
  rw [dif_neg hn, dif_pos h]

theorem halvesSum256_64 (a b : List UInt8) (ha : a.length = 32) (hb : b.length = 32) :
    (halvesSum256 (a ++ b)).val = List.zipWith (fun a b => a + b) a b := by
  have h64 : (a ++ b).length = 64 := by rw [List.length_append, ha, hb]
  have ht : (a ++ b).take 32 = a := by rw [← ha, List.take_left]
  have hd : (a ++ b).drop 32 = b := by rw [← ha, List.drop_left]
  unfold halvesSum256
  rw [dif_pos h64]
  simp only [ht, hd]

/-- Under `halvesSum256` the double hash of two 32-byte halves is their bytewise sum. -/
theorem DoubleSHA256_halves (a b : List UInt8) (ha : a.length = 32) (hb : b.length = 32) :
    Utils.DoubleSHA256 halvesSum256 (a ++ b) = List.zipWith (fun a b => a + b) a b := by
  show (halvesSum256 (halvesSum256 (a ++ b)).val).val = _
  rw [halvesSum256_32 _ (halvesSum256 (a ++ b)).property, halvesSum256_64 a b ha hb]

theorem halvesSum256_halfInjective : HalfInjective halvesSum256 := by
  intro c x y hc hx hy
  constructor
  · intro h
    rw [DoubleSHA256_halves c x hc hx, DoubleSHA256_halves c y hc hy] at h
    exact zipWith_add_cancel_left c x y (by rw [hc, hx]) (by rw [hc, hy]) h
  · intro h
    rw [DoubleSHA256_halves x c hx hc, DoubleSHA256_halves y c hy hc] at h
    exact zipWith_add_cancel_right c x y (by rw [hc, hx]) (by rw [hc, hy]) h

/-- Two distinct current hashes folded along the same path stay distinct. -/
theorem specFold_ne (Sum256 : List UInt8 → Hash32) (hinj : HalfInjective Sum256) (n : Nat) :
    ∀ (hashes : List (List UInt8)) (k : Nat) (c1 c2 : List UInt8),
      (∀ s ∈ hashes, s.length = 32) → c1.length = 32 → c2.length = 32 → c1 ≠ c2 →
      specFold Sum256 n k hashes c1 ≠ specFold Sum256 n k hashes c2
  | [], k, c1, c2, _, _, _, hne => hne
  | sib :: rest, k, c1, c2, h32, l1, l2, hne => by
      have hs : sib.length = 32 := h32 sib (List.mem_cons_self _ _)
      have hrest : ∀ s ∈ rest, s.length = 32 := fun s m => h32 s (List.mem_cons_of_mem _ m)
      simp only [specFold]
      by_cases hev : (n / 2 ^ k) % 2 = 0
      · simp only [hev, if_true]
        exact specFold_ne Sum256 hinj n rest (k + 1) _ _ hrest (Utils.DoubleSHA256_length _ _)
          (Utils.DoubleSHA256_length _ _) (fun hd => hne ((hinj sib c1 c2 hs l1 l2).2 hd))
      · simp only [hev, if_false]
        exact specFold_ne Sum256 hinj n rest (k + 1) _ _ hrest (Utils.DoubleSHA256_length _ _)
          (Utils.DoubleSHA256_length _ _) (fun hd => hne ((hinj sib c1 c2 hs l1 l2).1 hd))

/-- Replacing one sibling hash of a path by another 32-byte value changes the
result of the fold. -/
theorem specFold_set_ne (Sum256 : List UInt8 → Hash32) (hinj : HalfInjective Sum256) (n : Nat) :
    ∀ (hashes : List (List UInt8)) (k t : Nat) (s' c : List UInt8),
      (∀ s ∈ hashes, s.length = 32) → s'.length = 32 → c.length = 32 →
      t < hashes.length → hashes[t]? ≠ some s' →
      specFold Sum256 n k (hashes.set t s') c ≠ specFold Sum256 n k hashes c
  | [], k, t, s', c, _, _, _, ht, _ => by simp at ht
  | sib :: rest, k, 0, s', c, h32, ls, lc, _, hne => by
      have hs : sib.length = 32 := h32 sib (List.mem_cons_self _ _)
      have hrest : ∀ s ∈ rest, s.length = 32 := fun s m => h32 s (List.mem_cons_of_mem _ m)
      have hne' : s' ≠ sib := by
        intro e
        apply hne
        rw [e, List.getElem?_cons_zero]
      simp only [List.set_cons_zero, specFold]
      by_cases hev : (n / 2 ^ k) % 2 = 0
      · simp only [hev, if_true]
        exact specFold_ne Sum256 hinj n rest (k + 1) _ _ hrest (Utils.DoubleSHA256_length _ _)
          (Utils.DoubleSHA256_length _ _) (fun hd => hne' ((hinj c s' sib lc ls hs).1 hd))
      · simp only [hev, if_false]
        exact specFold_ne Sum256 hinj n rest (k + 1) _ _ hrest (Utils.DoubleSHA256_length _ _)
          (Utils.DoubleSHA256_length _ _) (fun hd => hne' ((hinj c s' sib lc ls hs).2 hd))
  | sib :: rest, k, t + 1, s', c, h32, ls, lc, ht, hne => by
      have hrest : ∀ s ∈ rest, s.length = 32 := fun s m => h32 s (List.mem_cons_of_mem _ m)
      simp only [List.set_cons_succ, specFold]
      have hlen : ∀ x : List UInt8, (if (n / 2 ^ k) % 2 = 0 then
          Utils.DoubleSHA256 Sum256 (c ++ x) else Utils.DoubleSHA256 Sum256 (x ++ c)).length = 32 := by
        intro x
        split_ifs <;> exact Utils.DoubleSHA256_length _ _
      exact specFold_set_ne Sum256 hinj n rest (k + 1) t s' _ hrest ls (hlen sib)
        (by simpa using ht) (by simpa using hne)

/-- C5: when the double SHA-256 gives distinct outputs for 64-byte inputs that
differ in one half, then for a tree built from a non-empty list of 32-byte
hashes and an index `i` in range, replacing the transaction hash of the
generated proof by a different value, or one sibling hash by a different 32-byte
value, makes `VerifyProof` return false. -/
theorem C5_tampered_proof_rejected (Sum256 : List UInt8 → Hash32) (hs : List (List UInt8))
    (i : Nat) (hne : hs ≠ []) (h32 : ∀ x ∈ hs, x.length = 32) (hi : i < hs.length)
    (hinj : HalfInjective Sum256) :
    ∃ t p, NewMerkleTree Sum256 hs = some t ∧ GenerateProof t (i : Int) = some (some p) ∧
      (∀ h' : Hash32, h' ≠ p.TransactionHash →
        VerifyProof Sum256 t (some { p with TransactionHash := h' }) = false) ∧
      (∀ (k : Nat) (s' : List UInt8), k < p.ProofHashes.length → s'.length = 32 →
        p.ProofHashes[k]? ≠ some s' →
        VerifyProof Sum256 t (some { p with ProofHashes := p.ProofHashes.set k s' }) = false) := by
  obtain ⟨t, leaf, ht, _, hl, hg⟩ := built_and_proved Sum256 hs i hne h32 hi
  have hv := VerifyMerkleProof_refPath Sum256 (leafHashes hs) i leaf
    (rootHash Sum256 (leafHashes hs)) hl
  rw [decide_eq_true rfl] at hv
  obtain ⟨_, g32, _, gfold⟩ := (VerifyMerkleProof_eq_true_iff Sum256 _ _ _ _ i).mp hv
  refine ⟨t, _, ht, hg, ?_, ?_⟩
  · intro h' hne'
    rw [← Bool.not_eq_true]
    intro hb
    obtain ⟨_, _, _, bfold⟩ := (VerifyMerkleProof_eq_true_iff Sum256 _ _ _ _ i).mp hb
    exact specFold_ne Sum256 hinj i _ 0 h'.val leaf.val g32 h'.property leaf.property
      (fun e => hne' (Subtype.ext e)) (bfold.trans gfold.symm)
  · intro k s' hk ls hne'
    rw [← Bool.not_eq_true]
    intro hb
    obtain ⟨_, _, _, bfold⟩ := (VerifyMerkleProof_eq_true_iff Sum256 _ _ _ _ i).mp hb
    exact specFold_set_ne Sum256 hinj i _ 0 k s' leaf.val g32 ls leaf.property hk hne'
      (bfold.trans gfold.symm)

theorem C5_witness :
    ∃ t p, NewMerkleTree halvesSum256 sampleHashes = some t ∧
      GenerateProof t ((2 : Nat) : Int) = some (some p) ∧
      (∀ h' : Hash32, h' ≠ p.TransactionHash →
        VerifyProof halvesSum256 t (some { p with TransactionHash := h' }) = false) ∧
      (∀ (k : Nat) (s' : List UInt8), k < p.ProofHashes.length → s'.length = 32 →
        p.ProofHashes[k]? ≠ some s' →
        VerifyProof halvesSum256 t (some { p with ProofHashes := p.ProofHashes.set k s' }) =
          false) :=
  C5_tampered_proof_rejected halvesSum256 sampleHashes 2 (by decide) sampleHashes_length (by decide)
    halvesSum256_halfInjective

/-! ## The functions evaluated on the sample hashes -/

theorem sample_tree_shape :
    (NewMerkleTree sampleSum256 sampleHashes).map
        (fun t => (t.Root, t.Leaves, t.Levels, t.TreeDepth)) =
      some (some 5, [0, 1, 2], [[0, 1, 2], [3, 4], [5]], 3) := by
  decide

theorem sample_proof_flags :
    (NewMerkleTree sampleSum256 sampleHashes).bind
        (fun t => (GenerateProof t 2).map (fun p => p.map (fun q => q.ProofFlags))) =
      some (some [true, false]) := by
  decide!

theorem sample_proof_verifies :
    (NewMerkleTree sampleSum256 sampleHashes).bind
        (fun t => (GenerateProof t 2).map (fun p => VerifyProof sampleSum256 t p)) =
      some true := by
  decide!

/-- The assumption of C5 cannot be dropped: under `sampleSum256`, whose double
hash does not separate the two halves, a proof with its first sibling hash
replaced by a different 32-byte value is accepted. -/
theorem sample_tampered_sibling_accepted :
    (NewMerkleTree sampleSum256 sampleHashes).bind
        (fun t => (GenerateProof t 2).map (fun p => p.map (fun q =>
          (decide (q.ProofHashes[0]? ≠ some (3 :: List.replicate 29 0 ++ [1, 253])),
            VerifyProof sampleSum256 t
              (some { q with ProofHashes :=
                q.ProofHashes.set 0 (3 :: List.replicate 29 0 ++ [1, 253]) }))))) =
      some (some (true, true)) := by
  decide!

/-- Under `halvesSum256` the same replacement is rejected. -/
theorem halves_tampered_sibling_rejected :
    (NewMerkleTree halvesSum256 sampleHashes).bind
        (fun t => (GenerateProof t 2).map (fun p => p.map (fun q =>
          (decide (q.ProofHashes[0]? ≠ some (3 :: List.replicate 29 0 ++ [1, 253])),
            VerifyProof halvesSum256 t
              (some { q with ProofHashes :=
                q.ProofHashes.set 0 (3 :: List.replicate 29 0 ++ [1, 253]) }))))) =
      some (some (true, false)) := by
  decide!

end Blockchain

/-! ## Bytes and little-endian words -/

theorem toNat_ofNat8 (n : Nat) : (UInt8.ofNat n).toNat = n % 256 := rfl

theorem ofNat8_mod (n : Nat) : UInt8.ofNat (n % 256) = UInt8.ofNat n :=
  UInt8.ext (by rw [toNat_ofNat8, toNat_ofNat8, Nat.mod_mod])

theorem ofNat8_toNat (b : UInt8) : UInt8.ofNat b.toNat = b :=
  UInt8.ext (by rw [toNat_ofNat8]; exact Nat.mod_eq_of_lt (UInt8.toNat_lt b))

theorem toNat8_lt (b : UInt8) : b.toNat < 256 := UInt8.toNat_lt b

theorem lor_shift8 (a b : Nat) (ha : a < 256) : a ||| (b <<< 8) = a + 256 * b := by
  rw [Nat.shiftLeft_eq, Nat.lor_comm, Nat.mul_comm b, Nat.add_comm]
  exact (Nat.mul_add_lt_is_or (i := 8) ha b).symm

theorem lor_shift16 (a b : Nat) (ha : a < 65536) : a ||| (b <<< 16) = a + 65536 * b := by
  rw [Nat.shiftLeft_eq, Nat.lor_comm, Nat.mul_comm b, Nat.add_comm]
  exact (Nat.mul_add_lt_is_or (i := 16) ha b).symm

theorem lor_shift24 (a b : Nat) (ha : a < 16777216) : a ||| (b <<< 24) = a + 16777216 * b := by
  rw [Nat.shiftLeft_eq, Nat.lor_comm, Nat.mul_comm b, Nat.add_comm]
  exact (Nat.mul_add_lt_is_or (i := 24) ha b).symm

theorem toUint32_natCast (n : Nat) : toUint32 (n : Int) = n % 4294967296 := by
  unfold toUint32
  omega

theorem toUint32_lt (x : Int) : toUint32 x < 4294967296 := by
  unfold toUint32
  omega

theorem toUint32_of_range (x : Int) (h0 : 0 ≤ x) (h1 : x < 4294967296) :
    ((toUint32 x : Nat) : Int) = x := by
  unfold toUint32
  omega

namespace LittleEndian

theorem PutUint32_length (v : Nat) : (PutUint32 v).length = 4 := rfl

theorem Uint32_PutUint32 (v : Nat) (hv : v < 4294967296) (rest : List UInt8) :
    Uint32 (PutUint32 v ++ rest) = some v := by
  simp only [PutUint32, List.cons_append, List.nil_append, Uint32, toNat_ofNat8,
    Nat.shiftRight_eq_div_pow, Option.some.injEq]
  rw [lor_shift8 _ _ (by omega), lor_shift16 _ _ (by omega), lor_shift24 _ _ (by omega)]
  omega

end LittleEndian

namespace Blockchain

theorem PutUint32_eq_specLE32 (x : Int) :
    LittleEndian.PutUint32 (toUint32 x) = specLE32 x := by
  simp only [LittleEndian.PutUint32, specLE32, toUint32, Nat.shiftRight_eq_div_pow]
  rw [ofNat8_mod, ofNat8_mod, ofNat8_mod, ofNat8_mod]

theorem specLE32_length (x : Int) : (specLE32 x).length = 4 := rfl

/-! ## The bytes written by `Serialize` -/

theorem foldl_append_hashes (hs : List (List UInt8)) :
    ∀ buf : List UInt8, hs.foldl (fun buf hash => buf ++ hash) buf = buf ++ hs.flatten := by
  induction hs with
  | nil => intro buf; simp
  | cons x rest ih => intro buf; simp [ih, List.append_assoc]

theorem foldl_append_flags (fl : List Bool) :
    ∀ buf : List UInt8,
      fl.foldl (fun buf flag => if flag then buf ++ [1] else buf ++ [0]) buf =
        buf ++ fl.map specFlagByte := by
  induction fl with
  | nil => intro buf; simp
  | cons f rest ih =>
      intro buf
      cases f <;> simp [ih, specFlagByte, List.append_assoc]

/-- The header of a serialized proof: the 76 bytes before the hashes. -/
theorem Serialize_eq (mp : MerkleProof) :
    Serialize mp =
      mp.TransactionHash.val ++ LittleEndian.PutUint32 (toUint32 mp.TransactionIndex) ++
        mp.MerkleRoot.val ++ LittleEndian.PutUint32 (toUint32 mp.TreeDepth) ++
        LittleEndian.PutUint32 (toUint32 (mp.ProofHashes.length : Int)) ++
        (mp.ProofHashes.flatten ++ mp.ProofFlags.map specFlagByte) := by
  simp only [Serialize, foldl_append_hashes, foldl_append_flags, List.nil_append,
    List.append_assoc]

theorem flatten_length_32 (hs : List (List UInt8)) (h32 : ∀ x ∈ hs, x.length = 32) :
    hs.flatten.length = 32 * hs.length := by
  induction hs with
  | nil => rfl
  | cons x rest ih =>
      rw [List.flatten_cons, List.length_append, h32 x (List.mem_cons_self _ _),
        ih (fun y hy => h32 y (List.mem_cons_of_mem _ hy)), List.length_cons]
      omega

theorem Serialize_length (mp : MerkleProof) (h32 : ∀ x ∈ mp.ProofHashes, x.length = 32) :
    (Serialize mp).length = 76 + 32 * mp.ProofHashes.length + mp.ProofFlags.length := by
  rw [Serialize_eq]
  simp only [List.length_append, LittleEndian.PutUint32_length, mp.TransactionHash.property,
    mp.MerkleRoot.property, flatten_length_32 _ h32, List.length_map]
  omega

/-! ## Slices of a concatenation -/

theorem sliceBytes_mid (pre a post : List UInt8) (lo hi : Nat) (hlo : lo = pre.length)
    (hhi : hi = lo + a.length) : sliceBytes (pre ++ a ++ post) lo hi = some a := by
  subst hlo hhi
  have hc : pre.length ≤ pre.length + a.length ∧
      pre.length + a.length ≤ (pre ++ a ++ post).length := by
    simp only [List.length_append]; omega
  simp only [sliceBytes, hc, and_self, if_true, Option.some.injEq]
  rw [List.append_assoc, List.drop_left, Nat.add_sub_cancel_left, List.take_left]

theorem getElem?_mid (pre : List UInt8) (b : UInt8) (post : List UInt8) (i : Nat)
    (hi : i = pre.length) : (pre ++ b :: post)[i]? = some b := by
  subst hi
  rw [List.getElem?_append_right (Nat.le_refl _), Nat.sub_self, List.getElem?_cons_zero]

theorem readHashes_flatten :
    ∀ (hs : List (List UInt8)) (pre post : List UInt8), (∀ x ∈ hs, x.length = 32) →
      readHashes hs.length (pre ++ hs.flatten ++ post) pre.length =
        some (hs, pre.length + 32 * hs.length)
  | [], pre, post, _ => by simp [readHashes]
  | x :: rest, pre, post, h32 => by
      have hx : x.length = 32 := h32 x (List.mem_cons_self _ _)
      have hs : sliceBytes (pre ++ (x :: rest).flatten ++ post) pre.length (pre.length + 32) =
          some x := by
        have e : pre ++ (x :: rest).flatten ++ post = pre ++ x ++ (rest.flatten ++ post) := by
          simp [List.append_assoc]
        rw [e]
        exact sliceBytes_mid pre x _ _ _ rfl (by rw [hx])
      have ih := readHashes_flatten rest (pre ++ x) post
        (fun y hy => h32 y (List.mem_cons_of_mem _ hy))
      have e2 : pre ++ x ++ rest.flatten ++ post = pre ++ (x :: rest).flatten ++ post := by
        simp [List.append_assoc]
      rw [e2, List.length_append, hx] at ih
      simp only [List.length_cons, readHashes, hs, Option.bind_eq_bind, Option.some_bind, ih,
        copyBytes_eq_of_length _ _ (show x.length = (List.replicate 32 (0 : UInt8)).length by
          rw [hx, List.length_replicate])]
      congr 2
      omega

theorem decide_specFlagByte (f : Bool) : decide (specFlagByte f = 1) = f := by
  cases f <;> decide

theorem readFlags_map :
    ∀ (fl : List Bool) (pre post : List UInt8),
      readFlags fl.length (pre ++ fl.map specFlagByte ++ post) pre.length =
        some (fl, pre.length + fl.length)
  | [], pre, post => by simp [readFlags]
  | f :: rest, pre, post => by
      have hb : (pre ++ (f :: rest).map specFlagByte ++ post)[pre.length]? =
          some (specFlagByte f) := by
        have e : pre ++ (f :: rest).map specFlagByte ++ post =
            pre ++ specFlagByte f :: (rest.map specFlagByte ++ post) := by
          simp [List.append_assoc]
        rw [e]
        exact getElem?_mid pre _ _ _ rfl
      have ih := readFlags_map rest (pre ++ [specFlagByte f]) post
      have e2 : pre ++ [specFlagByte f] ++ rest.map specFlagByte ++ post =
          pre ++ (f :: rest).map specFlagByte ++ post := by
        simp [List.append_assoc]
      rw [e2, List.length_append, List.length_singleton] at ih
      simp only [List.length_cons, readFlags, hb, Option.bind_eq_bind, Option.some_bind, ih,
        decide_specFlagByte]
      congr 2
      omega

/-! ## `Deserialize` on a header followed by a body -/

theorem Deserialize_header (mp0 : MerkleProof) (hash root : Hash32) (vi vd vc : Nat)
    (hi : vi < 4294967296) (hd : vd < 4294967296) (hc : vc < 4294967296)
    (body data : List UInt8)
    (hdata : data = hash.val ++ LittleEndian.PutUint32 vi ++ root.val ++
        LittleEndian.PutUint32 vd ++ LittleEndian.PutUint32 vc ++ body) :
    Deserialize mp0 data =
      if body.length < vc * 32 + vc then
        some ({ TransactionHash := hash, TransactionIndex := (vi : Int), MerkleRoot := root,
                ProofHashes := mp0.ProofHashes, ProofFlags := mp0.ProofFlags,
                TreeDepth := (vd : Int) }, some DeserializeError.lengthMismatch)
      else
        (readHashes vc data 76).bind (fun r =>
          (readFlags vc data r.2).bind (fun q =>
            some ({ TransactionHash := hash, TransactionIndex := (vi : Int), MerkleRoot := root,
                    ProofHashes := r.1, ProofFlags := q.1, TreeDepth := (vd : Int) }, none))) := by
  have hlen : data.length = 76 + body.length := by
    rw [hdata]
    simp only [List.length_append, LittleEndian.PutUint32_length, hash.property, root.property]
  have hlt : ¬ data.length < 76 := by omega
  have h1 : sliceBytes data 0 (0 + 32) = some hash.val := by
    rw [hdata]
    have e : hash.val ++ LittleEndian.PutUint32 vi ++ root.val ++ LittleEndian.PutUint32 vd ++
        LittleEndian.PutUint32 vc ++ body = [] ++ hash.val ++ (LittleEndian.PutUint32 vi ++
        (root.val ++ (LittleEndian.PutUint32 vd ++ (LittleEndian.PutUint32 vc ++ body)))) := by
      simp only [List.append_assoc, List.nil_append]
    rw [e]
    exact sliceBytes_mid [] hash.val _ _ _ rfl (by rw [hash.property])
  have h2 : sliceBytes data (0 + 32) (0 + 32 + 4) = some (LittleEndian.PutUint32 vi) := by
    rw [hdata]
    have e : hash.val ++ LittleEndian.PutUint32 vi ++ root.val ++ LittleEndian.PutUint32 vd ++
        LittleEndian.PutUint32 vc ++ body = hash.val ++ LittleEndian.PutUint32 vi ++
        (root.val ++ (LittleEndian.PutUint32 vd ++ (LittleEndian.PutUint32 vc ++ body))) := by
      simp only [List.append_assoc]
    rw [e]
    exact sliceBytes_mid hash.val _ _ _ _ (by rw [hash.property])
      (by rw [LittleEndian.PutUint32_length])
  have h3 : sliceBytes data (0 + 32 + 4) (0 + 32 + 4 + 32) = some root.val := by
    rw [hdata]
    have e : hash.val ++ LittleEndian.PutUint32 vi ++ root.val ++ LittleEndian.PutUint32 vd ++
        LittleEndian.PutUint32 vc ++ body = (hash.val ++ LittleEndian.PutUint32 vi) ++ root.val ++
        (LittleEndian.PutUint32 vd ++ (LittleEndian.PutUint32 vc ++ body)) := by
      simp only [List.append_assoc]
    rw [e]
    exact sliceBytes_mid _ root.val _ _ _
      (by rw [List.length_append, hash.property, LittleEndian.PutUint32_length])
      (by rw [root.property])
  have h4 : sliceBytes data (0 + 32 + 4 + 32) (0 + 32 + 4 + 32 + 4) =
      some (LittleEndian.PutUint32 vd) := by
    rw [hdata]
    have e : hash.val ++ LittleEndian.PutUint32 vi ++ root.val ++ LittleEndian.PutUint32 vd ++
        LittleEndian.PutUint32 vc ++ body = (hash.val ++ LittleEndian.PutUint32 vi ++ root.val) ++
        LittleEndian.PutUint32 vd ++ (LittleEndian.PutUint32 vc ++ body) := by
      simp only [List.append_assoc]
    rw [e]
    exact sliceBytes_mid _ _ _ _ _
      (by rw [List.length_append, List.length_append, hash.property, root.property,
        LittleEndian.PutUint32_length])
      (by rw [LittleEndian.PutUint32_length])
  have h5 : sliceBytes data (0 + 32 + 4 + 32 + 4) (0 + 32 + 4 + 32 + 4 + 4) =
      some (LittleEndian.PutUint32 vc) := by
    rw [hdata]
    exact sliceBytes_mid _ _ _ _ _
      (by rw [List.length_append, List.length_append, List.length_append, hash.property,
        root.property, LittleEndian.PutUint32_length, LittleEndian.PutUint32_length])
      (by rw [LittleEndian.PutUint32_length])
  have u1 := LittleEndian.Uint32_PutUint32 vi hi []
  have u2 := LittleEndian.Uint32_PutUint32 vd hd []
  have u3 := LittleEndian.Uint32_PutUint32 vc hc []
  rw [List.append_nil] at u1 u2 u3
  have e76 : data.length - (0 + 32 + 4 + 32 + 4 + 4) = body.length := by omega
  simp only [Deserialize, hlt, if_false, h1, h2, h3, h4, h5, u1, u2, u3, Option.bind_eq_bind,
    Option.some_bind, copy32_eq, e76]

/-- Result of `Deserialize` on the serialization of a proof whose three
32-bit fields fit and whose siblings have 32 bytes. -/
theorem Deserialize_Serialize (mp0 p : MerkleProof)
    (h32 : ∀ x ∈ p.ProofHashes, x.length = 32)
    (hfl : p.ProofFlags.length = p.ProofHashes.length)
    (hi0 : 0 ≤ p.TransactionIndex) (hi1 : p.TransactionIndex < 4294967296)
    (hd0 : 0 ≤ p.TreeDepth) (hd1 : p.TreeDepth < 4294967296)
    (hn : p.ProofHashes.length < 4294967296) :
    Deserialize mp0 (Serialize p) = some (p, none) := by
  have hc : toUint32 (p.ProofHashes.length : Int) = p.ProofHashes.length := by
    rw [toUint32_natCast, Nat.mod_eq_of_lt hn]
  have hS := Serialize_eq p
  rw [hc] at hS
  rw [Deserialize_header mp0 p.TransactionHash p.MerkleRoot (toUint32 p.TransactionIndex)
    (toUint32 p.TreeDepth) p.ProofHashes.length (toUint32_lt _) (toUint32_lt _) hn _ _ hS]
  have hbody : ¬ (p.ProofHashes.flatten ++ p.ProofFlags.map specFlagByte).length <
      p.ProofHashes.length * 32 + p.ProofHashes.length := by
    rw [List.length_append, flatten_length_32 _ h32, List.length_map, hfl]
    omega
  rw [if_neg hbody]
  have hpre : (p.TransactionHash.val ++ LittleEndian.PutUint32 (toUint32 p.TransactionIndex) ++
      p.MerkleRoot.val ++ LittleEndian.PutUint32 (toUint32 p.TreeDepth) ++
      LittleEndian.PutUint32 p.ProofHashes.length).length = 76 := by
    simp only [List.length_append, LittleEndian.PutUint32_length, p.TransactionHash.property,
      p.MerkleRoot.property]
  have hrh := readHashes_flatten p.ProofHashes
    (p.TransactionHash.val ++ LittleEndian.PutUint32 (toUint32 p.TransactionIndex) ++
      p.MerkleRoot.val ++ LittleEndian.PutUint32 (toUint32 p.TreeDepth) ++
      LittleEndian.PutUint32 p.ProofHashes.length) (p.ProofFlags.map specFlagByte) h32
  rw [hpre, List.append_assoc _ p.ProofHashes.flatten, ← hS] at hrh
  have hrf := readFlags_map p.ProofFlags
    (p.TransactionHash.val ++ LittleEndian.PutUint32 (toUint32 p.TransactionIndex) ++
      p.MerkleRoot.val ++ LittleEndian.PutUint32 (toUint32 p.TreeDepth) ++
      LittleEndian.PutUint32 p.ProofHashes.length ++ p.ProofHashes.flatten) []
  rw [List.append_nil, List.length_append, hpre, flatten_length_32 _ h32,
    List.append_assoc _ p.ProofHashes.flatten, ← hS, hfl] at hrf
  rw [hrh]
  simp only [Option.some_bind, hrf, toUint32_of_range _ hi0 hi1, toUint32_of_range _ hd0 hd1]

end Blockchain

namespace LittleEndian

theorem PutUint32_Uint32 (s : List UInt8) (hs : s.length = 4) :
    ∃ v, v < 4294967296 ∧ Uint32 s = some v ∧ PutUint32 v = s := by
  match s, hs with
  | [b0, b1, b2, b3], _ =>
      have h0 := toNat8_lt b0
      have h1 := toNat8_lt b1
      have h2 := toNat8_lt b2
      have h3 := toNat8_lt b3
      refine ⟨b0.toNat + 256 * b1.toNat + 65536 * b2.toNat + 16777216 * b3.toNat, by omega,
        ?_, ?_⟩
      · simp only [Uint32, Option.some.injEq]
        rw [lor_shift8 _ _ h0, lor_shift16 _ _ (by omega), lor_shift24 _ _ (by omega)]
      · simp only [PutUint32, Nat.shiftRight_eq_div_pow]
        have e0 : UInt8.ofNat (b0.toNat + 256 * b1.toNat + 65536 * b2.toNat +
            16777216 * b3.toNat) = b0 :=
          UInt8.ext (by rw [toNat_ofNat8]; omega)
        have e1 : UInt8.ofNat ((b0.toNat + 256 * b1.toNat + 65536 * b2.toNat +
            16777216 * b3.toNat) / 2 ^ 8) = b1 :=
          UInt8.ext (by rw [toNat_ofNat8]; omega)
        have e2 : UInt8.ofNat ((b0.toNat + 256 * b1.toNat + 65536 * b2.toNat +
            16777216 * b3.toNat) / 2 ^ 16) = b2 :=
          UInt8.ext (by rw [toNat_ofNat8]; omega)
        have e3 : UInt8.ofNat ((b0.toNat + 256 * b1.toNat + 65536 * b2.toNat +
            16777216 * b3.toNat) / 2 ^ 24) = b3 :=
          UInt8.ext (by rw [toNat_ofNat8]; omega)
        rw [e0, e1, e2, e3]

end LittleEndian

namespace Blockchain

theorem split_bytes (data : List UInt8) (k : Nat) (h : k ≤ data.length) :
    ∃ a rest, data = a ++ rest ∧ a.length = k :=
  ⟨data.take k, data.drop k, (List.take_append_drop k data).symm,
    by rw [List.length_take]; omega⟩

/-- Every input of at least 76 bytes is a header followed by a body. -/
theorem header_of_length (data : List UInt8) (h : 76 ≤ data.length) :
    ∃ (hash root : Hash32) (vi vd vc : Nat) (body : List UInt8),
      vi < 4294967296 ∧ vd < 4294967296 ∧ vc < 4294967296 ∧
      data = hash.val ++ LittleEndian.PutUint32 vi ++ root.val ++
        LittleEndian.PutUint32 vd ++ LittleEndian.PutUint32 vc ++ body := by
  obtain ⟨a1, r1, e1, l1⟩ := split_bytes data 32 (by omega)
  have hr1 : r1.length = data.length - 32 := by
    have := congrArg List.length e1
    rw [List.length_append] at this; omega
  obtain ⟨a2, r2, e2, l2⟩ := split_bytes r1 4 (by omega)
  have hr2 : r2.length = data.length - 36 := by
    have := congrArg List.length e2
    rw [List.length_append] at this; omega
  obtain ⟨a3, r3, e3, l3⟩ := split_bytes r2 32 (by omega)
  have hr3 : r3.length = data.length - 68 := by
    have := congrArg List.length e3
    rw [List.length_append] at this; omega
  obtain ⟨a4, r4, e4, l4⟩ := split_bytes r3 4 (by omega)
  have hr4 : r4.length = data.length - 72 := by
    have := congrArg List.length e4
    rw [List.length_append] at this; omega
  obtain ⟨a5, r5, e5, l5⟩ := split_bytes r4 4 (by omega)
  obtain ⟨vi, hvi, _, pi⟩ := LittleEndian.PutUint32_Uint32 a2 l2
  obtain ⟨vd, hvd, _, pd⟩ := LittleEndian.PutUint32_Uint32 a4 l4
  obtain ⟨vc, hvc, _, pc⟩ := LittleEndian.PutUint32_Uint32 a5 l5
  refine ⟨⟨a1, l1⟩, ⟨a3, l3⟩, vi, vd, vc, r5, hvi, hvd, hvc, ?_⟩
  rw [pi, pd, pc, e1, e2, e3, e4, e5]
  simp only [List.append_assoc]

theorem count_slice (hash root : Hash32) (vi vd vc : Nat) (body : List UInt8) :
    sliceBytes (hash.val ++ LittleEndian.PutUint32 vi ++ root.val ++
        LittleEndian.PutUint32 vd ++ LittleEndian.PutUint32 vc ++ body) 72 76 =
      some (LittleEndian.PutUint32 vc) :=
  sliceBytes_mid _ _ _ _ _
    (by rw [List.length_append, List.length_append, List.length_append, hash.property,
      root.property, LittleEndian.PutUint32_length, LittleEndian.PutUint32_length])
    (by rw [LittleEndian.PutUint32_length])

/-- Input of at least 76 bytes with fewer than `33 * count` bytes after the
header, `count` being the 32-bit value at offset 72, is rejected. -/
theorem Deserialize_short_body (mp0 : MerkleProof) (data s : List UInt8) (count : Nat)
    (hlen : 76 ≤ data.length) (hs : sliceBytes data 72 76 = some s)
    (hc : LittleEndian.Uint32 s = some count) (hshort : data.length - 76 < 33 * count) :
    ∃ q, Deserialize mp0 data = some (q, some DeserializeError.lengthMismatch) := by
  obtain ⟨hash, root, vi, vd, vc, body, hvi, hvd, hvc, hdata⟩ := header_of_length data hlen
  have hl : data.length = 76 + body.length := by
    rw [hdata]
    simp only [List.length_append, LittleEndian.PutUint32_length, hash.property, root.property]
  have hcs := count_slice hash root vi vd vc body
  rw [← hdata, hs] at hcs
  have hs' : s = LittleEndian.PutUint32 vc := Option.some.inj hcs
  have hu := LittleEndian.Uint32_PutUint32 vc hvc []
  rw [List.append_nil, ← hs', hc] at hu
  have hcv : count = vc := Option.some.inj hu
  subst hcv
  rw [Deserialize_header mp0 hash root vi vd count hvi hvd hvc body data hdata,
    if_pos (by omega)]
  exact ⟨_, rfl⟩

theorem Deserialize_too_short (mp0 : MerkleProof) (data : List UInt8) (h : data.length < 76) :
    Deserialize mp0 data = some (mp0, some DeserializeError.tooShort) := by
  simp only [Deserialize, h, if_true]

/-- A strict prefix of the serialization of a proof with fewer than `2 ^ 32`
siblings of 32 bytes and as many flags is rejected. -/
theorem Deserialize_strict_prefix (mp0 p : MerkleProof) (d : List UInt8)
    (h32 : ∀ x ∈ p.ProofHashes, x.length = 32)
    (hfl : p.ProofFlags.length = p.ProofHashes.length)
    (hn : p.ProofHashes.length < 4294967296)
    (hpre : d <+: Serialize p) (hne : d ≠ Serialize p) :
    ∃ q e, Deserialize mp0 d = some (q, some e) ∧
      (d.length < 76 → e = DeserializeError.tooShort) ∧
      (76 ≤ d.length → e = DeserializeError.lengthMismatch) := by
  by_cases hd : d.length < 76
  · exact ⟨mp0, _, Deserialize_too_short mp0 d hd, fun _ => rfl, fun h => by omega⟩
  · have hc : toUint32 (p.ProofHashes.length : Int) = p.ProofHashes.length := by
      rw [toUint32_natCast, Nat.mod_eq_of_lt hn]
    have hS := Serialize_eq p
    rw [hc] at hS
    have hpl : (p.TransactionHash.val ++ LittleEndian.PutUint32 (toUint32 p.TransactionIndex) ++
        p.MerkleRoot.val ++ LittleEndian.PutUint32 (toUint32 p.TreeDepth) ++
        LittleEndian.PutUint32 p.ProofHashes.length).length = 76 := by
      simp only [List.length_append, LittleEndian.PutUint32_length, p.TransactionHash.property,
        p.MerkleRoot.property]
    obtain ⟨t, ht⟩ := hpre
    have htne : t ≠ [] := by
      intro e
      rw [e, List.append_nil] at ht
      exact hne ht
    rw [hS] at ht
    obtain ⟨c, hdc, hbody⟩ : ∃ c, d = (p.TransactionHash.val ++
        LittleEndian.PutUint32 (toUint32 p.TransactionIndex) ++
        p.MerkleRoot.val ++ LittleEndian.PutUint32 (toUint32 p.TreeDepth) ++
        LittleEndian.PutUint32 p.ProofHashes.length) ++ c ∧
        p.ProofHashes.flatten ++ p.ProofFlags.map specFlagByte = c ++ t := by
      rcases List.append_eq_append_iff.mp ht with ⟨a', h1, h2⟩ | ⟨c', h1, h2⟩
      · have hl := congrArg List.length h1
        rw [hpl, List.length_append] at hl
        have ha : a' = [] := List.length_eq_zero.mp (by omega)
        subst ha
        rw [List.append_nil] at h1
        rw [List.nil_append] at h2
        exact ⟨[], by rw [List.append_nil, h1], by rw [List.nil_append, h2]⟩
      · exact ⟨c', h1, h2⟩
    have hcl : c.length < p.ProofHashes.length * 32 + p.ProofHashes.length := by
      have hl := congrArg List.length hbody
      rw [List.length_append, List.length_append, flatten_length_32 _ h32, List.length_map,
        hfl] at hl
      have : 0 < t.length := List.length_pos.mpr htne
      omega
    rw [Deserialize_header mp0 p.TransactionHash p.MerkleRoot (toUint32 p.TransactionIndex)
      (toUint32 p.TreeDepth) p.ProofHashes.length (toUint32_lt _) (toUint32_lt _) hn c d hdc,
      if_pos hcl]
    exact ⟨_, _, rfl, fun h => absurd h hd, fun _ => rfl⟩

/-! ## Serialization: the claims -/

theorem hugeProof_hashes_length : hugeProof.ProofHashes.length = 4294967296 :=
  List.length_replicate _ _

theorem hugeProof_flags_length : hugeProof.ProofFlags.length = 4294967296 :=
  List.length_replicate _ _

theorem hugeProof_hashes_32 : ∀ x ∈ hugeProof.ProofHashes, x.length = 32 := by
  intro x hx
  have e : x = List.replicate 32 (0 : UInt8) := List.eq_of_mem_replicate hx
  rw [e, List.length_replicate]

theorem hugeProof_hashes_ne_nil : hugeProof.ProofHashes ≠ [] := by
  intro e
  have h := hugeProof_hashes_length
  rw [e] at h
  exact absurd h (by decide)

/-- The count field of the serialization of `hugeProof` is zero, so a reader
of its header expects no sibling. -/
theorem Deserialize_hugeProof_header (mp0 : MerkleProof) (body : List UInt8) :
    Deserialize mp0 (hugeProof.TransactionHash.val ++
        LittleEndian.PutUint32 (toUint32 hugeProof.TransactionIndex) ++
        hugeProof.MerkleRoot.val ++ LittleEndian.PutUint32 (toUint32 hugeProof.TreeDepth) ++
        LittleEndian.PutUint32 0 ++ body) =
      some ({ TransactionHash := hugeProof.TransactionHash,
              TransactionIndex := (toUint32 hugeProof.TransactionIndex : Int),
              MerkleRoot := hugeProof.MerkleRoot, ProofHashes := [], ProofFlags := [],
              TreeDepth := (toUint32 hugeProof.TreeDepth : Int) }, none) := by
  rw [Deserialize_header mp0 hugeProof.TransactionHash hugeProof.MerkleRoot
    (toUint32 hugeProof.TransactionIndex) (toUint32 hugeProof.TreeDepth) 0 (toUint32_lt _)
    (toUint32_lt _) (by decide) body _ rfl]
  simp only [Nat.zero_mul, Nat.add_zero, Nat.not_lt_zero, if_false, readHashes, readFlags,
    Option.some_bind]

theorem Serialize_hugeProof :
    Serialize hugeProof = hugeProof.TransactionHash.val ++
        LittleEndian.PutUint32 (toUint32 hugeProof.TransactionIndex) ++
        hugeProof.MerkleRoot.val ++ LittleEndian.PutUint32 (toUint32 hugeProof.TreeDepth) ++
        LittleEndian.PutUint32 0 ++
        (hugeProof.ProofHashes.flatten ++ hugeProof.ProofFlags.map specFlagByte) := by
  have h := Serialize_eq hugeProof
  rw [hugeProof_hashes_length] at h
  exact h

/-- C11: for every proof with 32-byte siblings, as many flags as siblings,
fewer than `2 ^ 32` siblings and `TransactionIndex` and `TreeDepth` in
`[0, 2 ^ 32)`, `Deserialize` of its serialization into any receiver succeeds and
restores every field, so the restored proof verifies exactly when the original
does. -/
theorem C11_serialize_roundtrip (mp0 p : MerkleProof)
    (h32 : ∀ x ∈ p.ProofHashes, x.length = 32)
    (hfl : p.ProofFlags.length = p.ProofHashes.length)
    (hi0 : 0 ≤ p.TransactionIndex) (hi1 : p.TransactionIndex < 4294967296)
    (hd0 : 0 ≤ p.TreeDepth) (hd1 : p.TreeDepth < 4294967296)
    (hn : p.ProofHashes.length < 4294967296) :
    ∃ q, Deserialize mp0 (Serialize p) = some (q, none) ∧
      q.TransactionHash = p.TransactionHash ∧ q.TransactionIndex = p.TransactionIndex ∧
      q.MerkleRoot = p.MerkleRoot ∧ q.TreeDepth = p.TreeDepth ∧
      q.ProofHashes = p.ProofHashes ∧ q.ProofFlags = p.ProofFlags ∧
      ∀ (Sum256 : List UInt8 → Hash32) (t : MerkleTree),
        VerifyProof Sum256 t (some q) = VerifyProof Sum256 t (some p) :=
  ⟨p, Deserialize_Serialize mp0 p h32 hfl hi0 hi1 hd0 hd1 hn, rfl, rfl, rfl, rfl, rfl, rfl,
    fun _ _ => rfl⟩

theorem C11_witness :
    ∃ q, Deserialize emptyProof (Serialize sampleProof) = some (q, none) ∧
      q.TransactionHash = sampleProof.TransactionHash ∧
      q.TransactionIndex = sampleProof.TransactionIndex ∧
      q.MerkleRoot = sampleProof.MerkleRoot ∧ q.TreeDepth = sampleProof.TreeDepth ∧
      q.ProofHashes = sampleProof.ProofHashes ∧ q.ProofFlags = sampleProof.ProofFlags ∧
      ∀ (Sum256 : List UInt8 → Hash32) (t : MerkleTree),
        VerifyProof Sum256 t (some q) = VerifyProof Sum256 t (some sampleProof) :=
  C11_serialize_roundtrip emptyProof sampleProof (by decide) (by decide) (by decide) (by decide)
    (by decide) (by decide) (by decide)

theorem C11_counterexample :
    (∀ x ∈ hugeProof.ProofHashes, x.length = 32) ∧
    hugeProof.ProofFlags.length = hugeProof.ProofHashes.length ∧
    0 ≤ hugeProof.TransactionIndex ∧ hugeProof.TransactionIndex < 4294967296 ∧
    0 ≤ hugeProof.TreeDepth ∧ hugeProof.TreeDepth < 4294967296 ∧
    ∃ q, Deserialize emptyProof (Serialize hugeProof) = some (q, none) ∧
      q.ProofHashes = [] ∧ q.ProofHashes ≠ hugeProof.ProofHashes := by
  refine ⟨hugeProof_hashes_32, by rw [hugeProof_flags_length, hugeProof_hashes_length],
    by decide, by decide, by decide, by decide, ?_⟩
  rw [Serialize_hugeProof]
  exact ⟨_, Deserialize_hugeProof_header emptyProof _, rfl,
    fun e => hugeProof_hashes_ne_nil e.symm⟩

/-- C12: for every proof with 32-byte siblings, as many flags as siblings and
fewer than `2 ^ 32` siblings, `Deserialize` returns an error on every strict
prefix of its serialization; every input shorter than the 76-byte header is
rejected, and so is every input with fewer than `33 * count` bytes after the
header, `count` being the little-endian 32-bit value at offset 72. -/
theorem C12_truncated_input_rejected (mp0 : MerkleProof) :
    (∀ (p : MerkleProof) (d : List UInt8), (∀ x ∈ p.ProofHashes, x.length = 32) →
      p.ProofFlags.length = p.ProofHashes.length → p.ProofHashes.length < 4294967296 →
      d <+: Serialize p → d ≠ Serialize p →
      ∃ q e, Deserialize mp0 d = some (q, some e)) ∧
    (∀ data : List UInt8, data.length < 76 →
      Deserialize mp0 data = some (mp0, some DeserializeError.tooShort)) ∧
    (∀ (data s : List UInt8) (count : Nat), 76 ≤ data.length →
      sliceBytes data 72 76 = some s → LittleEndian.Uint32 s = some count →
      data.length - 76 < 33 * count →
      ∃ q, Deserialize mp0 data = some (q, some DeserializeError.lengthMismatch)) := by
  refine ⟨?_, Deserialize_too_short mp0, Deserialize_short_body mp0⟩
  intro p d h32 hfl hn hpre hne
  obtain ⟨q, e, h, _, _⟩ := Deserialize_strict_prefix mp0 p d h32 hfl hn hpre hne
  exact ⟨q, e, h⟩

theorem C12_witness :
    ∃ q e, Deserialize emptyProof ((Serialize sampleProof).take 100) = some (q, some e) :=
  (C12_truncated_input_rejected emptyProof).1 sampleProof ((Serialize sampleProof).take 100)
    (by decide) (by decide) (by decide) (List.take_prefix _ _) (by decide)

theorem C12_counterexample :
    (∀ x ∈ hugeProof.ProofHashes, x.length = 32) ∧
    hugeProof.ProofFlags.length = hugeProof.ProofHashes.length ∧
    (Serialize hugeProof).take 76 <+: Serialize hugeProof ∧
    (Serialize hugeProof).take 76 ≠ Serialize hugeProof ∧
    ∃ q, Deserialize emptyProof ((Serialize hugeProof).take 76) = some (q, none) := by
  have hhead : (hugeProof.TransactionHash.val ++
      LittleEndian.PutUint32 (toUint32 hugeProof.TransactionIndex) ++
      hugeProof.MerkleRoot.val ++ LittleEndian.PutUint32 (toUint32 hugeProof.TreeDepth) ++
      LittleEndian.PutUint32 0).length = 76 := by
    simp only [List.length_append, LittleEndian.PutUint32_length,
      hugeProof.TransactionHash.property, hugeProof.MerkleRoot.property]
  have htake : (Serialize hugeProof).take 76 = hugeProof.TransactionHash.val ++
      LittleEndian.PutUint32 (toUint32 hugeProof.TransactionIndex) ++
      hugeProof.MerkleRoot.val ++ LittleEndian.PutUint32 (toUint32 hugeProof.TreeDepth) ++
      LittleEndian.PutUint32 0 ++ [] := by
    rw [Serialize_hugeProof, List.append_nil, ← hhead, List.take_left]
  refine ⟨hugeProof_hashes_32, by rw [hugeProof_flags_length, hugeProof_hashes_length],
    List.take_prefix _ _, ?_, ?_⟩
  · intro e
    have hl := congrArg List.length e
    rw [List.length_take, Serialize_length _ hugeProof_hashes_32, hugeProof_hashes_length,
      hugeProof_flags_length] at hl
    omega
  · rw [htake]
    exact ⟨_, Deserialize_hugeProof_header emptyProof []⟩

theorem Serialize_eq_specSerialize (mp : MerkleProof) : Serialize mp = specSerialize mp := by
  rw [Serialize_eq, specSerialize, PutUint32_eq_specLE32, PutUint32_eq_specLE32,
    PutUint32_eq_specLE32]
  simp only [List.append_assoc]

theorem C13_counterexample :
    (∀ x ∈ sampleProofNoPath.ProofHashes, x.length = 32) ∧
    sampleProofNoPath.ProofFlags.length = sampleProofNoPath.ProofHashes.length ∧
    Serialize sampleProofNoPath ≠ specLayoutNoDepth sampleProofNoPath ∧
    sliceBytes (Serialize sampleProofNoPath) 68 72 ≠
      some (specLE32 (sampleProofNoPath.ProofHashes.length : Int)) := by
  decide

/-- C13: for every proof with 32-byte siblings and as many flags as siblings,
the serialization holds the leaf digest at bytes 0 to 32, the leaf index
(4-byte little-endian) at 32 to 36, the claimed root at 36 to 68, the tree depth
(4-byte little-endian) at 68 to 72, the path length (4-byte little-endian count)
at 72 to 76, then that many 32-byte sibling digests, then that many one-byte
flags (1 for true, 0 for false). -/
theorem C13_layout_offsets (p : MerkleProof) (h32 : ∀ x ∈ p.ProofHashes, x.length = 32)
    (hfl : p.ProofFlags.length = p.ProofHashes.length) :
    sliceBytes (Serialize p) 0 32 = some p.TransactionHash.val ∧
    sliceBytes (Serialize p) 32 36 = some (specLE32 p.TransactionIndex) ∧
    sliceBytes (Serialize p) 36 68 = some p.MerkleRoot.val ∧
    sliceBytes (Serialize p) 68 72 = some (specLE32 p.TreeDepth) ∧
    sliceBytes (Serialize p) 72 76 = some (specLE32 (p.ProofHashes.length : Int)) ∧
    sliceBytes (Serialize p) 76 (76 + 32 * p.ProofHashes.length) = some p.ProofHashes.flatten ∧
    sliceBytes (Serialize p) (76 + 32 * p.ProofHashes.length)
      (76 + 33 * p.ProofHashes.length) = some (p.ProofFlags.map specFlagByte) := by
  have hS := Serialize_eq_specSerialize p
  unfold specSerialize at hS
  have lh := p.TransactionHash.property
  have lr := p.MerkleRoot.property
  refine ⟨?_, ?_, ?_, ?_, ?_, ?_, ?_⟩
  · have e : Serialize p = [] ++ p.TransactionHash.val ++ (specLE32 p.TransactionIndex ++
        (p.MerkleRoot.val ++ (specLE32 p.TreeDepth ++ (specLE32 (p.ProofHashes.length : Int) ++
        (p.ProofHashes.flatten ++ p.ProofFlags.map specFlagByte))))) := by
      rw [hS]; simp only [List.append_assoc, List.nil_append]
    rw [e]
    exact sliceBytes_mid _ _ _ _ _ rfl (by rw [lh])
  · have e : Serialize p = p.TransactionHash.val ++ specLE32 p.TransactionIndex ++
        (p.MerkleRoot.val ++ (specLE32 p.TreeDepth ++ (specLE32 (p.ProofHashes.length : Int) ++
        (p.ProofHashes.flatten ++ p.ProofFlags.map specFlagByte)))) := by
      rw [hS]; simp only [List.append_assoc]
    rw [e]
    exact sliceBytes_mid _ _ _ _ _ (by rw [lh]) (by rw [specLE32_length])
  · have e : Serialize p = p.TransactionHash.val ++ specLE32 p.TransactionIndex ++
        p.MerkleRoot.val ++ (specLE32 p.TreeDepth ++ (specLE32 (p.ProofHashes.length : Int) ++
        (p.ProofHashes.flatten ++ p.ProofFlags.map specFlagByte))) := by
      rw [hS]; simp only [List.append_assoc]
    rw [e]
    exact sliceBytes_mid _ _ _ _ _ (by rw [List.length_append, lh, specLE32_length])
      (by rw [lr])
  · have e : Serialize p = p.TransactionHash.val ++ specLE32 p.TransactionIndex ++
        p.MerkleRoot.val ++ specLE32 p.TreeDepth ++ (specLE32 (p.ProofHashes.length : Int) ++
        (p.ProofHashes.flatten ++ p.ProofFlags.map specFlagByte)) := by
      rw [hS]; simp only [List.append_assoc]
    rw [e]
    exact sliceBytes_mid _ _ _ _ _
      (by rw [List.length_append, List.length_append, lh, lr, specLE32_length])
      (by rw [specLE32_length])
  · have e : Serialize p = p.TransactionHash.val ++ specLE32 p.TransactionIndex ++
        p.MerkleRoot.val ++ specLE32 p.TreeDepth ++ specLE32 (p.ProofHashes.length : Int) ++
        (p.ProofHashes.flatten ++ p.ProofFlags.map specFlagByte) := by
      rw [hS]; simp only [List.append_assoc]
    rw [e]
    exact sliceBytes_mid _ _ _ _ _
      (by rw [List.length_append, List.length_append, List.length_append, lh, lr,
        specLE32_length, specLE32_length])
      (by rw [specLE32_length])
  · rw [hS]
    exact sliceBytes_mid _ _ _ _ _
      (by rw [List.length_append, List.length_append, List.length_append, List.length_append,
        lh, lr, specLE32_length, specLE32_length, specLE32_length])
      (by rw [flatten_length_32 _ h32])
  · have e : Serialize p = p.TransactionHash.val ++ specLE32 p.TransactionIndex ++
        p.MerkleRoot.val ++ specLE32 p.TreeDepth ++ specLE32 (p.ProofHashes.length : Int) ++
        p.ProofHashes.flatten ++ p.ProofFlags.map specFlagByte ++ [] := by
      rw [hS, List.append_nil]
    rw [e]
    exact sliceBytes_mid _ _ _ _ _
      (by rw [List.length_append, List.length_append, List.length_append, List.length_append,
        List.length_append, lh, lr, specLE32_length, specLE32_length, specLE32_length,
        flatten_length_32 _ h32])
      (by rw [List.length_map, hfl]; omega)

theorem C13_witness :
    sliceBytes (Serialize sampleProof) 0 32 = some sampleProof.TransactionHash.val ∧
    sliceBytes (Serialize sampleProof) 32 36 = some (specLE32 sampleProof.TransactionIndex) ∧
    sliceBytes (Serialize sampleProof) 36 68 = some sampleProof.MerkleRoot.val ∧
    sliceBytes (Serialize sampleProof) 68 72 = some (specLE32 sampleProof.TreeDepth) ∧
    sliceBytes (Serialize sampleProof) 72 76 =
      some (specLE32 (sampleProof.ProofHashes.length : Int)) ∧
    sliceBytes (Serialize sampleProof) 76 (76 + 32 * sampleProof.ProofHashes.length) =
      some sampleProof.ProofHashes.flatten ∧
    sliceBytes (Serialize sampleProof) (76 + 32 * sampleProof.ProofHashes.length)
      (76 + 33 * sampleProof.ProofHashes.length) =
      some (sampleProof.ProofFlags.map specFlagByte) :=
  C13_layout_offsets sampleProof (by decide) (by decide)

/-- C14: the serialization of every proof is its transaction hash, the
little-endian 32 bits of its transaction index, its root, the little-endian 32
bits of its tree depth and of its number of hashes, all its hashes in order and
one byte per flag in order, 1 for true and 0 for false. -/
theorem C14_serialize_layout (p : MerkleProof) :
    Serialize p =
      p.TransactionHash.val ++ specLE32 p.TransactionIndex ++ p.MerkleRoot.val ++
        specLE32 p.TreeDepth ++ specLE32 (p.ProofHashes.length : Int) ++
        p.ProofHashes.flatten ++ p.ProofFlags.map specFlagByte ∧
    p.TransactionHash.val.length = 32 ∧ p.MerkleRoot.val.length = 32 :=
  ⟨Serialize_eq_specSerialize p, p.TransactionHash.property, p.MerkleRoot.property⟩

/-- C15: for every proof with 32-byte siblings and as many flags as siblings,
the serialization has `76 + 33 * len(ProofHashes)` bytes, which is what
`GetProofSize` returns. -/
theorem C15_serialized_size (p : MerkleProof) (h32 : ∀ x ∈ p.ProofHashes, x.length = 32)
    (hfl : p.ProofFlags.length = p.ProofHashes.length) :
    (Serialize p).length = 76 + 33 * p.ProofHashes.length ∧
    ((Serialize p).length : Int) = GetProofSize p := by
  have h := Serialize_length p h32
  rw [hfl] at h
  constructor
  · omega
  · rw [h, GetProofSize]
    push_cast
    ring

theorem C15_witness :
    (Serialize sampleProof).length = 76 + 33 * sampleProof.ProofHashes.length ∧
    ((Serialize sampleProof).length : Int) = GetProofSize sampleProof :=
  C15_serialized_size sampleProof (by decide) (by decide)

end Blockchain

/-! ## Big-endian bytes of a natural number -/

namespace Big

theorem BytesAux_fuel :
    ∀ (f1 f2 n : Nat), n ≤ f1 → n ≤ f2 → BytesAux f1 n = BytesAux f2 n := by
  intro f1
  induction f1 with
  | zero =>
      intro f2 n h1 _
      have hn : n = 0 := by omega
      subst hn
      cases f2 with
      | zero => rfl
      | succ f2 => simp only [BytesAux, if_true]
  | succ f1 ih =>
      intro f2 n h1 h2
      by_cases hn : n = 0
      · subst hn
        cases f2 with
        | zero => simp only [BytesAux, if_true]
        | succ f2 => simp only [BytesAux, if_true]
      · obtain ⟨g, rfl⟩ : ∃ g, f2 = g + 1 := ⟨f2 - 1, by omega⟩
        simp only [BytesAux, if_neg hn]
        rw [ih g (n / 256) (by omega) (by omega)]

theorem BytesAux_zero : BytesAux 0 0 = [] := rfl

theorem BytesAux_pos (n : Nat) (hn : 0 < n) :
    BytesAux n n = BytesAux (n / 256) (n / 256) ++ [UInt8.ofNat (n % 256)] := by
  obtain ⟨g, hg⟩ : ∃ g, n = g + 1 := ⟨n - 1, by omega⟩
  have e : BytesAux n n = BytesAux (g + 1) n := by rw [hg]
  rw [e]
  simp only [BytesAux, if_neg (show ¬ n = 0 by omega)]
  rw [BytesAux_fuel g (n / 256) (n / 256) (by omega) (Nat.le_refl _)]

end Big

namespace Utils

theorem byteLenAux_fuel :
    ∀ (f1 f2 n : Nat), n ≤ f1 → n ≤ f2 → byteLenAux f1 n = byteLenAux f2 n := by
  intro f1
  induction f1 with
  | zero =>
      intro f2 n h1 _
      have hn : n = 0 := by omega
      subst hn
      cases f2 with
      | zero => rfl
      | succ f2 => simp only [byteLenAux, if_true]
  | succ f1 ih =>
      intro f2 n h1 h2
      by_cases hn : n = 0
      · subst hn
        cases f2 with
        | zero => simp only [byteLenAux, if_true]
        | succ f2 => simp only [byteLenAux, if_true]
      · obtain ⟨g, rfl⟩ : ∃ g, f2 = g + 1 := ⟨f2 - 1, by omega⟩
        simp only [byteLenAux, if_neg hn]
        rw [ih g (n / 256) (by omega) (by omega)]

theorem byteLen_zero : byteLen 0 = 0 := rfl

theorem byteLen_pos (n : Nat) (hn : 0 < n) : byteLen n = byteLen (n / 256) + 1 := by
  obtain ⟨g, hg⟩ : ∃ g, n = g + 1 := ⟨n - 1, by omega⟩
  have e : byteLen n = byteLenAux (g + 1) n := by rw [byteLen, hg]
  rw [e]
  simp only [byteLenAux, if_neg (show ¬ n = 0 by omega)]
  rw [byteLen, byteLenAux_fuel g (n / 256) (n / 256) (by omega) (Nat.le_refl _)]

theorem Bytes_length : ∀ n : Nat, (Big.BytesAux n n).length = byteLen n := by
  intro n
  induction n using Nat.strong_induction_on with
  | _ n ih =>
      by_cases hn : n = 0
      · subst hn; rfl
      · rw [Big.BytesAux_pos n (by omega), byteLen_pos n (by omega), List.length_append,
          ih (n / 256) (by omega), List.length_singleton]

/-- The byte length `L` of `n`: `n < 256 ^ L`, and `256 ^ (L - 1) ≤ n` when `n` is positive. -/
theorem byteLen_spec : ∀ n : Nat,
    n < 256 ^ byteLen n ∧ (0 < n → 256 ^ (byteLen n - 1) ≤ n) := by
  intro n
  induction n using Nat.strong_induction_on with
  | _ n ih =>
      by_cases hn : n = 0
      · subst hn
        exact ⟨by rw [byteLen_zero]; exact Nat.one_pos, fun h => absurd h (Nat.lt_irrefl 0)⟩
      · obtain ⟨h1, h2⟩ := ih (n / 256) (by omega)
        rw [byteLen_pos n (by omega)]
        constructor
        · rw [pow_succ]
          omega
        · intro _
          rw [Nat.add_sub_cancel]
          by_cases hq : n / 256 = 0
          · rw [hq, byteLen_zero, pow_zero]; omega
          · have h3 := h2 (by omega)
            have e : byteLen (n / 256) = (byteLen (n / 256) - 1) + 1 := by
              have := byteLen_pos (n / 256) (by omega)
              omega
            rw [e, pow_succ]
            omega

theorem byteLen_unique (n L : Nat) (h1 : 256 ^ (L - 1) ≤ n) (h2 : n < 256 ^ L) (hL : 0 < L) :
    byteLen n = L := by
  have hn : 0 < n := lt_of_lt_of_le (Nat.pow_pos (by omega)) h1
  obtain ⟨s1, s2⟩ := byteLen_spec n
  have s3 := s2 hn
  have a : byteLen n - 1 < L :=
    (Nat.pow_lt_pow_iff_right (show 1 < 256 by omega)).mp (lt_of_le_of_lt s3 h2)
  have b : L - 1 < byteLen n :=
    (Nat.pow_lt_pow_iff_right (show 1 < 256 by omega)).mp (lt_of_le_of_lt h1 s1)
  omega

theorem Bytes_getElem? : ∀ (n k : Nat), k < byteLen n →
    (Big.BytesAux n n)[k]? = some (UInt8.ofNat (n / 256 ^ (byteLen n - 1 - k))) := by
  intro n
  induction n using Nat.strong_induction_on with
  | _ n ih =>
      intro k hk
      by_cases hn : n = 0
      · subst hn
        rw [byteLen_zero] at hk
        omega
      · have hL := byteLen_pos n (by omega)
        rw [Big.BytesAux_pos n (by omega)]
        by_cases hk2 : k < byteLen (n / 256)
        · rw [List.getElem?_append_left (by rw [Bytes_length]; exact hk2),
            ih (n / 256) (by omega) k hk2, Nat.div_div_eq_div_mul, ← pow_succ']
          have e : byteLen (n / 256) - 1 - k + 1 = byteLen n - 1 - k := by omega
          rw [e]
        · have hk3 : k = byteLen (n / 256) := by omega
          rw [List.getElem?_append_right (by rw [Bytes_length]; omega), Bytes_length, hk3,
            Nat.sub_self, List.getElem?_cons_zero, hL]
          have e : byteLen (n / 256) + 1 - 1 - byteLen (n / 256) = 0 := by omega
          rw [e, pow_zero, Nat.div_one, ofNat8_mod]

theorem Bytes_getD_toNat (n k : Nat) (hk : k < byteLen n) :
    ((Big.BytesAux n n).getD k 0).toNat = n / 256 ^ (byteLen n - 1 - k) % 256 := by
  rw [List.getD_eq_getElem?_getD, Bytes_getElem? n k hk, Option.getD_some, toNat_ofNat8]

/-! ## The compact form computed by `TargetToBits` -/

theorem shl_mod (b k : Nat) (hb : b < 256) (hk : k ≤ 24) :
    (b <<< k) % 4294967296 = b <<< k := by
  apply Nat.mod_eq_of_lt
  rw [Nat.shiftLeft_eq]
  have h1 : 2 ^ k ≤ 2 ^ 24 := Nat.pow_le_pow_right (by omega) hk
  have h2 : b * 2 ^ k ≤ 255 * 2 ^ 24 := Nat.mul_le_mul (by omega) h1
  have h3 : 255 * 2 ^ 24 < 4294967296 := by norm_num
  omega

theorem small_mantissa (t : Nat) (ht : 0 < t) (hL : byteLen t ≤ 3) :
    (List.range (byteLen t)).foldl
      (fun mantissa i => mantissa |||
        ((((Big.BytesAux t t).getD (byteLen t - 1 - i) 0).toNat <<< (8 * i)) % 4294967296))
      0 = t := by
  have hpos : 0 < byteLen t := by rw [byteLen_pos t ht]; omega
  have hlt := (byteLen_spec t).1
  have hb := fun k (hk : k < byteLen t) => Bytes_getD_toNat t k hk
  have hm := fun k => shl_mod ((Big.BytesAux t t).getD k 0).toNat
  have hbl := fun k => toNat8_lt ((Big.BytesAux t t).getD k 0)
  generalize byteLen t = L at *
  have hcases : L = 1 ∨ L = 2 ∨ L = 3 := by omega
  rcases hcases with rfl | rfl | rfl
  · have b0 := hb 0 (by omega)
    simp only [Nat.sub_self, pow_zero, Nat.div_one] at b0
    have e : List.range 1 = [0] := rfl
    simp only [e, List.foldl, Nat.sub_self, Nat.mul_zero, Nat.shiftLeft_zero, Nat.zero_or, b0]
    omega
  · have b0 := hb 0 (by omega)
    have b1 := hb 1 (by omega)
    simp only [Nat.sub_self, pow_zero, Nat.div_one, Nat.reduceSub, pow_one] at b0 b1
    have e : List.range 2 = [0, 1] := rfl
    simp only [e, List.foldl, Nat.reduceSub, Nat.mul_zero, Nat.mul_one, Nat.shiftLeft_zero,
      Nat.zero_or]
    rw [hm 0 8 (hbl 0) (by omega), lor_shift8 _ _ (by omega), b0, b1]
    have h256 : (256 : Nat) ^ 2 = 65536 := by norm_num
    omega
  · have b0 := hb 0 (by omega)
    have b1 := hb 1 (by omega)
    have b2 := hb 2 (by omega)
    simp only [Nat.sub_self, pow_zero, Nat.div_one, Nat.reduceSub, pow_one] at b0 b1 b2
    have h2 : (256 : Nat) ^ 2 = 65536 := by norm_num
    rw [h2] at b0
    have e : List.range 3 = [0, 1, 2] := rfl
    simp only [e, List.foldl, Nat.reduceSub, Nat.mul_zero, Nat.mul_one, Nat.shiftLeft_zero,
      Nat.zero_or, Nat.reduceMul]
    rw [hm 1 8 (hbl 1) (by omega), hm 0 16 (hbl 0) (by omega), lor_shift8 _ _ (by omega),
      lor_shift16 _ _ (by omega), b0, b1, b2]
    have h3 : (256 : Nat) ^ 3 = 16777216 := by norm_num
    omega

theorem top_bytes (t L : Nat) (hL : 3 < L) (ht : t < 256 ^ L) :
    t / 256 ^ (L - 1 - 0) = t / 256 ^ (L - 3) / 65536 ∧
    t / 256 ^ (L - 1 - 1) = t / 256 ^ (L - 3) / 256 ∧
    t / 256 ^ (L - 1 - 2) = t / 256 ^ (L - 3) ∧
    t / 256 ^ (L - 3) < 16777216 := by
  have e0 : L - 1 - 0 = (L - 3) + 2 := by omega
  have e1 : L - 1 - 1 = (L - 3) + 1 := by omega
  have e2 : L - 1 - 2 = L - 3 := by omega
  have e3 : L = (L - 3) + 3 := by omega
  refine ⟨?_, ?_, ?_, ?_⟩
  · rw [e0, pow_add, Nat.div_div_eq_div_mul]; norm_num
  · rw [e1, pow_add, Nat.div_div_eq_div_mul]; norm_num
  · rw [e2]
  · rw [e3, pow_add] at ht
    have h3 : (256 : Nat) ^ 3 = 16777216 := by norm_num
    rw [h3] at ht
    exact Nat.div_lt_of_lt_mul ht

theorem three_bytes (q : Nat) (hq : q < 16777216) :
    q % 256 + 256 * (q / 256 % 256) + 65536 * (q / 65536 % 256) = q := by
  omega

theorem msb_byte (q : Nat) (hq : q < 16777216) : q / 65536 % 256 = q / 65536 := by
  omega

theorem large_mantissa (a b c : Nat) (_ha : a < 256) (hb : b < 256) (hc : c < 256) :
    (a <<< 16) ||| (b <<< 8) ||| c = c + 256 * b + 65536 * a := by
  rw [Nat.lor_comm, Nat.lor_comm (a <<< 16), ← Nat.lor_assoc, lor_shift8 _ _ hc,
    lor_shift16 _ _ (by omega)]

/-- Closed form of `TargetToBits` on targets of at most 254 bytes. -/
theorem TargetToBits_eq_spec (target : Int) (hL : byteLen target.toNat ≤ 254) :
    TargetToBits target = specTargetToBits target := by
  by_cases hneg : target ≤ 0
  · simp only [TargetToBits, specTargetToBits, hneg, if_true]
  · obtain ⟨t, rfl⟩ : ∃ t : Nat, target = (t : Int) :=
      Int.eq_ofNat_of_zero_le (by omega)
    have ht : 0 < t := by omega
    simp only [Int.toNat_ofNat] at hL
    have hpos : 0 < byteLen t := by rw [byteLen_pos t ht]; omega
    have hlen : (Big.BytesAux t t).length = byteLen t := Bytes_length t
    have hB : Big.Bytes (t : Int) = Big.BytesAux t t := by
      simp only [Big.Bytes, Int.natAbs_ofNat]
    have hne : ¬ byteLen t = 0 := by omega
    have hLm : byteLen t % 4294967296 = byteLen t := Nat.mod_eq_of_lt (by omega)
    have hLm1 : (byteLen t + 1) % 4294967296 = byteLen t + 1 := Nat.mod_eq_of_lt (by omega)
    by_cases h3 : byteLen t ≤ 3
    · simp only [TargetToBits, specTargetToBits, hneg, if_false, hlen, hne, h3, if_true,
        Int.toNat_ofNat, hB, small_mantissa t ht h3, hLm, shl_mod _ 24 (show byteLen t < 256 by omega)
          (Nat.le_refl _)]
    · obtain ⟨t0, t1, t2, tq⟩ := top_bytes t (byteLen t) (by omega) (byteLen_spec t).1
      have b0 := Bytes_getD_toNat t 0 (by omega)
      have b1 := Bytes_getD_toNat t 1 (by omega)
      have b2 := Bytes_getD_toNat t 2 (by omega)
      rw [t0] at b0
      rw [t1] at b1
      rw [t2] at b2
      have hmant : (((Big.BytesAux t t).getD 0 0).toNat <<< 16) |||
          (((Big.BytesAux t t).getD 1 0).toNat <<< 8) ||| ((Big.BytesAux t t).getD 2 0).toNat =
          t / 256 ^ (byteLen t - 3) := by
        rw [large_mantissa _ _ _ (toNat8_lt _) (toNat8_lt _) (toNat8_lt _), b0, b1, b2]
        exact three_bytes _ tq
      have hmsb : ((Big.BytesAux t t).getD 0 0).toNat = t / 256 ^ (byteLen t - 1) := by
        rw [b0, msb_byte _ tq]
        have := t0
        simp only [Nat.sub_zero] at this
        rw [this]
      by_cases h80 : t / 256 ^ (byteLen t - 1) < 0x80
      · have h80' : ¬ (((Big.BytesAux t t).getD 0 0).toNat ≥ 0x80) := by rw [hmsb]; omega
        simp only [TargetToBits, specTargetToBits, hneg, if_false, hlen, hne, h3,
          Int.toNat_ofNat, hB, hmant, h80, h80', if_true, hLm,
          shl_mod _ 24 (show byteLen t < 256 by omega) (Nat.le_refl _)]
      · have h80' : ((Big.BytesAux t t).getD 0 0).toNat ≥ 0x80 := by rw [hmsb]; omega
        simp only [TargetToBits, specTargetToBits, hneg, if_false, hlen, hne, h3,
          Int.toNat_ofNat, hB, hmant, h80, h80', if_true, hLm, hLm1,
          shl_mod _ 24 (show byteLen t + 1 < 256 by omega) (Nat.le_refl _)]

/-! ## Compact difficulty targets: the claims -/

theorem GetMaxTarget_eq : GetMaxTarget = 0xffff * 2 ^ 208 := rfl

theorem mantissa_lt (bits : Nat) : bits &&& 0x00ffffff < 16777216 :=
  Nat.lt_succ_of_le Nat.and_le_right

theorem BitsToTarget_small (bits : Nat) (he : bits >>> 24 ≤ 3) :
    BitsToTarget bits = (((bits &&& 0x00ffffff) / 2 ^ (8 * (3 - (bits >>> 24))) : Nat) : Int) := by
  simp only [BitsToTarget, he, if_true]
  rw [Nat.shiftRight_eq_div_pow (bits &&& 0x00ffffff)]

theorem BitsToTarget_large (bits : Nat) (he : 3 < bits >>> 24) :
    BitsToTarget bits =
      min (((bits &&& 0x00ffffff : Nat) : Int) * (2 : Int) ^ (8 * ((bits >>> 24) - 3))) (0xffff * 2 ^ 208) := by
  have he' : ¬ bits >>> 24 ≤ 3 := by omega
  simp only [BitsToTarget, he', if_false, Big.Lsh, GetMaxTarget]
  by_cases hc : ((bits &&& 0x00ffffff : Nat) : Int) * (2 : Int) ^ (8 * ((bits >>> 24) - 3)) >
      0xffff * 2 ^ 208
  · rw [if_pos hc, min_eq_right (le_of_lt hc)]
  · rw [if_neg hc, min_eq_left (not_lt.mp hc)]

/-- C16: with `e = bits >> 24` and `m = bits & 0x00ffffff`, `BitsToTarget` is
`m` shifted right by `8 * (3 - e)` bits when `e ≤ 3` and otherwise the smaller
of `m * 2 ^ (8 * (e - 3))` and the maximum target `0xffff * 2 ^ 208`; the
result is never negative and never above the maximum target. -/
theorem C16_bits_to_target (bits : Nat) :
    GetMaxTarget = 0xffff * 2 ^ 208 ∧
    (bits >>> 24 ≤ 3 → BitsToTarget bits =
      (((bits &&& 0x00ffffff) / 2 ^ (8 * (3 - (bits >>> 24))) : Nat) : Int)) ∧
    (3 < bits >>> 24 → BitsToTarget bits =
      min (((bits &&& 0x00ffffff : Nat) : Int) * (2 : Int) ^ (8 * ((bits >>> 24) - 3)))
        (0xffff * 2 ^ 208)) ∧
    0 ≤ BitsToTarget bits ∧ BitsToTarget bits ≤ GetMaxTarget := by
  refine ⟨rfl, BitsToTarget_small bits, BitsToTarget_large bits, ?_, ?_⟩
  · by_cases he : bits >>> 24 ≤ 3
    · rw [BitsToTarget_small bits he]
      exact Int.ofNat_nonneg _
    · rw [BitsToTarget_large bits (by omega)]
      exact le_min (mul_nonneg (Int.ofNat_nonneg _) (pow_nonneg (by norm_num) _))
        (by norm_num)
  · by_cases he : bits >>> 24 ≤ 3
    · rw [BitsToTarget_small bits he, GetMaxTarget_eq]
      have h1 : (bits &&& 0x00ffffff) / 2 ^ (8 * (3 - (bits >>> 24))) ≤ bits &&& 0x00ffffff :=
        Nat.div_le_self _ _
      have h2 := mantissa_lt bits
      have h3 : (((bits &&& 0x00ffffff) / 2 ^ (8 * (3 - (bits >>> 24))) : Nat) : Int) <
          16777216 := by
        exact_mod_cast lt_of_le_of_lt h1 h2
      have h4 : (16777216 : Int) ≤ 0xffff * 2 ^ 208 := by norm_num
      omega
    · rw [BitsToTarget_large bits (by omega), GetMaxTarget_eq]
      exact min_le_right _ _

theorem C16_witness :
    BitsToTarget 0x03123456 = 0x123456 ∧ BitsToTarget 0x02123456 = 0x1234 ∧
    BitsToTarget 0x04123456 = 0x12345600 ∧ BitsToTarget 0xff123456 = 0xffff * 2 ^ 208 ∧
    0 ≤ BitsToTarget 0xff123456 ∧ BitsToTarget 0xff123456 ≤ GetMaxTarget :=
  ⟨by decide!, by decide!, by decide!, by decide!,
    (C16_bits_to_target 0xff123456).2.2.2.1, (C16_bits_to_target 0xff123456).2.2.2.2⟩

/-- C17: for every integer target whose minimal big-endian byte length `L` is
at most 254, `TargetToBits` is 0 for `target ≤ 0`, `(L << 24) | target` for
`1 ≤ L ≤ 3`, and for `L > 3`, with `top3` the three most significant bytes,
`(L << 24) | top3` when the most significant byte is below `0x80` and
`((L + 1) << 24) | (top3 >> 8)` otherwise; `L` is the number of bytes of
`target.Bytes()`. -/
theorem C17_target_to_bits (target : Int) (hL : byteLen target.toNat ≤ 254) :
    TargetToBits target = specTargetToBits target ∧
    target.toNat < 256 ^ byteLen target.toNat ∧
    (0 < target → 256 ^ (byteLen target.toNat - 1) ≤ target.toNat ∧
      (Big.Bytes target).length = byteLen target.toNat) := by
  refine ⟨TargetToBits_eq_spec target hL, (byteLen_spec _).1, ?_⟩
  intro hpos
  refine ⟨(byteLen_spec _).2 (by omega), ?_⟩
  obtain ⟨t, rfl⟩ : ∃ t : Nat, target = (t : Int) := Int.eq_ofNat_of_zero_le (by omega)
  simp only [Big.Bytes, Int.natAbs_ofNat, Int.toNat_ofNat]
  exact Bytes_length t

theorem C17_witness :
    TargetToBits 0x80000000 = specTargetToBits 0x80000000 ∧
    (0x80000000 : Int).toNat < 256 ^ byteLen (0x80000000 : Int).toNat ∧
    (0 < (0x80000000 : Int) →
      256 ^ (byteLen (0x80000000 : Int).toNat - 1) ≤ (0x80000000 : Int).toNat ∧
      (Big.Bytes 0x80000000).length = byteLen (0x80000000 : Int).toNat) :=
  C17_target_to_bits 0x80000000 (by decide!)

/-- C18: `BitsToTarget(0x1d00ffff)` is the maximum target `0xffff * 2 ^ 208`,
whose first byte is `0xff`, and `TargetToBits` maps it back to `0x1d00ffff`. -/
theorem C18_max_target_roundtrip :
    BitsToTarget 0x1d00ffff = 0xffff * 2 ^ 208 ∧ BitsToTarget 0x1d00ffff = GetMaxTarget ∧
    (Big.Bytes (BitsToTarget 0x1d00ffff)).getD 0 0 = 0xff ∧
    TargetToBits (BitsToTarget 0x1d00ffff) = 0x1d00ffff := by
  decide!

theorem C19_counterexample :
    0x800000 ≤ 0x04800000 &&& 0x00ffffff ∧ 4 ≤ 0x04800000 >>> 24 ∧
    (((0x04800000 &&& 0x00ffffff : Nat) : Int) * (2 : Int) ^ (8 * ((0x04800000 >>> 24) - 3)) ≤
      GetMaxTarget) ∧
    BitsToTarget 0x04800000 ≤ GetMaxTarget ∧
    TargetToBits (BitsToTarget 0x04800000) = 0x05008000 ∧
    TargetToBits (BitsToTarget 0x04800000) ≠ 0x04800000 := by
  decide!

theorem pow_two_eight (k : Nat) : (2 : Nat) ^ (8 * k) = 256 ^ k := by
  rw [pow_mul]; norm_num

/-- Closed form of the round trip on a compact value whose mantissa has its
top bit set: the mantissa loses its low byte and the exponent grows by one. -/
theorem roundtrip_high_mantissa (bits : Nat) (hm : 0x800000 ≤ bits &&& 0x00ffffff)
    (he : 4 ≤ bits >>> 24)
    (ht : ((bits &&& 0x00ffffff : Nat) : Int) * (2 : Int) ^ (8 * ((bits >>> 24) - 3)) ≤ GetMaxTarget) :
    TargetToBits (BitsToTarget bits) =
      (((bits >>> 24) + 1) <<< 24) ||| ((bits &&& 0x00ffffff) >>> 8) := by
  have hmlt := mantissa_lt bits
  generalize hmm : bits &&& 0x00ffffff = m at *
  generalize hee : bits >>> 24 = e at *
  have hcast : ((m : Int) * (2 : Int) ^ (8 * (e - 3))) = ((m * 256 ^ (e - 3) : Nat) : Int) := by
    rw [← pow_two_eight]; push_cast; rfl
  rw [hcast] at ht
  have hB : BitsToTarget bits = ((m * 256 ^ (e - 3) : Nat) : Int) := by
    have he' : ¬ e ≤ 3 := by omega
    have hgt : ¬ ((m * 256 ^ (e - 3) : Nat) : Int) > GetMaxTarget := not_lt.mpr ht
    simp only [BitsToTarget, hmm, hee, he', if_false, Big.Lsh, hcast, hgt]
  have hp : 0 < 256 ^ (e - 3) := Nat.pow_pos (by omega)
  have e1 : 256 ^ (e - 1) = 65536 * 256 ^ (e - 3) := by
    have : e - 1 = 2 + (e - 3) := by omega
    rw [this, pow_add]; norm_num
  have e2 : 256 ^ e = 16777216 * 256 ^ (e - 3) := by
    have : e = 3 + (e - 3) := by omega
    nth_rewrite 1 [this]
    rw [pow_add]; norm_num
  have hlo : 256 ^ (e - 1) ≤ m * 256 ^ (e - 3) := by
    rw [e1]; exact Nat.mul_le_mul_right _ (by omega)
  have hhi : m * 256 ^ (e - 3) < 256 ^ e := by
    rw [e2]; exact Nat.mul_lt_mul_of_pos_right hmlt hp
  have hlen : byteLen (m * 256 ^ (e - 3)) = e := byteLen_unique _ e hlo hhi (by omega)
  have hmax : m * 256 ^ (e - 3) < 256 ^ 28 := by
    rw [GetMaxTarget_eq] at ht
    have h1 : ((m * 256 ^ (e - 3) : Nat) : Int) < ((256 ^ 28 : Nat) : Int) := by
      have : (0xffff * 2 ^ 208 : Int) < ((256 ^ 28 : Nat) : Int) := by norm_num
      omega
    exact_mod_cast h1
  have he28 : e - 1 < 28 :=
    (Nat.pow_lt_pow_iff_right (show 1 < 256 by omega)).mp (lt_of_le_of_lt hlo hmax)
  have hspec := TargetToBits_eq_spec ((m * 256 ^ (e - 3) : Nat) : Int)
    (by rw [Int.toNat_ofNat, hlen]; omega)
  have hpos : ¬ ((m * 256 ^ (e - 3) : Nat) : Int) ≤ 0 := by
    have : 0 < m * 256 ^ (e - 3) := Nat.mul_pos (by omega) hp
    omega
  have htop : m * 256 ^ (e - 3) / 256 ^ (e - 3) = m := Nat.mul_div_cancel _ hp
  have hmsb : m * 256 ^ (e - 3) / 256 ^ (e - 1) = m / 65536 := by
    rw [e1, Nat.mul_comm 65536, ← Nat.div_div_eq_div_mul, htop]
  have h80 : ¬ m / 65536 < 0x80 := by omega
  have h3 : ¬ e ≤ 3 := by omega
  rw [hB, hspec]
  simp only [specTargetToBits, hpos, if_false, Int.toNat_ofNat, hlen, h3, htop, hmsb, h80]

/-- C19: for every compact value whose mantissa is at least `0x800000`, whose
exponent is at least 4 and whose decoded target does not exceed the maximum
target, `TargetToBits(BitsToTarget(bits))` is the renormalised value
`((exponent + 1) << 24) | (mantissa >> 8)`, which is not `bits`. -/
theorem C19_high_mantissa_renormalised (bits : Nat) (hm : 0x800000 ≤ bits &&& 0x00ffffff)
    (he : 4 ≤ bits >>> 24)
    (ht : ((bits &&& 0x00ffffff : Nat) : Int) * (2 : Int) ^ (8 * ((bits >>> 24) - 3)) ≤ GetMaxTarget) :
    TargetToBits (BitsToTarget bits) =
      (((bits >>> 24) + 1) <<< 24) ||| ((bits &&& 0x00ffffff) >>> 8) ∧
    TargetToBits (BitsToTarget bits) ≠ bits := by
  have h := roundtrip_high_mantissa bits hm he ht
  refine ⟨h, ?_⟩
  intro hbad
  rw [hbad] at h
  have hmlt := mantissa_lt bits
  have h8 : (bits &&& 0x00ffffff) >>> 8 < 16777216 := by
    rw [Nat.shiftRight_eq_div_pow]
    exact lt_of_le_of_lt (Nat.div_le_self _ _) hmlt
  rw [Nat.lor_comm, lor_shift24 _ _ h8] at h
  have h2 := congrArg (fun x => x >>> 24) h
  simp only [Nat.shiftRight_eq_div_pow] at h2
  omega

theorem C19_witness :
    TargetToBits (BitsToTarget 0x04800000) =
      (((0x04800000 >>> 24) + 1) <<< 24) ||| ((0x04800000 &&& 0x00ffffff) >>> 8) ∧
    TargetToBits (BitsToTarget 0x04800000) ≠ 0x04800000 :=
  C19_high_mantissa_renormalised 0x04800000 (by decide) (by decide) (by decide!)

/-- C20: `ValidateDifficultyBits` returns an error for `bits = 0`, for every
`bits` whose exponent `bits >> 24` is 0 and for every `bits` whose mantissa
`bits & 0x00ffffff` is 0; it returns nil for `0x1d00ffff`. -/
theorem C20_validate_difficulty_bits :
    ValidateDifficultyBits 0 = some DifficultyError.zeroBits ∧
    (∀ bits : Nat, bits >>> 24 = 0 → (ValidateDifficultyBits bits).isSome = true) ∧
    (∀ bits : Nat, bits &&& 0x00ffffff = 0 → (ValidateDifficultyBits bits).isSome = true) ∧
    ValidateDifficultyBits 0x1d00ffff = none := by
  refine ⟨by decide!, ?_, ?_, by decide!⟩
  · intro bits he
    by_cases h0 : bits = 0
    · simp only [ValidateDifficultyBits, h0, if_true, Option.isSome_some]
    · simp only [ValidateDifficultyBits, h0, if_false, he, true_or, if_true, Option.isSome_some]
  · intro bits hm
    by_cases h0 : bits = 0
    · simp only [ValidateDifficultyBits, h0, if_true, Option.isSome_some]
    · by_cases he : bits >>> 24 = 0 ∨ bits >>> 24 > 32
      · simp only [ValidateDifficultyBits, h0, if_false, he, if_true, Option.isSome_some]
      · simp only [ValidateDifficultyBits, h0, if_false, he, hm, if_true, Option.isSome_some]

end Utils

/-! ## Difficulty validation and adjustment: the claims -/

namespace Utils

/-- Exponent and mantissa of a compact value put together from both. -/
theorem compact_parts (e m : Nat) (hm : m < 16777216) :
    ((e <<< 24) ||| m) >>> 24 = e ∧ ((e <<< 24) ||| m) &&& 0x00ffffff = m := by
  rw [Nat.lor_comm, lor_shift24 m e hm]
  constructor
  · rw [Nat.shiftRight_eq_div_pow]
    have : (2 : Nat) ^ 24 = 16777216 := by norm_num
    rw [this]
    omega
  · have h := Nat.and_pow_two_sub_one_eq_mod (m + 16777216 * e) 24
    have e1 : (2 : Nat) ^ 24 - 1 = 0x00ffffff := by norm_num
    have e2 : (2 : Nat) ^ 24 = 16777216 := by norm_num
    rw [e1, e2] at h
    rw [h]
    omega

/-- Decoding a compact value gives at most the mantissa moved by the exponent. -/
theorem BitsToTarget_compact_le (e m t : Nat) (hm : m < 16777216)
    (h1 : e ≤ 3 → m / 2 ^ (8 * (3 - e)) ≤ t) (h2 : 3 < e → m * 256 ^ (e - 3) ≤ t) :
    BitsToTarget ((e <<< 24) ||| m) ≤ (t : Int) := by
  obtain ⟨he, hmm⟩ := compact_parts e m hm
  by_cases hc : e ≤ 3
  · rw [BitsToTarget_small _ (by rw [he]; exact hc), he, hmm]
    exact_mod_cast h1 hc
  · rw [BitsToTarget_large _ (by rw [he]; omega), he, hmm]
    refine le_trans (min_le_left _ _) ?_
    have h := h2 (by omega)
    have hcast : ((m : Int) * (2 : Int) ^ (8 * (e - 3))) = ((m * 256 ^ (e - 3) : Nat) : Int) := by
      rw [← pow_two_eight]; push_cast; rfl
    rw [hcast]
    exact_mod_cast h

/-- The compact encoding only truncates: decoding what `TargetToBits` returns
never gives more than the target. -/
theorem BitsToTarget_TargetToBits_le (target : Int) (h0 : 0 ≤ target)
    (hL : byteLen target.toNat ≤ 254) : BitsToTarget (TargetToBits target) ≤ target := by
  obtain ⟨t, rfl⟩ : ∃ t : Nat, target = (t : Int) := Int.eq_ofNat_of_zero_le h0
  rw [TargetToBits_eq_spec _ hL]
  rw [Int.toNat_ofNat] at hL
  by_cases hz : t = 0
  · subst hz
    decide
  have hpos : ¬ ((t : Int) ≤ 0) := by omega
  obtain ⟨hlt, hge⟩ := byteLen_spec t
  have hge := hge (by omega)
  simp only [specTargetToBits, hpos, if_false, Int.toNat_ofNat]
  generalize byteLen t = L at *
  by_cases h3 : L ≤ 3
  · rw [if_pos h3]
    have ht : t < 16777216 := by
      have : 256 ^ L ≤ 256 ^ 3 := Nat.pow_le_pow_right (by omega) h3
      omega
    refine BitsToTarget_compact_le L t t ht (fun _ => Nat.div_le_self _ _) (fun h => by omega)
  · rw [if_neg h3]
    have hp : 0 < 256 ^ (L - 3) := Nat.pow_pos (by omega)
    have e2 : 256 ^ L = 16777216 * 256 ^ (L - 3) := by
      have : L = 3 + (L - 3) := by omega
      nth_rewrite 1 [this]
      rw [pow_add]; norm_num
    have htop : t / 256 ^ (L - 3) < 16777216 := by
      rw [Nat.div_lt_iff_lt_mul hp, ← e2]; exact hlt
    have hmul : t / 256 ^ (L - 3) * 256 ^ (L - 3) ≤ t := Nat.div_mul_le_self _ _
    by_cases hm : t / 256 ^ (L - 1) < 0x80
    · rw [if_pos hm]
      exact BitsToTarget_compact_le L _ t htop (fun h => by omega) (fun _ => hmul)
    · rw [if_neg hm]
      have h8 : (t / 256 ^ (L - 3)) >>> 8 = t / 256 ^ (L - 3) / 256 := by
        rw [Nat.shiftRight_eq_div_pow]
      rw [h8]
      refine BitsToTarget_compact_le (L + 1) _ t (by omega) (fun h => by omega) (fun _ => ?_)
      have e3 : 256 ^ (L + 1 - 3) = 256 * 256 ^ (L - 3) := by
        have : L + 1 - 3 = 1 + (L - 3) := by omega
        rw [this, pow_add]; norm_num
      rw [e3, ← Nat.mul_assoc]
      exact le_trans (Nat.mul_le_mul_right _ (Nat.div_mul_le_self _ _)) hmul

/-- The three clamps of `AdjustDifficulty` as a minimum and a maximum. -/
theorem clamp_eq (x lo hi mx : Int) :
    (if (if (if x < lo then lo else x) > hi then hi else (if x < lo then lo else x)) > mx then mx
      else (if (if x < lo then lo else x) > hi then hi else (if x < lo then lo else x))) =
      min (min (max x lo) hi) mx := by
  simp only [gt_iff_lt, min_def, max_def]
  split_ifs <;> omega

/-- The target that `AdjustDifficulty` encodes: the scaled target clamped to a
quarter and four times the current one, then to the maximum target. -/
theorem AdjustDifficulty_eq (actualTime targetTime : Int) (currentBits : Nat)
    (ha : 0 < actualTime) (hb : 0 < targetTime) :
    AdjustDifficulty actualTime targetTime currentBits =
      TargetToBits (min (min (max (BitsToTarget currentBits * actualTime / targetTime)
        (BitsToTarget currentBits / 4)) (BitsToTarget currentBits * 4)) GetMaxTarget) := by
  have hc : ¬ (actualTime ≤ 0 ∨ targetTime ≤ 0) := by omega
  unfold AdjustDifficulty
  rw [if_neg hc]
  exact congrArg TargetToBits (clamp_eq _ _ _ _)

theorem BitsToTarget_nonneg (bits : Nat) : 0 ≤ BitsToTarget bits := by
  by_cases he : bits >>> 24 ≤ 3
  · rw [BitsToTarget_small bits he]
    exact Int.ofNat_nonneg _
  · rw [BitsToTarget_large bits (by omega)]
    exact le_min (mul_nonneg (Int.ofNat_nonneg _) (pow_nonneg (by norm_num) _)) (by norm_num)

/-- A target up to the maximum target has at most 28 bytes. -/
theorem byteLen_le_of_le_max (t : Int) (h : t ≤ GetMaxTarget) : byteLen t.toNat ≤ 254 := by
  by_contra hc
  have hpos : 0 < t.toNat := by
    by_contra h0
    have : t.toNat = 0 := by omega
    rw [this, byteLen_zero] at hc
    omega
  have h1 := (byteLen_spec t.toNat).2 hpos
  have h2 : 256 ^ 28 ≤ 256 ^ (byteLen t.toNat - 1) := Nat.pow_le_pow_right (by omega) (by omega)
  have h3 : (t.toNat : Int) = t := Int.toNat_of_nonneg (by omega)
  have h4 : ((256 ^ 28 : Nat) : Int) ≤ (t.toNat : Int) := by exact_mod_cast le_trans h2 h1
  rw [GetMaxTarget_eq] at h
  have h5 : (0xffff * 2 ^ 208 : Int) < ((256 ^ 28 : Nat) : Int) := by norm_num
  omega

/-- C21: at `bits = 0x1d010000` and at `bits = 0x1e00ffff` the value
`mantissa * 2 ^ (8 * (exponent - 3))` exceeds the maximum target and
`ValidateDifficultyBits` returns nil: the target it compares with the maximum
is the one `BitsToTarget` has already clamped. -/
theorem C21_failing_input :
    (((0x1d010000 &&& 0x00ffffff : Nat) : Int) * (2 : Int) ^ (8 * ((0x1d010000 >>> 24) - 3)) >
      0xffff * 2 ^ 208) ∧
    BitsToTarget 0x1d010000 = GetMaxTarget ∧
    ValidateDifficultyBits 0x1d010000 = none ∧
    (((0x1e00ffff &&& 0x00ffffff : Nat) : Int) * (2 : Int) ^ (8 * ((0x1e00ffff >>> 24) - 3)) >
      0xffff * 2 ^ 208) ∧
    ValidateDifficultyBits 0x1e00ffff = none := by
  decide!

/-- C22: `AdjustDifficulty` returns `currentBits` unchanged when the actual
time or the target time is zero or negative. -/
theorem C22_nonpositive_time (actualTime targetTime : Int) (currentBits : Nat)
    (h : actualTime ≤ 0 ∨ targetTime ≤ 0) :
    AdjustDifficulty actualTime targetTime currentBits = currentBits := by
  simp only [AdjustDifficulty, h, if_true]

theorem C22_witness :
    AdjustDifficulty 0 600 0x1d00ffff = 0x1d00ffff ∧
    AdjustDifficulty 600 (-1) 0x1d00ffff = 0x1d00ffff :=
  ⟨C22_nonpositive_time 0 600 0x1d00ffff (Or.inl (by decide)),
    C22_nonpositive_time 600 (-1) 0x1d00ffff (Or.inr (by decide))⟩

/-- C23: for positive times the target decoded from the result of
`AdjustDifficulty` is at most four times the target decoded from `currentBits`
and at most the maximum target. -/
theorem C23_adjusted_target_upper (actualTime targetTime : Int) (currentBits : Nat)
    (ha : 0 < actualTime) (hb : 0 < targetTime) :
    BitsToTarget (AdjustDifficulty actualTime targetTime currentBits) ≤
      4 * BitsToTarget currentBits ∧
    BitsToTarget (AdjustDifficulty actualTime targetTime currentBits) ≤ GetMaxTarget := by
  rw [AdjustDifficulty_eq _ _ _ ha hb]
  have hcur := BitsToTarget_nonneg currentBits
  generalize hT : min (min (max (BitsToTarget currentBits * actualTime / targetTime)
    (BitsToTarget currentBits / 4)) (BitsToTarget currentBits * 4)) GetMaxTarget = T
  have hmax : T ≤ GetMaxTarget := by rw [← hT]; exact min_le_right _ _
  have h4 : T ≤ 4 * BitsToTarget currentBits := by
    rw [← hT, Int.mul_comm 4]
    exact le_trans (min_le_left _ _) (min_le_right _ _)
  have h0 : 0 ≤ T := by
    rw [← hT]
    refine le_min (le_min (le_trans ?_ (le_max_right _ _)) (by omega)) (by rw [GetMaxTarget_eq]; norm_num)
    exact Int.ediv_nonneg hcur (by norm_num)
  have hle := BitsToTarget_TargetToBits_le T h0 (byteLen_le_of_le_max T hmax)
  exact ⟨le_trans hle h4, le_trans hle hmax⟩

theorem C23_witness :
    BitsToTarget (AdjustDifficulty 1200 600 0x1c00ffff) ≤ 4 * BitsToTarget 0x1c00ffff ∧
    BitsToTarget (AdjustDifficulty 1200 600 0x1c00ffff) ≤ GetMaxTarget :=
  C23_adjusted_target_upper 1200 600 0x1c00ffff (by decide) (by decide)

theorem C24_counterexample :
    (0 : Int) < 1 ∧ (0 : Int) < 1000 ∧
    AdjustDifficulty 1 1000 0x047fffff = 0x041fffff ∧
    BitsToTarget (AdjustDifficulty 1 1000 0x047fffff) = 0x1fffff00 ∧
    BitsToTarget 0x047fffff / 4 = 0x1fffffc0 ∧
    BitsToTarget (AdjustDifficulty 1 1000 0x047fffff) < BitsToTarget 0x047fffff / 4 := by
  decide!

/-- C24: for positive times `AdjustDifficulty` returns the compact form of a
target that is never below the floor of a quarter of the target decoded from
`currentBits`: the scaled target clamped to a quarter and four times the current
target and to the maximum target.  The target decoded from the result is at
most that target. -/
theorem C24_adjusted_target_lower (actualTime targetTime : Int) (currentBits : Nat)
    (ha : 0 < actualTime) (hb : 0 < targetTime) :
    ∃ t : Int, AdjustDifficulty actualTime targetTime currentBits = TargetToBits t ∧
      t = min (min (max (BitsToTarget currentBits * actualTime / targetTime)
        (BitsToTarget currentBits / 4)) (BitsToTarget currentBits * 4)) GetMaxTarget ∧
      BitsToTarget currentBits / 4 ≤ t ∧
      BitsToTarget (AdjustDifficulty actualTime targetTime currentBits) ≤ t := by
  refine ⟨_, AdjustDifficulty_eq _ _ _ ha hb, rfl, ?_, ?_⟩
  · have hcur := BitsToTarget_nonneg currentBits
    have hmx : BitsToTarget currentBits ≤ GetMaxTarget := by
      by_cases he : currentBits >>> 24 ≤ 3
      · rw [BitsToTarget_small currentBits he, GetMaxTarget_eq]
        have h2 := mantissa_lt currentBits
        have h3 : (((currentBits &&& 0x00ffffff) / 2 ^ (8 * (3 - (currentBits >>> 24))) : Nat) : Int)
            < 16777216 := by
          exact_mod_cast lt_of_le_of_lt (Nat.div_le_self _ _) h2
        have h4 : (16777216 : Int) ≤ 0xffff * 2 ^ 208 := by norm_num
        omega
      · rw [BitsToTarget_large currentBits (by omega), GetMaxTarget_eq]
        exact min_le_right _ _
    refine le_min (le_min (le_max_right _ _) (by omega)) (by omega)
  · rw [AdjustDifficulty_eq _ _ _ ha hb]
    have hcur := BitsToTarget_nonneg currentBits
    generalize hT : min (min (max (BitsToTarget currentBits * actualTime / targetTime)
      (BitsToTarget currentBits / 4)) (BitsToTarget currentBits * 4)) GetMaxTarget = T
    have hmax : T ≤ GetMaxTarget := by rw [← hT]; exact min_le_right _ _
    have h0 : 0 ≤ T := by
      rw [← hT]
      refine le_min (le_min (le_trans ?_ (le_max_right _ _)) (by omega))
        (by rw [GetMaxTarget_eq]; norm_num)
      exact Int.ediv_nonneg hcur (by norm_num)
    exact BitsToTarget_TargetToBits_le T h0 (byteLen_le_of_le_max T hmax)

theorem C24_witness :
    ∃ t : Int, AdjustDifficulty 1 1000 0x047fffff = TargetToBits t ∧
      t = min (min (max (BitsToTarget 0x047fffff * 1 / 1000)
        (BitsToTarget 0x047fffff / 4)) (BitsToTarget 0x047fffff * 4)) GetMaxTarget ∧
      BitsToTarget 0x047fffff / 4 ≤ t ∧
      BitsToTarget (AdjustDifficulty 1 1000 0x047fffff) ≤ t :=
  C24_adjusted_target_lower 1 1000 0x047fffff (by decide) (by decide)

end Utils

/-! ## Reversed bytes and the integer of a hash -/

/-- Writing `f i` at every position `i < k` of a list. -/
theorem foldl_set_range (f : Nat → UInt8) (init : List UInt8) :
    ∀ k, k ≤ init.length →
      (List.range k).foldl (fun r i => r.set i (f i)) init =
        (List.range k).map f ++ init.drop k := by
  intro k
  induction k with
  | zero => intro _; rfl
  | succ k ih =>
      intro hk
      rw [List.range_succ, List.foldl_append, ih (by omega), List.foldl_cons, List.foldl_nil,
        List.map_append, List.map_singleton, List.append_assoc, List.singleton_append]
      have hlen : ((List.range k).map f).length = k := by
        rw [List.length_map, List.length_range]
      have hd : init.drop k = init[k] :: init.drop (k + 1) := (List.drop_eq_getElem_cons hk)
      rw [hd, List.set_append_right _ _ (by rw [hlen]), hlen, Nat.sub_self, List.set_cons_zero]

/-- Reading a list from its last position down gives the reversed list. -/
theorem map_range_getD_reverse (hash : List UInt8) (n : Nat) (h : hash.length = n + 1) :
    (List.range (n + 1)).map (fun i => hash.getD (n - i) 0) = hash.reverse := by
  apply List.ext_getElem
  · rw [List.length_map, List.length_range, List.length_reverse, h]
  · intro i hi1 hi2
    rw [List.length_map, List.length_range] at hi1
    rw [List.getElem_map, List.getElem_range, List.getElem_reverse, List.getD_eq_getElem?_getD,
      List.getElem?_eq_getElem (by omega), Option.getD_some]
    congr 1
    omega

/-- The loop that fills a fresh slice from the last byte down, for any length. -/
theorem foldl_set_reverse (hash : List UInt8) (n : Nat) (h : hash.length = n + 1) :
    (List.range (n + 1)).foldl (fun reversed i => reversed.set i (hash.getD (n - i) 0))
      (List.replicate (n + 1) 0) = hash.reverse := by
  rw [foldl_set_range _ _ (n + 1) (by rw [List.length_replicate]),
    map_range_getD_reverse hash n h]
  have h2 : (List.replicate (n + 1) (0 : UInt8)).drop (n + 1) = [] := by
    rw [List.drop_eq_nil_iff, List.length_replicate]
  rw [h2, List.append_nil]

theorem reverseLoop_eq (hash : List UInt8) (h : hash.length = 32) :
    reverseLoop hash = hash.reverse :=
  foldl_set_reverse hash 31 h

namespace Big

theorem SetBytes_reverse (l : List UInt8) :
    SetBytes l.reverse = (Utils.littleEndianValue l : Int) := by
  rw [SetBytes, List.foldl_reverse]
  congr 1
  induction l with
  | nil => rfl
  | cons b rest ih =>
      rw [List.foldr_cons, ih, Utils.littleEndianValue]
      omega

end Big

namespace Utils

theorem littleEndianValue_replicate_zero (n : Nat) :
    littleEndianValue (List.replicate n 0) = 0 := by
  induction n with
  | zero => rfl
  | succ n ih =>
      rw [List.replicate_succ, littleEndianValue, ih]
      rfl

/-- C25: `IsValidTarget` is false on a hash that does not have 32 bytes; on a
hash of 32 bytes it is true exactly when the integer read from the hash with its
first byte least significant and its last byte most significant is at most the
target; the hash of 32 zero bytes satisfies every target that is not negative. -/
theorem C25_is_valid_target (hash : List UInt8) (target : Int) :
    (hash.length ≠ 32 → IsValidTarget hash target = false) ∧
    (hash.length = 32 →
      (IsValidTarget hash target = true ↔ (littleEndianValue hash : Int) ≤ target)) ∧
    (0 ≤ target → IsValidTarget (List.replicate 32 0) target = true) := by
  have key : ∀ h : List UInt8, h.length = 32 →
      (IsValidTarget h target = true ↔ (littleEndianValue h : Int) ≤ target) := by
    intro h hl
    have hne : ¬ h.length ≠ 32 := by omega
    simp only [IsValidTarget, hne, if_false, reverseLoop_eq h hl, Big.SetBytes_reverse,
      decide_eq_true_eq]
  refine ⟨?_, key hash, ?_⟩
  · intro h
    unfold IsValidTarget
    rw [if_pos h]
  · intro h0
    rw [key _ (List.length_replicate _ _), littleEndianValue_replicate_zero]
    exact h0

end Utils

/-! ## Variable-length integers -/

namespace LittleEndian

theorem Uint16_PutUint16 (v : Nat) (hv : v < 65536) (rest : List UInt8) :
    Uint16 (PutUint16 v ++ rest) = some v := by
  simp only [PutUint16, List.cons_append, List.nil_append, Uint16, toNat_ofNat8,
    Nat.shiftRight_eq_div_pow, Option.some.injEq]
  rw [lor_shift8 _ _ (by omega)]
  omega

theorem lor_shift32 (a b : Nat) (ha : a < 4294967296) :
    a ||| (b <<< 32) = a + 4294967296 * b := by
  rw [Nat.shiftLeft_eq, Nat.lor_comm, Nat.mul_comm b, Nat.add_comm]
  exact (Nat.mul_add_lt_is_or (i := 32) ha b).symm

theorem lor_shift40 (a b : Nat) (ha : a < 1099511627776) :
    a ||| (b <<< 40) = a + 1099511627776 * b := by
  rw [Nat.shiftLeft_eq, Nat.lor_comm, Nat.mul_comm b, Nat.add_comm]
  exact (Nat.mul_add_lt_is_or (i := 40) ha b).symm

theorem lor_shift48 (a b : Nat) (ha : a < 281474976710656) :
    a ||| (b <<< 48) = a + 281474976710656 * b := by
  rw [Nat.shiftLeft_eq, Nat.lor_comm, Nat.mul_comm b, Nat.add_comm]
  exact (Nat.mul_add_lt_is_or (i := 48) ha b).symm

theorem lor_shift56 (a b : Nat) (ha : a < 72057594037927936) :
    a ||| (b <<< 56) = a + 72057594037927936 * b := by
  rw [Nat.shiftLeft_eq, Nat.lor_comm, Nat.mul_comm b, Nat.add_comm]
  exact (Nat.mul_add_lt_is_or (i := 56) ha b).symm

theorem Uint64_PutUint64 (v : Nat) (hv : v < 18446744073709551616) (rest : List UInt8) :
    Uint64 (PutUint64 v ++ rest) = some v := by
  simp only [PutUint64, List.cons_append, List.nil_append, Uint64, toNat_ofNat8,
    Nat.shiftRight_eq_div_pow, Option.some.injEq]
  rw [lor_shift8 _ _ (by omega), lor_shift16 _ _ (by omega), lor_shift24 _ _ (by omega),
    lor_shift32 _ _ (by omega), lor_shift40 _ _ (by omega), lor_shift48 _ _ (by omega),
    lor_shift56 _ _ (by omega)]
  omega

end LittleEndian

namespace Utils

theorem VarIntDecode_nil : VarIntDecode [] = some (0, 0, some VarIntError.empty) := rfl

theorem VarIntDecode_small (first : UInt8) (tail : List UInt8) (h : first.toNat < 0xfd) :
    VarIntDecode (first :: tail) = some (first.toNat, 1, none) := by
  simp [VarIntDecode, h]

theorem VarIntDecode_fd_short (first : UInt8) (tail : List UInt8) (h : first.toNat = 0xfd)
    (hl : tail.length < 2) :
    VarIntDecode (first :: tail) = some (0, 0, some VarIntError.need3) := by
  have h3 : tail.length + 1 < 3 := by omega
  simp [VarIntDecode, h, h3]

theorem VarIntDecode_fd (first : UInt8) (tail : List UInt8) (h : first.toNat = 0xfd)
    (hl : 2 ≤ tail.length) :
    VarIntDecode (first :: tail) = (LittleEndian.Uint16 tail).map (fun v => (v, 3, none)) := by
  match tail, hl with
  | b0 :: b1 :: rest, _ =>
      simp [VarIntDecode, h, sliceBytes, LittleEndian.Uint16]

theorem VarIntDecode_fe_short (first : UInt8) (tail : List UInt8) (h : first.toNat = 0xfe)
    (hl : tail.length < 4) :
    VarIntDecode (first :: tail) = some (0, 0, some VarIntError.need5) := by
  have h3 : tail.length + 1 < 5 := by omega
  simp [VarIntDecode, h, h3]

theorem VarIntDecode_fe (first : UInt8) (tail : List UInt8) (h : first.toNat = 0xfe)
    (hl : 4 ≤ tail.length) :
    VarIntDecode (first :: tail) = (LittleEndian.Uint32 tail).map (fun v => (v, 5, none)) := by
  match tail, hl with
  | b0 :: b1 :: b2 :: b3 :: rest, _ =>
      simp [VarIntDecode, h, sliceBytes, LittleEndian.Uint32]

theorem VarIntDecode_ff_short (first : UInt8) (tail : List UInt8) (h : first.toNat = 0xff)
    (hl : tail.length < 8) :
    VarIntDecode (first :: tail) = some (0, 0, some VarIntError.need9) := by
  have h3 : tail.length + 1 < 9 := by omega
  simp [VarIntDecode, h, h3]

theorem VarIntDecode_ff (first : UInt8) (tail : List UInt8) (h : first.toNat = 0xff)
    (hl : 8 ≤ tail.length) :
    VarIntDecode (first :: tail) = (LittleEndian.Uint64 tail).map (fun v => (v, 9, none)) := by
  match tail, hl with
  | b0 :: b1 :: b2 :: b3 :: b4 :: b5 :: b6 :: b7 :: rest, _ =>
      simp [VarIntDecode, h, sliceBytes, LittleEndian.Uint64]

theorem ofNat8_congr (a b : Nat) (h : a % 256 = b % 256) : UInt8.ofNat a = UInt8.ofNat b :=
  UInt8.ext (by rw [toNat_ofNat8, toNat_ofNat8, h])

theorem PutUint16_eq_spec (v : Nat) : LittleEndian.PutUint16 (v % 65536) = specLEBytes 2 v := by
  show [_, _] = [_, _]
  simp only [Nat.shiftRight_eq_div_pow]
  rw [ofNat8_congr (v % 65536) (v / 256 ^ 0 % 256) (by omega),
    ofNat8_congr (v % 65536 / 2 ^ 8) (v / 256 ^ 1 % 256) (by omega)]

theorem PutUint32_eq_spec (v : Nat) :
    LittleEndian.PutUint32 (v % 4294967296) = specLEBytes 4 v := by
  show [_, _, _, _] = [_, _, _, _]
  simp only [Nat.shiftRight_eq_div_pow]
  rw [ofNat8_congr (v % 4294967296) (v / 256 ^ 0 % 256) (by omega),
    ofNat8_congr (v % 4294967296 / 2 ^ 8) (v / 256 ^ 1 % 256) (by omega),
    ofNat8_congr (v % 4294967296 / 2 ^ 16) (v / 256 ^ 2 % 256) (by omega),
    ofNat8_congr (v % 4294967296 / 2 ^ 24) (v / 256 ^ 3 % 256) (by omega)]

theorem PutUint64_eq_spec (v : Nat) : LittleEndian.PutUint64 v = specLEBytes 8 v := by
  show [_, _, _, _, _, _, _, _] = [_, _, _, _, _, _, _, _]
  simp only [Nat.shiftRight_eq_div_pow]
  rw [ofNat8_congr v (v / 256 ^ 0 % 256) (by omega),
    ofNat8_congr (v / 2 ^ 8) (v / 256 ^ 1 % 256) (by omega),
    ofNat8_congr (v / 2 ^ 16) (v / 256 ^ 2 % 256) (by omega),
    ofNat8_congr (v / 2 ^ 24) (v / 256 ^ 3 % 256) (by omega),
    ofNat8_congr (v / 2 ^ 32) (v / 256 ^ 4 % 256) (by omega),
    ofNat8_congr (v / 2 ^ 40) (v / 256 ^ 5 % 256) (by omega),
    ofNat8_congr (v / 2 ^ 48) (v / 256 ^ 6 % 256) (by omega),
    ofNat8_congr (v / 2 ^ 56) (v / 256 ^ 7 % 256) (by omega)]

/-- C26: for every 64-bit value `v` and every byte string `rest`, decoding the
encoding of `v` followed by `rest` returns `v`, the length of the encoding and
no error. -/
theorem C26_varint_roundtrip (v : Nat) (hv : v < 18446744073709551616) (rest : List UInt8) :
    VarIntDecode (VarIntEncode v ++ rest) = some (v, ((VarIntEncode v).length : Int), none) := by
  unfold VarIntEncode
  by_cases h1 : v < 0xfd
  · rw [if_pos h1, List.singleton_append,
      VarIntDecode_small _ _ (by rw [toNat_ofNat8]; omega), toNat_ofNat8,
      Nat.mod_eq_of_lt (by omega)]
    rfl
  rw [if_neg h1]
  by_cases h2 : v ≤ 0xffff
  · rw [if_pos h2, List.cons_append, VarIntDecode_fd 0xfd _ rfl
        (by rw [List.length_append]; simp only [LittleEndian.PutUint16, List.length_cons,
          List.length_nil]; omega),
      LittleEndian.Uint16_PutUint16 _ (Nat.mod_lt _ (by omega)), Nat.mod_eq_of_lt (by omega)]
    rfl
  rw [if_neg h2]
  by_cases h3 : v ≤ 0xffffffff
  · rw [if_pos h3, List.cons_append, VarIntDecode_fe 0xfe _ rfl
        (by rw [List.length_append, LittleEndian.PutUint32_length]; omega),
      LittleEndian.Uint32_PutUint32 _ (Nat.mod_lt _ (by omega)), Nat.mod_eq_of_lt (by omega)]
    rfl
  · rw [if_neg h3, List.cons_append, VarIntDecode_ff 0xff _ rfl
        (by rw [List.length_append]; simp only [LittleEndian.PutUint64, List.length_cons,
          List.length_nil]; omega),
      LittleEndian.Uint64_PutUint64 _ hv]
    rfl

theorem C26_witness :
    VarIntDecode (VarIntEncode 0 ++ []) = some (0, 1, none) ∧
    VarIntDecode (VarIntEncode 252 ++ [7]) = some (252, 1, none) ∧
    VarIntDecode (VarIntEncode 253 ++ []) = some (253, 3, none) ∧
    VarIntDecode (VarIntEncode 65535 ++ [7, 8]) = some (65535, 3, none) ∧
    VarIntDecode (VarIntEncode 65536 ++ []) = some (65536, 5, none) ∧
    VarIntDecode (VarIntEncode 4294967295 ++ [0xff]) = some (4294967295, 5, none) ∧
    VarIntDecode (VarIntEncode 4294967296 ++ []) = some (4294967296, 9, none) ∧
    VarIntDecode (VarIntEncode 18446744073709551615 ++ [1]) =
      some (18446744073709551615, 9, none) :=
  ⟨C26_varint_roundtrip 0 (by decide) [], C26_varint_roundtrip 252 (by decide) [7],
    C26_varint_roundtrip 253 (by decide) [], C26_varint_roundtrip 65535 (by decide) [7, 8],
    C26_varint_roundtrip 65536 (by decide) [], C26_varint_roundtrip 4294967295 (by decide) [0xff],
    C26_varint_roundtrip 4294967296 (by decide) [],
    C26_varint_roundtrip 18446744073709551615 (by decide) [1]⟩

/-- C27: for every value `v`, every 64-bit one included, `VarIntEncode(v)` is the byte `v` when `v < 0xfd`; `0xfd` and the two
little-endian bytes of `v` when `0xfd ≤ v ≤ 0xffff`; `0xfe` and the four
little-endian bytes of `v` when `0xffff < v ≤ 0xffffffff`; `0xff` and the eight
little-endian bytes of `v` otherwise; 253 gives `[0xfd, 0xfd, 0x00]` and 65536
gives `[0xfe, 0x00, 0x00, 0x01, 0x00]`. -/
theorem C27_varint_encode (v : Nat) :
    (v < 0xfd → VarIntEncode v = [UInt8.ofNat v]) ∧
    (0xfd ≤ v → v ≤ 0xffff → VarIntEncode v = 0xfd :: specLEBytes 2 v) ∧
    (0xffff < v → v ≤ 0xffffffff → VarIntEncode v = 0xfe :: specLEBytes 4 v) ∧
    (0xffffffff < v → VarIntEncode v = 0xff :: specLEBytes 8 v) ∧
    (VarIntEncode v).length =
      (if v < 0xfd then 1 else if v ≤ 0xffff then 3 else if v ≤ 0xffffffff then 5 else 9) ∧
    VarIntEncode 253 = [0xfd, 0xfd, 0x00] ∧
    VarIntEncode 65536 = [0xfe, 0x00, 0x00, 0x01, 0x00] := by
  refine ⟨?_, ?_, ?_, ?_, ?_, by decide, by decide⟩
  · intro h
    rw [VarIntEncode, if_pos h]
  · intro h1 h2
    rw [VarIntEncode, if_neg (by omega), if_pos h2, PutUint16_eq_spec]
  · intro h1 h2
    rw [VarIntEncode, if_neg (by omega), if_neg (by omega), if_pos h2, PutUint32_eq_spec]
  · intro h1
    rw [VarIntEncode, if_neg (by omega), if_neg (by omega), if_neg (by omega), PutUint64_eq_spec]
  · unfold VarIntEncode
    split_ifs <;> rfl

theorem toNat8_eq_iff (b : UInt8) (n : Nat) (hn : n < 256) :
    b.toNat = n ↔ b = UInt8.ofNat n := by
  constructor
  · intro h
    rw [← h, ofNat8_toNat]
  · intro h
    rw [h, toNat_ofNat8, Nat.mod_eq_of_lt hn]

theorem Uint16_isSome (tail : List UInt8) (h : 2 ≤ tail.length) :
    ∃ v, LittleEndian.Uint16 tail = some v := by
  match tail, h with
  | b0 :: b1 :: _, _ => exact ⟨_, rfl⟩

theorem Uint32_isSome (tail : List UInt8) (h : 4 ≤ tail.length) :
    ∃ v, LittleEndian.Uint32 tail = some v := by
  match tail, h with
  | b0 :: b1 :: b2 :: b3 :: _, _ => exact ⟨_, rfl⟩

theorem Uint64_isSome (tail : List UInt8) (h : 8 ≤ tail.length) :
    ∃ v, LittleEndian.Uint64 tail = some v := by
  match tail, h with
  | b0 :: b1 :: b2 :: b3 :: b4 :: b5 :: b6 :: b7 :: _, _ => exact ⟨_, rfl⟩

/-- C28: `VarIntDecode` always returns; it returns an error exactly when the
data is empty, or starts with `0xfd` and has fewer than 3 bytes, or starts with
`0xfe` and has fewer than 5 bytes, or starts with `0xff` and has fewer than 9
bytes; with an error the value and the count are 0; without one the count is 1,
3, 5 or 9 according to the first byte and is at most the length of the data. -/
theorem C28_varint_decode_errors (data : List UInt8) :
    ∃ (value : Nat) (count : Int) (err : Option VarIntError),
      VarIntDecode data = some (value, count, err) ∧
      (err ≠ none ↔ (data = [] ∨ (data[0]? = some 0xfd ∧ data.length < 3) ∨
        (data[0]? = some 0xfe ∧ data.length < 5) ∨ (data[0]? = some 0xff ∧ data.length < 9))) ∧
      (err ≠ none → value = 0 ∧ count = 0) ∧
      (err = none → count ≤ (data.length : Int) ∧
        ∃ first, data[0]? = some first ∧
          count = (if first.toNat < 0xfd then 1 else if first = 0xfd then 3
            else if first = 0xfe then 5 else 9)) := by
  match data with
  | [] =>
      refine ⟨0, 0, some VarIntError.empty, rfl, ?_, fun _ => ⟨rfl, rfl⟩, ?_⟩
      · exact ⟨fun _ => Or.inl rfl, fun _ => by simp⟩
      · intro h; cases h
  | first :: tail =>
      have hlt := toNat8_lt first
      have hfd := toNat8_eq_iff first 0xfd (by omega)
      have hfe := toNat8_eq_iff first 0xfe (by omega)
      have hff := toNat8_eq_iff first 0xff (by omega)
      have e1 : UInt8.ofNat 0xfd = (0xfd : UInt8) := rfl
      have e2 : UInt8.ofNat 0xfe = (0xfe : UInt8) := rfl
      have e3 : UInt8.ofNat 0xff = (0xff : UInt8) := rfl
      rw [e1] at hfd
      rw [e2] at hfe
      rw [e3] at hff
      simp only [List.getElem?_cons_zero, Option.some.injEq, List.length_cons, reduceCtorEq,
        false_or, exists_eq_left']
      by_cases h1 : first.toNat < 0xfd
      · refine ⟨_, _, _, VarIntDecode_small first tail h1, ?_, ?_, ?_⟩
        · simp only [ne_eq, not_true_eq_false, false_iff, ← hfd, ← hfe, ← hff]
          omega
        · intro h; exact absurd rfl h
        · intro _
          rw [if_pos h1]
          exact ⟨by push_cast; omega, rfl⟩
      by_cases h2 : first.toNat = 0xfd
      · have n3 : ¬ first.toNat = 0xfe := by omega
        have n4 : ¬ first.toNat = 0xff := by omega
        by_cases hl : tail.length < 2
        · refine ⟨_, _, _, VarIntDecode_fd_short first tail h2 hl, ?_, fun _ => ⟨rfl, rfl⟩, ?_⟩
          · simp only [ne_eq, reduceCtorEq, not_false_eq_true, true_iff, ← hfd, ← hfe, ← hff]
            omega
          · intro h; cases h
        · obtain ⟨v, hv⟩ := Uint16_isSome tail (by omega)
          refine ⟨v, 3, none, ?_, ?_, ?_, ?_⟩
          · rw [VarIntDecode_fd first tail h2 (by omega), hv]; rfl
          · simp only [ne_eq, not_true_eq_false, false_iff, ← hfd, ← hfe, ← hff]
            omega
          · intro h; exact absurd rfl h
          · intro _
            rw [if_neg h1, if_pos (hfd.mp h2)]
            exact ⟨by push_cast; omega, rfl⟩
      by_cases h3 : first.toNat = 0xfe
      · have n4 : ¬ first.toNat = 0xff := by omega
        by_cases hl : tail.length < 4
        · refine ⟨_, _, _, VarIntDecode_fe_short first tail h3 hl, ?_, fun _ => ⟨rfl, rfl⟩, ?_⟩
          · simp only [ne_eq, reduceCtorEq, not_false_eq_true, true_iff, ← hfd, ← hfe, ← hff]
            omega
          · intro h; cases h
        · obtain ⟨v, hv⟩ := Uint32_isSome tail (by omega)
          refine ⟨v, 5, none, ?_, ?_, ?_, ?_⟩
          · rw [VarIntDecode_fe first tail h3 (by omega), hv]; rfl
          · simp only [ne_eq, not_true_eq_false, false_iff, ← hfd, ← hfe, ← hff]
            omega
          · intro h; exact absurd rfl h
          · intro _
            rw [if_neg h1, if_neg (fun h => h2 (hfd.mpr h)), if_pos (hfe.mp h3)]
            exact ⟨by push_cast; omega, rfl⟩
      have h4 : first.toNat = 0xff := by omega
      by_cases hl : tail.length < 8
      · refine ⟨_, _, _, VarIntDecode_ff_short first tail h4 hl, ?_, fun _ => ⟨rfl, rfl⟩, ?_⟩
        · simp only [ne_eq, reduceCtorEq, not_false_eq_true, true_iff, ← hfd, ← hfe, ← hff]
          omega
        · intro h; cases h
      · obtain ⟨v, hv⟩ := Uint64_isSome tail (by omega)
        refine ⟨v, 9, none, ?_, ?_, ?_, ?_⟩
        · rw [VarIntDecode_ff first tail h4 (by omega), hv]; rfl
        · simp only [ne_eq, not_true_eq_false, false_iff, ← hfd, ← hfe, ← hff]
          omega
        · intro h; exact absurd rfl h
        · intro _
          rw [if_neg h1, if_neg (fun h => h2 (hfd.mpr h)), if_neg (fun h => h3 (hfe.mpr h))]
          exact ⟨by push_cast; omega, rfl⟩

end Utils

/-! ## Hexadecimal strings of hashes -/

namespace Hex

theorem hextable_getD : ∀ d, d < 16 → hextable.getD d 0 = Utils.specHexDigit d := by
  decide

theorem fromHexChar_specHexDigit : ∀ d, d < 16 → fromHexChar (Utils.specHexDigit d) = some d := by
  decide

theorem specHexDigit_mem : ∀ d, d < 16 → Utils.specHexDigit d ∈ hextable := by
  decide

theorem nibbles (n : Nat) : ((n / 16) <<< 4) ||| (n % 16) = n := by
  rw [Nat.shiftLeft_eq, Nat.mul_comm]
  have h := Nat.mul_add_lt_is_or (i := 4) (show n % 16 < 2 ^ 4 from Nat.mod_lt _ (by norm_num))
    (n / 16)
  rw [← h]
  have : (2 : Nat) ^ 4 = 16 := by norm_num
  rw [this]
  omega

theorem EncodeToString_eq_specHex (src : List UInt8) :
    EncodeToString src = Utils.specHex src := by
  induction src with
  | nil => rfl
  | cons v rest ih =>
      have hv := toNat8_lt v
      have h1 : v.toNat >>> 4 = v.toNat / 16 := by rw [Nat.shiftRight_eq_div_pow]
      have h2 : v.toNat &&& 0x0f = v.toNat % 16 := Nat.and_pow_two_sub_one_eq_mod v.toNat 4
      have ih2 : List.flatMap rest
          (fun v => [hextable.getD (v.toNat >>> 4) 0, hextable.getD (v.toNat &&& 0x0f) 0]) =
          Utils.specHex rest := ih
      rw [EncodeToString, List.flatMap_cons, ih2, h1, h2, hextable_getD _ (by omega),
        hextable_getD _ (Nat.mod_lt _ (by norm_num)), Utils.specHex]
      rfl

theorem DecodeString_specHex (l : List UInt8) : DecodeString (Utils.specHex l) = (l, none) := by
  induction l with
  | nil => rfl
  | cons v rest ih =>
      have hv := toNat8_lt v
      rw [Utils.specHex, DecodeString, fromHexChar_specHexDigit _ (by omega),
        fromHexChar_specHexDigit _ (Nat.mod_lt _ (by norm_num))]
      simp only [ih, nibbles, ofNat8_toNat]

end Hex

namespace Utils

theorem specHex_length (l : List UInt8) : (specHex l).length = 2 * l.length := by
  induction l with
  | nil => rfl
  | cons v rest ih => rw [specHex, List.length_cons, List.length_cons, ih, List.length_cons]; omega

theorem specHex_mem (l : List UInt8) : ∀ c ∈ specHex l, c ∈ Hex.hextable := by
  induction l with
  | nil => intro c hc; cases hc
  | cons v rest ih =>
      intro c hc
      have hv := toNat8_lt v
      rw [specHex, List.mem_cons, List.mem_cons] at hc
      rcases hc with rfl | rfl | hc
      · exact Hex.specHexDigit_mem _ (by omega)
      · exact Hex.specHexDigit_mem _ (Nat.mod_lt _ (by norm_num))
      · exact ih c hc

theorem HashToString_eq (h : List UInt8) (hl : h.length = 32) :
    HashToString h = specHex h.reverse := by
  have hne : ¬ h.length ≠ 32 := by omega
  unfold HashToString
  rw [if_neg hne]
  show Hex.EncodeToString (reverseLoop h) = _
  rw [reverseLoop_eq h hl, Hex.EncodeToString_eq_specHex]

theorem StringToHash_specHex (l : List UInt8) (hl : l.length = 32) :
    StringToHash (specHex l) = (l.reverse, none) := by
  have hne : ¬ (specHex l).length ≠ 64 := by rw [specHex_length, hl]; omega
  unfold StringToHash
  rw [if_neg hne, Hex.DecodeString_specHex]
  show (reverseLoop l, none) = _
  rw [reverseLoop_eq l hl]

/-- C29: for every hash `h` of 32 bytes, `HashToString(h)` is the lower-case
hexadecimal rendering of the bytes of `h` in reverse order, so it starts with
the two digits of `h[31]`; it has 64 characters, all among `0123456789abcdef`;
and `StringToHash` of it returns `h` and no error. -/
theorem C29_hash_string_roundtrip (h : List UInt8) (hl : h.length = 32) :
    HashToString h = specHex h.reverse ∧
    (HashToString h).take 2 = specHex [h.getD 31 0] ∧
    (HashToString h).length = 64 ∧
    (∀ c ∈ HashToString h, c ∈ asciiBytes "0123456789abcdef") ∧
    StringToHash (HashToString h) = (h, none) := by
  have e := HashToString_eq h hl
  refine ⟨e, ?_, ?_, ?_, ?_⟩
  · rw [e]
    have hr : h.reverse = h.getD 31 0 :: (h.reverse).tail := by
      have hlen : h.reverse.length = 32 := by rw [List.length_reverse, hl]
      match hrev : h.reverse, hlen with
      | a :: r, _ =>
          have h0 : (h.reverse)[0]? = some a := by rw [hrev, List.getElem?_cons_zero]
          rw [List.getElem?_reverse (by omega), hl] at h0
          rw [List.getD_eq_getElem?_getD, h0]
          rfl
    rw [hr]
    rfl
  · rw [e, specHex_length, List.length_reverse, hl]
  · rw [e]
    exact specHex_mem _
  · rw [e, StringToHash_specHex _ (by rw [List.length_reverse, hl]), List.reverse_reverse]

theorem C29_witness :
    HashToString (Blockchain.sampleHash 7) = specHex (Blockchain.sampleHash 7).reverse ∧
    (HashToString (Blockchain.sampleHash 7)).take 2 =
      specHex [(Blockchain.sampleHash 7).getD 31 0] ∧
    (HashToString (Blockchain.sampleHash 7)).length = 64 ∧
    (∀ c ∈ HashToString (Blockchain.sampleHash 7), c ∈ asciiBytes "0123456789abcdef") ∧
    StringToHash (HashToString (Blockchain.sampleHash 7)) = (Blockchain.sampleHash 7, none) :=
  C29_hash_string_roundtrip (Blockchain.sampleHash 7) rfl

end Utils

/-! ## Big-endian bytes read back -/

namespace Big

theorem foldl_bytes_append (l : List UInt8) (b : UInt8) :
    (l ++ [b]).foldl (fun acc b => acc * 256 + b.toNat) 0 =
      l.foldl (fun acc b => acc * 256 + b.toNat) 0 * 256 + b.toNat := by
  rw [List.foldl_append, List.foldl_cons, List.foldl_nil]

theorem foldl_bytes_eq_zero (l : List UInt8) :
    l.foldl (fun acc b => acc * 256 + b.toNat) 0 = 0 ↔ ∀ b ∈ l, b = 0 := by
  induction l using List.reverseRecOn with
  | nil => exact ⟨fun _ b hb => (by cases hb), fun _ => rfl⟩
  | append_singleton l b ih =>
      rw [foldl_bytes_append]
      constructor
      · intro h x hx
        have h1 : l.foldl (fun acc b => acc * 256 + b.toNat) 0 = 0 := by omega
        have h2 : b.toNat = 0 := by omega
        rcases List.mem_append.mp hx with hx | hx
        · exact ih.mp h1 x hx
        · rw [List.mem_singleton] at hx
          rw [hx, ← ofNat8_toNat b, h2]
          rfl
      · intro h
        have h1 := ih.mpr (fun x hx => h x (List.mem_append_left _ hx))
        have h2 : b = 0 := h b (List.mem_append_right _ (List.mem_singleton.mpr rfl))
        rw [h1, h2]
        rfl

/-- The bytes of the integer read from `l` are `l` without its leading zero bytes. -/
theorem BytesAux_foldl (l : List UInt8) :
    BytesAux (l.foldl (fun acc b => acc * 256 + b.toNat) 0)
      (l.foldl (fun acc b => acc * 256 + b.toNat) 0) = l.dropWhile (fun b => b = 0) := by
  induction l using List.reverseRecOn with
  | nil => rfl
  | append_singleton l b ih =>
      by_cases hz : (l ++ [b]).foldl (fun acc b => acc * 256 + b.toNat) 0 = 0
      · rw [hz, BytesAux_zero]
        symm
        rw [List.dropWhile_eq_nil_iff]
        intro x hx
        exact decide_eq_true ((foldl_bytes_eq_zero _).mp hz x hx)
      · rw [BytesAux_pos _ (by omega), foldl_bytes_append]
        have hb := toNat8_lt b
        have e1 : (l.foldl (fun acc b => acc * 256 + b.toNat) 0 * 256 + b.toNat) / 256 =
            l.foldl (fun acc b => acc * 256 + b.toNat) 0 := by omega
        have e2 : (l.foldl (fun acc b => acc * 256 + b.toNat) 0 * 256 + b.toNat) % 256 =
            b.toNat := by omega
        rw [e1, e2, ih, ofNat8_toNat, List.dropWhile_append]
        by_cases he : (List.dropWhile (fun b => decide (b = 0)) l).isEmpty = true
        · rw [if_pos he]
          have hnil : List.dropWhile (fun b => decide (b = 0)) l = [] := List.isEmpty_iff.mp he
          rw [hnil, List.nil_append]
          have hl0 : l.foldl (fun acc b => acc * 256 + b.toNat) 0 = 0 := by
            rw [foldl_bytes_eq_zero]
            intro x hx
            exact of_decide_eq_true (List.dropWhile_eq_nil_iff.mp hnil x hx)
          rw [foldl_bytes_append, hl0] at hz
          have hb0 : ¬ b = 0 := by
            intro h
            rw [h] at hz
            exact hz rfl
          rw [List.dropWhile_cons, if_neg (by rw [decide_eq_true_eq]; exact hb0)]
        · rw [if_neg he]

theorem Bytes_SetBytes (l : List UInt8) : Bytes (SetBytes l) = l.dropWhile (fun b => b = 0) := by
  rw [Bytes, SetBytes, Int.natAbs_ofNat, BytesAux_foldl]

end Big

/-! ## Base58 -/

namespace Utils

theorem base58DecodeMap_alphabet :
    ∀ r, r < 58 → base58DecodeMap (base58Alphabet.getD r 0) = some r := by
  decide

theorem base58Alphabet_ne_one :
    ∀ r, r < 58 → 0 < r → base58Alphabet.getD r 0 ≠ UInt8.ofNat '1'.toNat := by
  decide

theorem base58DecodeMap_one : base58DecodeMap (UInt8.ofNat '1'.toNat) = some 0 := by
  decide

/-- The loop does not depend on the fuel once the fuel is at least `num`. -/
theorem base58Digits_fuel :
    ∀ (f1 f2 : Nat) (num : Int) (acc : List UInt8), num.toNat ≤ f1 → num.toNat ≤ f2 →
      base58Digits f1 num acc = base58Digits f2 num acc := by
  intro f1
  induction f1 with
  | zero =>
      intro f2 num acc h1 _
      have hn : ¬ num > 0 := by omega
      cases f2 with
      | zero => rfl
      | succ f2 => simp only [base58Digits, hn, if_false]
  | succ f1 ih =>
      intro f2 num acc h1 h2
      by_cases hn : num > 0
      · cases f2 with
        | zero => omega
        | succ f2 =>
            simp only [base58Digits, hn, if_true, Big.Div]
            exact ih f2 _ _ (by omega) (by omega)
      · cases f2 with
        | zero => simp only [base58Digits, hn, if_false]
        | succ f2 => simp only [base58Digits, hn, if_false]

/-- The loop appends to what it is given. -/
theorem base58Digits_acc :
    ∀ (fuel : Nat) (num : Int) (acc : List UInt8),
      base58Digits fuel num acc = acc ++ base58Digits fuel num [] := by
  intro fuel
  induction fuel with
  | zero => intro num acc; simp only [base58Digits, List.append_nil]
  | succ fuel ih =>
      intro num acc
      by_cases hn : num > 0
      · simp only [base58Digits, hn, if_true, List.nil_append]
        rw [ih _ (acc ++ _), ih _ [_], List.append_assoc]
      · simp only [base58Digits, hn, if_false, List.append_nil]

theorem base58Digits_zero : base58Digits 0 ((0 : Nat) : Int) [] = [] := rfl

/-- One turn of the loop: the character of the remainder, then the digits of the quotient. -/
theorem base58Digits_pos (n : Nat) (hn : 0 < n) :
    base58Digits n (n : Int) [] =
      base58Alphabet.getD (n % 58) 0 :: base58Digits (n / 58) ((n / 58 : Nat) : Int) [] := by
  obtain ⟨m, rfl⟩ : ∃ m, n = m + 1 := ⟨n - 1, by omega⟩
  have hpos : ((m + 1 : Nat) : Int) > 0 := by omega
  have e1 : (((m + 1 : Nat) : Int) % 58).toNat = (m + 1) % 58 := by omega
  have e2 : ((m + 1 : Nat) : Int) / 58 = (((m + 1) / 58 : Nat) : Int) := by omega
  simp only [base58Digits, hpos, if_true, Big.Mod, Big.Div, List.nil_append, e1, e2]
  rw [base58Digits_acc, List.singleton_append]
  congr 1
  exact base58Digits_fuel _ _ _ _ (by omega) (by omega)

/-- The digits, least significant first, give back the number. -/
theorem base58Digits_value : ∀ n : Nat,
    (base58Digits n (n : Int) []).foldr
      (fun char num => num * 58 + (((base58DecodeMap char).getD 0 : Nat) : Int)) 0 = (n : Int) := by
  intro n
  induction n using Nat.strong_induction_on with
  | _ n ih =>
      by_cases hn : n = 0
      · subst hn; rfl
      · rw [base58Digits_pos n (by omega), List.foldr_cons, ih (n / 58) (by omega),
          base58DecodeMap_alphabet _ (Nat.mod_lt _ (by norm_num)), Option.getD_some]
        omega

theorem base58Digits_valid : ∀ (n : Nat) (c : UInt8), c ∈ base58Digits n (n : Int) [] →
    (base58DecodeMap c).isNone = false := by
  intro n
  induction n using Nat.strong_induction_on with
  | _ n ih =>
      intro c hc
      by_cases hn : n = 0
      · subst hn; cases hc
      · rw [base58Digits_pos n (by omega), List.mem_cons] at hc
        rcases hc with rfl | hc
        · rw [base58DecodeMap_alphabet _ (Nat.mod_lt _ (by norm_num))]; rfl
        · exact ih (n / 58) (by omega) c hc

/-- The most significant digit of a positive number is not the digit zero. -/
theorem base58Digits_getLast : ∀ n : Nat, 0 < n →
    ∃ r, r < 58 ∧ 0 < r ∧
      (base58Digits n (n : Int) []).getLast? = some (base58Alphabet.getD r 0) := by
  intro n
  induction n using Nat.strong_induction_on with
  | _ n ih =>
      intro hn
      rw [base58Digits_pos n hn, List.getLast?_cons]
      by_cases hq : n / 58 = 0
      · rw [hq, base58Digits_zero]
        exact ⟨n % 58, Nat.mod_lt _ (by norm_num), by omega, rfl⟩
      · obtain ⟨r, h1, h2, h3⟩ := ih (n / 58) (by omega) (by omega)
        exact ⟨r, h1, h2, by rw [h3, Option.getD_some]⟩

theorem takeWhile_replicate_append (p : UInt8 → Bool) (a : UInt8) (hp : p a = true)
    (l : List UInt8) : ∀ z, (List.replicate z a ++ l).takeWhile p =
      List.replicate z a ++ l.takeWhile p := by
  intro z
  induction z with
  | zero => rfl
  | succ z ih =>
      rw [List.replicate_succ, List.cons_append, List.takeWhile_cons, if_pos hp, ih,
        List.cons_append]

theorem takeWhile_eq_replicate (a : UInt8) (l : List UInt8) :
    l.takeWhile (fun b => b = a) = List.replicate (l.takeWhile (fun b => b = a)).length a := by
  refine List.eq_replicate_iff.mpr ⟨rfl, ?_⟩
  intro b hb
  exact of_decide_eq_true (List.mem_takeWhile_imp (p := fun b => decide (b = a)) hb)

theorem foldl_replicate_one (z : Nat) :
    (List.replicate z (UInt8.ofNat '1'.toNat)).foldl
      (fun num char => num * 58 + (((base58DecodeMap char).getD 0 : Nat) : Int)) (0 : Int) = 0 := by
  induction z with
  | zero => rfl
  | succ z ih =>
      rw [List.replicate_succ, List.foldl_cons, base58DecodeMap_one]
      exact ih

/-- The string computed by `Base58Encode`: one `1` per leading zero byte, then
the digits of the integer of the data, most significant first. -/
theorem Base58Encode_eq (data : List UInt8) :
    Base58Encode data =
      List.replicate (data.takeWhile (fun b => b = 0)).length (UInt8.ofNat '1'.toNat) ++
        (base58Digits (data.foldl (fun acc b => acc * 256 + b.toNat) 0)
          ((data.foldl (fun acc b => acc * 256 + b.toNat) 0 : Nat) : Int) []).reverse := by
  by_cases h : data.length = 0
  · have : data = [] := List.length_eq_zero.mp h
    subst this
    rfl
  · unfold Base58Encode
    rw [if_neg h]
    simp only [Big.SetBytes, Int.toNat_ofNat]

/-- The digits of `Base58Encode` do not start with the character `1`. -/
theorem digits_head_ne_one (n : Nat) :
    (base58Digits n (n : Int) []).reverse.takeWhile (fun b => b = UInt8.ofNat '1'.toNat) = [] := by
  by_cases hn : n = 0
  · subst hn; rfl
  · obtain ⟨r, h1, h2, h3⟩ := base58Digits_getLast n (by omega)
    rw [← List.head?_reverse] at h3
    match hrev : (base58Digits n (n : Int) []).reverse with
    | [] => rfl
    | c :: rest =>
        rw [hrev, List.head?_cons, Option.some.injEq] at h3
        rw [List.takeWhile_cons, if_neg]
        rw [decide_eq_true_eq, h3]
        exact base58Alphabet_ne_one r h1 h2

/-- What `Base58Decode` returns on a string of characters of the alphabet. -/
theorem Base58Decode_valid (s : List UInt8)
    (hs : ∀ c ∈ s, (base58DecodeMap c).isNone = false) :
    Base58Decode s =
      (List.replicate (s.takeWhile (fun b => b = UInt8.ofNat '1'.toNat)).length 0 ++
        Big.Bytes (s.foldl
          (fun num char => num * 58 + (((base58DecodeMap char).getD 0 : Nat) : Int)) 0), none) := by
  by_cases h : s.length = 0
  · have : s = [] := List.length_eq_zero.mp h
    subst this
    rfl
  · have hany : ¬ s.any (fun char => (base58DecodeMap char).isNone) = true := by
      rw [List.any_eq_true]
      rintro ⟨c, hc, hn⟩
      rw [hs c hc] at hn
      cases hn
    unfold Base58Decode
    rw [if_neg h, if_neg hany]
    simp only [List.take_replicate, List.drop_replicate, Nat.add_sub_cancel_left,
      Nat.min_eq_left (Nat.le_add_right _ _)]
    rw [copyBytes_eq_of_length _ _ (by rw [List.length_replicate])]

/-- Decoding what `Base58Encode` returns. -/
theorem Base58Decode_Base58Encode (d : List UInt8) : Base58Decode (Base58Encode d) = (d, none) := by
  have hvalid : ∀ c ∈ Base58Encode d, (base58DecodeMap c).isNone = false := by
    intro c hc
    rw [Base58Encode_eq, List.mem_append] at hc
    rcases hc with hc | hc
    · rw [(List.mem_replicate.mp hc).2, base58DecodeMap_one]; rfl
    · exact base58Digits_valid _ c (List.mem_reverse.mp hc)
  rw [Base58Decode_valid _ hvalid, Base58Encode_eq]
  rw [takeWhile_replicate_append _ _ (by rw [decide_eq_true_eq]), digits_head_ne_one,
    List.append_nil, List.length_replicate, List.foldl_append, foldl_replicate_one,
    List.foldl_reverse, base58Digits_value]
  have hb := Big.Bytes_SetBytes d
  rw [Big.SetBytes] at hb
  rw [hb]
  have ht := takeWhile_eq_replicate 0 d
  have hd := List.takeWhile_append_dropWhile (fun b => decide (b = 0)) d
  rw [← ht, hd]

/-- C30: for every byte string `d`, `Base58Decode(Base58Encode(d))` returns `d`
and no error; `Base58Encode(d)` is one character `1` per leading zero byte of
`d`, followed by characters that do not start with `1`. -/
theorem C30_base58_roundtrip (d : List UInt8) :
    Base58Decode (Base58Encode d) = (d, none) ∧
    ∃ rest, Base58Encode d =
        List.replicate (d.takeWhile (fun b => b = 0)).length (UInt8.ofNat '1'.toNat) ++ rest ∧
      rest.head? ≠ some (UInt8.ofNat '1'.toNat) := by
  refine ⟨Base58Decode_Base58Encode d, _, Base58Encode_eq d, ?_⟩
  intro hh
  have h := digits_head_ne_one (d.foldl (fun acc b => acc * 256 + b.toNat) 0)
  match hrev : (base58Digits (d.foldl (fun acc b => acc * 256 + b.toNat) 0)
      ((d.foldl (fun acc b => acc * 256 + b.toNat) 0 : Nat) : Int) []).reverse with
  | [] => rw [hrev] at hh; cases hh
  | c :: rest =>
      rw [hrev, List.head?_cons, Option.some.injEq] at hh
      rw [hrev, List.takeWhile_cons, if_pos (by rw [decide_eq_true_eq]; exact hh)] at h
      cases h

/-- The strings expected by the tests of `Base58Encode`. -/
theorem Base58Encode_samples :
    Base58Encode [] = asciiBytes "" ∧ Base58Encode [0] = asciiBytes "1" ∧
    Base58Encode [0, 0, 0, 1, 2, 3] = asciiBytes "111Ldp" ∧
    Base58Encode (asciiBytes "hello world") = asciiBytes "StV1DL6CwTryKyV" := by
  decide!

end Utils

/-! ## Validation of Base58 strings, hexadecimal strings and padding -/

namespace Utils

theorem base58DecodeMap_isNone (c : UInt8) :
    (base58DecodeMap c).isNone = false ↔ c ∈ base58Alphabet := by
  unfold base58DecodeMap
  by_cases h : List.indexOf c base58Alphabet < base58Alphabet.length
  · rw [if_pos h]
    exact ⟨fun _ => List.indexOf_lt_length.mp h, fun _ => rfl⟩
  · rw [if_neg h]
    exact ⟨fun e => (by cases e), fun hm => absurd (List.indexOf_lt_length.mpr hm) h⟩

/-- On a string that is not empty, `IsValidBase58` is true exactly when every
byte of the string is in the alphabet. -/
theorem IsValidBase58_of_ne_nil (s : List UInt8) (hs : s ≠ []) :
    IsValidBase58 s = true ↔ ∀ c ∈ s, c ∈ base58Alphabet := by
  have hl : ¬ s.length = 0 := fun h => hs (List.length_eq_zero.mp h)
  unfold IsValidBase58 ValidateBase58
  rw [if_neg hl]
  by_cases hany : s.any (fun char => (base58DecodeMap char).isNone) = true
  · rw [if_pos hany]
    obtain ⟨c, hc, hn⟩ := List.any_eq_true.mp hany
    refine ⟨fun e => (by cases e), fun hall => ?_⟩
    rw [(base58DecodeMap_isNone c).mpr (hall c hc)] at hn
    cases hn
  · rw [if_neg hany]
    refine ⟨fun _ c hc => ?_, fun _ => rfl⟩
    rw [← base58DecodeMap_isNone]
    by_contra hcon
    exact hany (List.any_eq_true.mpr ⟨c, hc, by simpa using hcon⟩)

/-- C31: `IsValidBase58` is false on the empty string, although every character
of the empty string is in the alphabet; on every other string it is true exactly
when every character of the string is in the Base58 alphabet, which has none of
the characters `0`, `O`, `I` and `l`. -/
theorem C31_failing_input :
    IsValidBase58 (asciiBytes "") = false ∧
    (∀ c ∈ asciiBytes "", c ∈ base58Alphabet) ∧
    (∀ s : List UInt8, s ≠ [] → (IsValidBase58 s = true ↔ ∀ c ∈ s, c ∈ base58Alphabet)) ∧
    (∀ c ∈ asciiBytes "0OIl", c ∉ base58Alphabet) := by
  refine ⟨rfl, fun c hc => (by cases hc), IsValidBase58_of_ne_nil, by decide⟩

theorem hexToBytesLoop_hex : ∀ (n : Nat) (s : List UInt8), s.length = 2 * n →
    (∀ c ∈ s, (Hex.fromHexChar c).isSome = true) → (hexToBytesLoop s).2 = none := by
  intro n
  induction n with
  | zero =>
      intro s hl _
      have : s = [] := List.length_eq_zero.mp (by omega)
      subst this
      rfl
  | succ n ih =>
      intro s hl hs
      match s, hl, hs with
      | c1 :: c2 :: rest, hl, hs =>
          have h1 := hs c1 (List.mem_cons_self _ _)
          have h2 := hs c2 (List.mem_cons_of_mem _ (List.mem_cons_self _ _))
          obtain ⟨a, ha⟩ := Option.isSome_iff_exists.mp h1
          obtain ⟨b, hb⟩ := Option.isSome_iff_exists.mp h2
          have hr := ih rest (by simp only [List.length_cons] at hl; omega)
            (fun c hc => hs c (List.mem_cons_of_mem _ (List.mem_cons_of_mem _ hc)))
          have hsc : Fmt.SscanfHexByte [c1, c2] = some (UInt8.ofNat (a * 16 + b)) := by
            simp only [Fmt.SscanfHexByte, ha, hb]
          rw [hexToBytesLoop, hsc]
          match hloop : hexToBytesLoop rest with
          | (bytes, none) => rfl
          | (bytes, some e) => rw [hloop] at hr; cases hr

/-- On a string of hexadecimal digits `HexToBytes` returns no error, whatever
the length of the string. -/
theorem HexToBytes_hex (s : List UInt8) (hs : ∀ c ∈ s, (Hex.fromHexChar c).isSome = true) :
    (HexToBytes s).2 = none := by
  have hx : ¬ (s.take 2 = asciiBytes "0x" ∨ s.take 2 = asciiBytes "0X") := by
    rintro (h | h)
    · have hm : (0x78 : UInt8) ∈ s.take 2 := by rw [h]; decide
      have := hs _ (List.mem_of_mem_take hm)
      revert this
      decide
    · have hm : (0x58 : UInt8) ∈ s.take 2 := by rw [h]; decide
      have := hs _ (List.mem_of_mem_take hm)
      revert this
      decide
  unfold HexToBytes
  simp only [hx, if_false]
  by_cases hodd : s.length % 2 ≠ 0
  · rw [if_pos hodd]
    refine hexToBytesLoop_hex ((s.length + 1) / 2) _ ?_ ?_
    · show (0x30 :: s).length = _
      rw [List.length_cons]; omega
    · intro c hc
      have hc' : c ∈ (0x30 : UInt8) :: s := hc
      rcases List.mem_cons.mp hc' with rfl | h
      · decide
      · exact hs c h
  · rw [if_neg hodd]
    exact hexToBytesLoop_hex (s.length / 2) _ (by omega) hs

/-- C32: on the string `123`, three hexadecimal digits, `HexToBytes` returns
the bytes `0x01 0x23` and no error: a string of odd length gets a leading `0`;
and `HexToBytes` returns no error on any string of hexadecimal digits. -/
theorem C32_failing_input :
    (asciiBytes "123").length % 2 = 1 ∧
    (∀ c ∈ asciiBytes "123", (Hex.fromHexChar c).isSome = true) ∧
    HexToBytes (asciiBytes "123") = ([0x01, 0x23], none) ∧
    (∀ s : List UInt8, (∀ c ∈ s, (Hex.fromHexChar c).isSome = true) →
      (HexToBytes s).2 = none) := by
  refine ⟨by decide, by decide, by decide, HexToBytes_hex⟩

theorem PadBytes_short (data : List UInt8) (n : Nat) (h : data.length < n) :
    PadBytes data (n : Int) true = some (List.replicate (n - data.length) 0 ++ data) := by
  have hc : ¬ ((data.length : Int) ≥ (n : Int)) := by omega
  unfold PadBytes
  rw [if_neg hc]
  simp only [Int.toNat_ofNat, if_true, List.take_replicate, List.drop_replicate]
  rw [Nat.min_eq_left (Nat.sub_le _ _),
    copyBytes_eq_of_length _ _ (by rw [List.length_replicate]; omega)]

theorem PadBytes_long (data : List UInt8) (n : Nat) (h : n ≤ data.length) (padLeft : Bool) :
    PadBytes data (n : Int) padLeft = some (data.take n) := by
  have hc : (data.length : Int) ≥ (n : Int) := by omega
  have hn : ¬ ((n : Int) < 0) := by omega
  unfold PadBytes
  rw [if_pos hc, if_neg hn, Int.toNat_ofNat]

/-- C33: `PadBytes([1,2,3], 2, true)` returns `[1,2]`, the first two bytes, not
the data unchanged; for every data and length, data shorter than the length is
preceded by zero bytes up to the length, and data at least as long as the length
is cut to its first `length` bytes. -/
theorem C33_failing_input :
    PadBytes [1, 2, 3] 2 true = some [1, 2] ∧
    PadBytes [1, 2, 3] 2 true ≠ some [1, 2, 3] ∧
    (∀ (data : List UInt8) (n : Nat), data.length < n →
      PadBytes data (n : Int) true = some (List.replicate (n - data.length) 0 ++ data)) ∧
    (∀ (data : List UInt8) (n : Nat), n ≤ data.length →
      PadBytes data (n : Int) true = some (data.take n)) := by
  refine ⟨by decide, by decide, PadBytes_short, fun data n h => PadBytes_long data n h true⟩

end Utils

/-! ## Compact difficulty targets: validation and round trips -/

namespace Utils

theorem BitsToTarget_le_max (bits : Nat) : BitsToTarget bits ≤ GetMaxTarget := by
  by_cases he : bits >>> 24 ≤ 3
  · rw [BitsToTarget_small bits he, GetMaxTarget_eq]
    have h2 := mantissa_lt bits
    have h3 : (((bits &&& 0x00ffffff) / 2 ^ (8 * (3 - (bits >>> 24))) : Nat) : Int)
        < 16777216 := by
      exact_mod_cast lt_of_le_of_lt (Nat.div_le_self _ _) h2
    have h4 : (16777216 : Int) ≤ 0xffff * 2 ^ 208 := by norm_num
    omega
  · rw [BitsToTarget_large bits (by omega), GetMaxTarget_eq]
    exact min_le_right _ _

/-- A compact value is its exponent and its mantissa put together. -/
theorem compact_join (bits : Nat) : ((bits >>> 24) <<< 24) ||| (bits &&& 0x00ffffff) = bits := by
  have hm := mantissa_lt bits
  rw [Nat.lor_comm, lor_shift24 _ _ hm]
  have h := Nat.and_pow_two_sub_one_eq_mod bits 24
  have e1 : (2 : Nat) ^ 24 - 1 = 0x00ffffff := by norm_num
  have e2 : (2 : Nat) ^ 24 = 16777216 := by norm_num
  rw [e1, e2] at h
  rw [h, Nat.shiftRight_eq_div_pow, e2]
  omega

/-- C34: `ValidateDifficultyBits(bits)` returns nil exactly when the exponent
`bits >> 24` is between 1 and 32 and the mantissa `bits & 0x00ffffff` is not
zero; `BitsToTarget` never exceeds the maximum target, so the last check never
returns its error. -/
theorem C34_validate_iff (bits : Nat) :
    (ValidateDifficultyBits bits = none ↔
      (1 ≤ bits >>> 24 ∧ bits >>> 24 ≤ 32 ∧ bits &&& 0x00ffffff ≠ 0)) ∧
    BitsToTarget bits ≤ GetMaxTarget ∧
    ValidateDifficultyBits bits ≠ some DifficultyError.aboveMaximum := by
  have hmax := BitsToTarget_le_max bits
  have hgt : ¬ BitsToTarget bits > GetMaxTarget := not_lt.mpr hmax
  refine ⟨?_, hmax, ?_⟩
  · by_cases h0 : bits = 0
    · subst h0
      exact ⟨fun h => (by cases h), fun h => (by simp at h)⟩
    · by_cases he : bits >>> 24 = 0 ∨ bits >>> 24 > 32
      · simp only [ValidateDifficultyBits, h0, if_false, he, if_true, reduceCtorEq, false_iff]
        omega
      · by_cases hm : bits &&& 0x00ffffff = 0
        · simp only [ValidateDifficultyBits, h0, if_false, he, hm, if_true, reduceCtorEq,
            false_iff, ne_eq, not_true_eq_false, and_false, not_false_eq_true]
        · simp only [ValidateDifficultyBits, h0, if_false, he, hm, hgt, true_iff, ne_eq,
            not_false_eq_true, and_true]
          omega
  · by_cases h0 : bits = 0
    · subst h0
      intro h; cases h
    · by_cases he : bits >>> 24 = 0 ∨ bits >>> 24 > 32
      · simp only [ValidateDifficultyBits, h0, if_false, he, if_true, ne_eq, Option.some.injEq,
          reduceCtorEq, not_false_eq_true]
      · by_cases hm : bits &&& 0x00ffffff = 0
        · simp only [ValidateDifficultyBits, h0, if_false, he, hm, if_true, ne_eq,
            Option.some.injEq, reduceCtorEq, not_false_eq_true]
        · simp only [ValidateDifficultyBits, h0, if_false, he, hm, hgt, ne_eq, reduceCtorEq,
            not_false_eq_true]

/-- The round trip on a mantissa of three bytes whose top bit is clear. -/
theorem roundtrip_three_bytes (e m : Nat) (he : 3 ≤ e) (h1 : 0x010000 ≤ m) (h2 : m ≤ 0x7fffff)
    (hL : e ≤ 254) :
    TargetToBits ((m * 256 ^ (e - 3) : Nat) : Int) = (e <<< 24) ||| m := by
  have hp : 0 < 256 ^ (e - 3) := Nat.pow_pos (by omega)
  have e1 : 256 ^ (e - 1) = 65536 * 256 ^ (e - 3) := by
    have : e - 1 = 2 + (e - 3) := by omega
    rw [this, pow_add]; norm_num
  have e2 : 256 ^ e = 16777216 * 256 ^ (e - 3) := by
    have : e = 3 + (e - 3) := by omega
    nth_rewrite 1 [this]
    rw [pow_add]; norm_num
  have hlo : 256 ^ (e - 1) ≤ m * 256 ^ (e - 3) := by
    rw [e1]; exact Nat.mul_le_mul_right _ (by omega)
  have hhi : m * 256 ^ (e - 3) < 256 ^ e := by
    rw [e2]; exact Nat.mul_lt_mul_of_pos_right (by omega) hp
  have hlen : byteLen (m * 256 ^ (e - 3)) = e := byteLen_unique _ e hlo hhi (by omega)
  have hspec := TargetToBits_eq_spec ((m * 256 ^ (e - 3) : Nat) : Int)
    (by rw [Int.toNat_ofNat, hlen]; exact hL)
  have hpos : ¬ ((m * 256 ^ (e - 3) : Nat) : Int) ≤ 0 := by
    have : 0 < m * 256 ^ (e - 3) := Nat.mul_pos (by omega) hp
    omega
  have htop : m * 256 ^ (e - 3) / 256 ^ (e - 3) = m := Nat.mul_div_cancel _ hp
  have hmsb : m * 256 ^ (e - 3) / 256 ^ (e - 1) = m / 65536 := by
    rw [e1, Nat.mul_comm 65536, ← Nat.div_div_eq_div_mul, htop]
  have h80 : m / 65536 < 0x80 := by omega
  rw [hspec]
  by_cases h3 : e ≤ 3
  · have he3 : e = 3 := by omega
    subst he3
    have hm1 : m * 256 ^ (3 - 3) = m := by norm_num
    rw [hm1] at hlen hpos
    simp only [hm1, specTargetToBits, hpos, if_false, Int.toNat_ofNat, hlen, Nat.le_refl,
      if_true]
  · simp only [specTargetToBits, hpos, if_false, Int.toNat_ofNat, hlen, h3, htop, hmsb, h80,
      if_true]

/-- The round trip on a mantissa of two bytes whose top bit is set. -/
theorem roundtrip_two_bytes (e m : Nat) (he : 5 ≤ e) (h1 : 0x008000 ≤ m) (h2 : m ≤ 0x00ffff)
    (hL : e ≤ 254) :
    TargetToBits ((m * 256 ^ (e - 3) : Nat) : Int) = (e <<< 24) ||| m := by
  have hp : 0 < 256 ^ (e - 4) := Nat.pow_pos (by omega)
  have e0 : 256 ^ (e - 3) = 256 * 256 ^ (e - 4) := by
    have : e - 3 = 1 + (e - 4) := by omega
    rw [this, pow_add]; norm_num
  have e1 : 256 ^ (e - 1 - 1) = 65536 * 256 ^ (e - 4) := by
    have : e - 1 - 1 = 2 + (e - 4) := by omega
    rw [this, pow_add]; norm_num
  have e2 : 256 ^ (e - 1) = 16777216 * 256 ^ (e - 4) := by
    have : e - 1 = 3 + (e - 4) := by omega
    rw [this, pow_add]; norm_num
  have et : m * 256 ^ (e - 3) = (m * 256) * 256 ^ (e - 4) := by
    rw [e0, Nat.mul_assoc]
  have hlo : 256 ^ (e - 1 - 1) ≤ m * 256 ^ (e - 3) := by
    rw [e1, et]; exact Nat.mul_le_mul_right _ (by omega)
  have hhi : m * 256 ^ (e - 3) < 256 ^ (e - 1) := by
    rw [e2, et]; exact Nat.mul_lt_mul_of_pos_right (by omega) hp
  have hlen : byteLen (m * 256 ^ (e - 3)) = e - 1 := byteLen_unique _ (e - 1) hlo hhi (by omega)
  have hspec := TargetToBits_eq_spec ((m * 256 ^ (e - 3) : Nat) : Int)
    (by rw [Int.toNat_ofNat, hlen]; omega)
  have hpos : ¬ ((m * 256 ^ (e - 3) : Nat) : Int) ≤ 0 := by
    have : 0 < m * 256 ^ (e - 3) := Nat.mul_pos (by omega) (Nat.pow_pos (by omega))
    omega
  have e43 : e - 1 - 3 = e - 4 := by omega
  have htop : m * 256 ^ (e - 3) / 256 ^ (e - 1 - 3) = m * 256 := by
    rw [e43, et]; exact Nat.mul_div_cancel _ hp
  have hmsb : m * 256 ^ (e - 3) / 256 ^ (e - 1 - 1) = m / 256 := by
    rw [e1, et, Nat.mul_comm 65536, ← Nat.div_div_eq_div_mul, Nat.mul_div_cancel _ hp]
    omega
  have h80 : ¬ m / 256 < 0x80 := by omega
  have h3 : ¬ e - 1 ≤ 3 := by omega
  have hsucc : e - 1 + 1 = e := by omega
  have hshift : (m * 256) >>> 8 = m := by
    rw [Nat.shiftRight_eq_div_pow]
    have : (2 : Nat) ^ 8 = 256 := by norm_num
    rw [this]
    exact Nat.mul_div_cancel _ (by omega)
  rw [hspec]
  simp only [specTargetToBits, hpos, if_false, Int.toNat_ofNat, hlen, h3, htop, hmsb, h80,
    hsucc, hshift]

/-- C35: for every compact value whose encoded value
`mantissa * 2 ^ (8 * (exponent - 3))` does not exceed the maximum target and
whose exponent is at least 3 with a mantissa from `0x010000` to `0x7fffff`, or at
least 5 with a mantissa from `0x008000` to `0x00ffff`,
`TargetToBits(BitsToTarget(bits))` is `bits`. -/
theorem C35_normalized_roundtrip (bits : Nat)
    (ht : ((bits &&& 0x00ffffff : Nat) : Int) * (2 : Int) ^ (8 * ((bits >>> 24) - 3)) ≤
      GetMaxTarget)
    (hn : (3 ≤ bits >>> 24 ∧ 0x010000 ≤ bits &&& 0x00ffffff ∧ bits &&& 0x00ffffff ≤ 0x7fffff) ∨
      (5 ≤ bits >>> 24 ∧ 0x008000 ≤ bits &&& 0x00ffffff ∧ bits &&& 0x00ffffff ≤ 0x00ffff)) :
    TargetToBits (BitsToTarget bits) = bits := by
  have hjoin := compact_join bits
  revert ht hn hjoin
  generalize hmm : bits &&& 0x00ffffff = m
  generalize hee : bits >>> 24 = e
  intro ht hn hjoin
  have hcast : ((m : Int) * (2 : Int) ^ (8 * (e - 3))) = ((m * 256 ^ (e - 3) : Nat) : Int) := by
    rw [← pow_two_eight]; push_cast; rfl
  rw [hcast] at ht
  have hm0 : 0 < m := by omega
  have he3 : 3 ≤ e := by omega
  have hmax : m * 256 ^ (e - 3) < 256 ^ 28 := by
    rw [GetMaxTarget_eq] at ht
    have h1 : ((m * 256 ^ (e - 3) : Nat) : Int) < ((256 ^ 28 : Nat) : Int) := by
      have : (0xffff * 2 ^ 208 : Int) < ((256 ^ 28 : Nat) : Int) := by norm_num
      omega
    exact_mod_cast h1
  have hpow : 256 ^ (e - 3) < 256 ^ 28 :=
    lt_of_le_of_lt (Nat.le_mul_of_pos_left _ hm0) hmax
  have he28 : e - 3 < 28 := (Nat.pow_lt_pow_iff_right (show 1 < 256 by omega)).mp hpow
  have hB : BitsToTarget bits = ((m * 256 ^ (e - 3) : Nat) : Int) := by
    by_cases hc : e ≤ 3
    · have : e = 3 := by omega
      subst this
      rw [BitsToTarget_small bits (by rw [hee]), hmm, hee]
      simp only [Nat.sub_self, Nat.mul_zero, pow_zero, Nat.div_one, Nat.mul_one]
    · rw [BitsToTarget_large bits (by rw [hee]; omega), hmm, hee, hcast, ← GetMaxTarget_eq,
        min_eq_left ht]
  rw [hB]
  rcases hn with ⟨_, h1, h2⟩ | ⟨h5, h1, h2⟩
  · rw [roundtrip_three_bytes e m he3 h1 h2 (by omega)]
    exact hjoin
  · rw [roundtrip_two_bytes e m h5 h1 h2 (by omega)]
    exact hjoin

theorem C35_witness :
    TargetToBits (BitsToTarget 0x1d00ffff) = 0x1d00ffff ∧
    TargetToBits (BitsToTarget 0x1b0404cb) = 0x1b0404cb ∧
    TargetToBits (BitsToTarget 0x03123456) = 0x03123456 :=
  ⟨C35_normalized_roundtrip 0x1d00ffff (by decide!) (Or.inr (by decide)),
    C35_normalized_roundtrip 0x1b0404cb (by decide!) (Or.inl (by decide)),
    C35_normalized_roundtrip 0x03123456 (by decide!) (Or.inl (by decide))⟩

/-- C36: for every target `t` with `0 < t ≤ MaxTarget`, decoding
`TargetToBits(t)` gives at most `t`, and gives `t` itself when
`2 ^ 16 ≤ t < 2 ^ 24`. -/
theorem C36_decode_encode_le (t : Int) (h0 : 0 < t) (hmax : t ≤ GetMaxTarget) :
    BitsToTarget (TargetToBits t) ≤ t ∧
    (2 ^ 16 ≤ t → t < 2 ^ 24 → BitsToTarget (TargetToBits t) = t) := by
  refine ⟨BitsToTarget_TargetToBits_le t (by omega) (byteLen_le_of_le_max t hmax), ?_⟩
  intro h1 h2
  obtain ⟨n, rfl⟩ : ∃ n : Nat, t = (n : Int) := Int.eq_ofNat_of_zero_le (by omega)
  have hn1 : 65536 ≤ n := by
    have : (2 : Int) ^ 16 = 65536 := by norm_num
    omega
  have hn2 : n < 16777216 := by
    have : (2 : Int) ^ 24 = 16777216 := by norm_num
    omega
  have hlen : byteLen n = 3 := byteLen_unique n 3 (by norm_num; omega) (by norm_num; omega)
    (by omega)
  have hpos : ¬ ((n : Int) ≤ 0) := by omega
  rw [TargetToBits_eq_spec _ (by rw [Int.toNat_ofNat, hlen]; omega)]
  simp only [specTargetToBits, hpos, if_false, Int.toNat_ofNat, hlen, Nat.le_refl, if_true]
  obtain ⟨he, hm⟩ := compact_parts 3 n hn2
  rw [BitsToTarget_small _ (by rw [he]), he, hm]
  simp only [Nat.sub_self, Nat.mul_zero, pow_zero, Nat.div_one]

theorem C36_witness :
    (BitsToTarget (TargetToBits 0x123456789a) ≤ 0x123456789a ∧
      ((2 : Int) ^ 16 ≤ 0x123456789a → (0x123456789a : Int) < 2 ^ 24 →
        BitsToTarget (TargetToBits 0x123456789a) = 0x123456789a)) ∧
    BitsToTarget (TargetToBits 0x123456) = 0x123456 :=
  ⟨C36_decode_encode_le 0x123456789a (by decide) (by decide!),
    (C36_decode_encode_le 0x123456 (by decide) (by decide!)).2 (by decide) (by decide)⟩

end Utils

/-! ## `TargetToBits` is monotone -/

namespace Utils

theorem byteLen_mono (a b : Nat) (h : a ≤ b) : byteLen a ≤ byteLen b := by
  by_cases ha : a = 0
  · subst ha
    rw [byteLen_zero]
    exact Nat.zero_le _
  · have h1 := (byteLen_spec a).2 (by omega)
    have h2 := (byteLen_spec b).1
    have h3 : 256 ^ (byteLen a - 1) < 256 ^ byteLen b := lt_of_le_of_lt (le_trans h1 h) h2
    have h4 := (Nat.pow_lt_pow_iff_right (show 1 < 256 by omega)).mp h3
    omega

/-- The compact form of a positive target of at most three bytes, as a sum. -/
theorem spec_small (n : Nat) (hn : 0 < n) (hL : byteLen n ≤ 3) :
    specTargetToBits (n : Int) = 16777216 * byteLen n + n ∧ n < 16777216 := by
  have hpos : ¬ ((n : Int) ≤ 0) := by omega
  have hlt := (byteLen_spec n).1
  have hn24 : n < 16777216 := by
    have : 256 ^ byteLen n ≤ 256 ^ 3 := Nat.pow_le_pow_right (by omega) hL
    omega
  refine ⟨?_, hn24⟩
  simp only [specTargetToBits, hpos, if_false, Int.toNat_ofNat, hL, if_true]
  rw [Nat.lor_comm, lor_shift24 _ _ hn24, Nat.add_comm]

/-- The compact form of a target of more than three bytes, as a sum: `q` is the
integer of its three most significant bytes. -/
theorem spec_large (n : Nat) (hL : 3 < byteLen n) :
    65536 ≤ n / 256 ^ (byteLen n - 3) ∧ n / 256 ^ (byteLen n - 3) < 16777216 ∧
    specTargetToBits (n : Int) =
      (if n / 256 ^ (byteLen n - 3) / 65536 < 128 then
        16777216 * byteLen n + n / 256 ^ (byteLen n - 3)
      else 16777216 * (byteLen n + 1) + n / 256 ^ (byteLen n - 3) / 256) := by
  have hn : 0 < n := by
    by_contra h0
    have : n = 0 := by omega
    rw [this, byteLen_zero] at hL
    omega
  have hpos : ¬ ((n : Int) ≤ 0) := by omega
  obtain ⟨hlt, hge⟩ := byteLen_spec n
  have hge := hge hn
  obtain ⟨t0, _, _, tq⟩ := top_bytes n (byteLen n) hL hlt
  rw [Nat.sub_zero] at t0
  have h3 : ¬ byteLen n ≤ 3 := by omega
  have hp : 0 < 256 ^ (byteLen n - 3) := Nat.pow_pos (by omega)
  have e1 : 256 ^ (byteLen n - 1) = 65536 * 256 ^ (byteLen n - 3) := by
    have : byteLen n - 1 = 2 + (byteLen n - 3) := by omega
    rw [this, pow_add]; norm_num
  have hq : 65536 ≤ n / 256 ^ (byteLen n - 3) := by
    rw [Nat.le_div_iff_mul_le hp, ← e1]
    exact hge
  refine ⟨hq, tq, ?_⟩
  simp only [specTargetToBits, hpos, if_false, Int.toNat_ofNat, h3, t0]
  generalize n / 256 ^ (byteLen n - 3) = q at *
  generalize byteLen n = L at *
  by_cases hm : q / 65536 < 128
  · rw [if_pos hm, if_pos hm, Nat.lor_comm, lor_shift24 _ _ tq, Nat.add_comm]
  · have h8 : q >>> 8 = q / 256 := by rw [Nat.shiftRight_eq_div_pow]
    rw [if_neg hm, if_neg hm, h8, Nat.lor_comm, lor_shift24 _ _ (by omega), Nat.add_comm]

/-- Monotonicity on natural numbers of at most 254 bytes. -/
theorem specTargetToBits_mono (a b : Nat) (hab : a ≤ b) (hb : byteLen b ≤ 254) :
    specTargetToBits (a : Int) ≤ specTargetToBits (b : Int) := by
  by_cases ha0 : a = 0
  · subst ha0
    exact Nat.zero_le _
  have ha : 0 < a := by omega
  have hbpos : 0 < b := by omega
  have hL := byteLen_mono a b hab
  by_cases hb3 : byteLen b ≤ 3
  · obtain ⟨sa, _⟩ := spec_small a ha (by omega)
    obtain ⟨sb, _⟩ := spec_small b hbpos hb3
    rw [sa, sb]
    omega
  · obtain ⟨qb1, qb2, sb⟩ := spec_large b (by omega)
    by_cases ha3 : byteLen a ≤ 3
    · obtain ⟨sa, ha24⟩ := spec_small a ha ha3
      rw [sa, sb]
      split_ifs <;> omega
    · obtain ⟨qa1, qa2, sa⟩ := spec_large a (by omega)
      rw [sa, sb]
      by_cases hLeq : byteLen a = byteLen b
      · have hq : a / 256 ^ (byteLen a - 3) ≤ b / 256 ^ (byteLen b - 3) := by
          rw [hLeq]
          exact Nat.div_le_div_right hab
        revert hq qa1 qa2 qb1 qb2
        rw [hLeq]
        generalize a / 256 ^ (byteLen b - 3) = qa
        generalize b / 256 ^ (byteLen b - 3) = qb
        intro qa1 qa2 qb1 qb2 hq
        split_ifs <;> omega
      · have hlt : byteLen a < byteLen b := by omega
        generalize a / 256 ^ (byteLen a - 3) = qa at *
        generalize b / 256 ^ (byteLen b - 3) = qb at *
        split_ifs <;> omega

/-- C37: for all integers `0 ≤ t1 ≤ t2 ≤ MaxTarget`,
`TargetToBits(t1) ≤ TargetToBits(t2)`; both are below `2 ^ 32`. -/
theorem C37_target_to_bits_monotone (t1 t2 : Int) (h0 : 0 ≤ t1) (h12 : t1 ≤ t2)
    (hmax : t2 ≤ GetMaxTarget) :
    TargetToBits t1 ≤ TargetToBits t2 ∧ TargetToBits t2 < 4294967296 := by
  have hL2 := byteLen_le_of_le_max t2 hmax
  have hL1 := byteLen_le_of_le_max t1 (le_trans h12 hmax)
  rw [TargetToBits_eq_spec t1 hL1, TargetToBits_eq_spec t2 hL2]
  obtain ⟨a, rfl⟩ : ∃ a : Nat, t1 = (a : Int) := Int.eq_ofNat_of_zero_le h0
  obtain ⟨b, rfl⟩ : ∃ b : Nat, t2 = (b : Int) := Int.eq_ofNat_of_zero_le (by omega)
  rw [Int.toNat_ofNat] at hL2
  refine ⟨specTargetToBits_mono a b (by omega) hL2, ?_⟩
  by_cases hb0 : b = 0
  · subst hb0
    decide
  by_cases hb3 : byteLen b ≤ 3
  · obtain ⟨sb, _⟩ := spec_small b (by omega) hb3
    rw [sb]
    omega
  · obtain ⟨qb1, qb2, sb⟩ := spec_large b (by omega)
    rw [sb]
    split_ifs <;> omega

theorem C37_witness :
    TargetToBits 0x7fffffff ≤ TargetToBits 0x80000000 ∧ TargetToBits 0x80000000 < 4294967296 :=
  C37_target_to_bits_monotone 0x7fffffff 0x80000000 (by decide) (by decide) (by decide!)

end Utils

/-! ## A duplicated last leaf, and the bits of the index that are checked -/

namespace Blockchain

/-- A level of odd size and the same level with its last hash repeated have the
same next level. -/
theorem nextHashes_append_last (Sum256 : List UInt8 → Hash32) :
    ∀ (n : Nat) (L : List Hash32) (x : Hash32), L.length = 2 * n + 1 → L.getLast? = some x →
      nextHashes Sum256 (L ++ [x]) = nextHashes Sum256 L := by
  intro n
  induction n with
  | zero =>
      intro L x hl hx
      match L, hl with
      | [a], _ =>
          have : a = x := by simpa using hx
          subst this
          rfl
  | succ n ih =>
      intro L x hl hx
      match L, hl with
      | a :: b :: rest, hl =>
          have hr : rest.length = 2 * n + 1 := by
            simp only [List.length_cons] at hl; omega
          have hne : rest ≠ [] := by
            intro e; rw [e] at hr; simp at hr
          obtain ⟨c, rest', rfl⟩ := List.exists_cons_of_ne_nil hne
          have hx' : (c :: rest').getLast? = some x := by
            rw [List.getLast?_cons_cons, List.getLast?_cons_cons] at hx
            exact hx
          have e := ih (c :: rest') x hr hx'
          show nextHashes Sum256 (a :: b :: ((c :: rest') ++ [x])) = _
          rw [nextHashes, e, nextHashes]

theorem rootHash_append_last (Sum256 : List UInt8 → Hash32) (L : List Hash32) (x : Hash32)
    (hodd : L.length % 2 = 1) (h3 : 3 ≤ L.length) (hx : L.getLast? = some x) :
    rootHash Sum256 (L ++ [x]) = rootHash Sum256 L := by
  rw [rootHash_of_lt Sum256 (L ++ [x]) (by rw [List.length_append, List.length_singleton]; omega),
    rootHash_of_lt Sum256 L (by omega),
    nextHashes_append_last Sum256 (L.length / 2) L x (by omega) hx]

/-- C38: for every list `hs` of 32-byte hashes with odd length at least 3 and
last element `last`, the trees built from `hs` and from `hs` followed by a copy
of `last` have the same root, and `utils.MerkleRoot` returns that root for both
lists, although the two trees count different numbers of transactions. -/
theorem C38_duplicate_last (Sum256 : List UInt8 → Hash32) (hs : List (List UInt8))
    (last : List UInt8) (h32 : ∀ x ∈ hs, x.length = 32) (hodd : hs.length % 2 = 1)
    (h3 : 3 ≤ hs.length) (hlast : hs[hs.length - 1]? = some last) :
    ∃ t t' r, NewMerkleTree Sum256 hs = some t ∧
      NewMerkleTree Sum256 (hs ++ [last]) = some t' ∧
      GetRoot t = some r ∧ GetRoot t' = some r ∧
      Utils.MerkleRoot Sum256 hs = some r.val ∧
      Utils.MerkleRoot Sum256 (hs ++ [last]) = some r.val ∧
      t.TransactionCount = (hs.length : Int) ∧ t'.TransactionCount = (hs.length : Int) + 1 := by
  have hne : hs ≠ [] := by
    intro e; rw [e] at h3; simp at h3
  have hne' : hs ++ [last] ≠ [] := by simp
  have hmem : last ∈ hs := List.getElem?_mem hlast
  have h32' : ∀ x ∈ hs ++ [last], x.length = 32 := by
    intro x hx
    rcases List.mem_append.mp hx with h | h
    · exact h32 x h
    · rw [List.mem_singleton.mp h]; exact h32 last hmem
  obtain ⟨t, ht, ts⟩ := NewMerkleTree_spec Sum256 hs hne h32
  obtain ⟨t', ht', ts'⟩ := NewMerkleTree_spec Sum256 (hs ++ [last]) hne' h32'
  have hroot : rootHash Sum256 (leafHashes (hs ++ [last])) = rootHash Sum256 (leafHashes hs) := by
    have e : leafHashes (hs ++ [last]) = leafHashes hs ++ [copy32 zeroHash last] := by
      simp only [leafHashes, List.map_append, List.map_cons, List.map_nil]
    rw [e]
    refine rootHash_append_last Sum256 _ _ (by rw [leafHashes_length]; exact hodd)
      (by rw [leafHashes_length]; exact h3) ?_
    rw [leafHashes, List.getLast?_map, List.getLast?_eq_getElem?, hlast]
    rfl
  refine ⟨t, t', rootHash Sum256 (leafHashes hs), ht, ht', GetRoot_of_spec ts, ?_,
    MerkleRoot_eq_rootHash Sum256 hs hne h32, ?_, ts.count, ?_⟩
  · rw [GetRoot_of_spec ts', hroot]
  · rw [MerkleRoot_eq_rootHash Sum256 _ hne' h32', hroot]
  · rw [ts'.count, List.length_append, List.length_singleton]
    push_cast
    rfl

theorem C38_witness :
    ∃ t t' r, NewMerkleTree sampleSum256 sampleHashes = some t ∧
      NewMerkleTree sampleSum256 (sampleHashes ++ [sampleHash 3]) = some t' ∧
      GetRoot t = some r ∧ GetRoot t' = some r ∧
      Utils.MerkleRoot sampleSum256 sampleHashes = some r.val ∧
      Utils.MerkleRoot sampleSum256 (sampleHashes ++ [sampleHash 3]) = some r.val ∧
      t.TransactionCount = (sampleHashes.length : Int) ∧
      t'.TransactionCount = (sampleHashes.length : Int) + 1 :=
  C38_duplicate_last sampleSum256 sampleHashes (sampleHash 3) (by decide) (by decide) (by decide)
    (by decide)

/-- The bits of the index below the length of the path decide the loop of
`VerifyMerkleProof`. -/
theorem verifyLoop_congr (Sum256 : List UInt8 → Hash32) :
    ∀ (hashes : List (List UInt8)) (flags : List Bool) (cur : Hash32) (a b : Nat),
      (∀ t, t < hashes.length → a / 2 ^ t % 2 = b / 2 ^ t % 2) →
      verifyLoop Sum256 hashes flags cur (a : Int) = verifyLoop Sum256 hashes flags cur (b : Int) := by
  intro hashes
  induction hashes with
  | nil => intro flags cur a b _; rfl
  | cons sib rest ih =>
      intro flags cur a b h
      have h0 : a % 2 = b % 2 := by
        have := h 0 (by simp)
        simpa using this
      have hrest : ∀ t, t < rest.length → a / 2 / 2 ^ t % 2 = b / 2 / 2 ^ t % 2 := by
        intro t ht
        have := h (t + 1) (by simp only [List.length_cons]; omega)
        rw [pow_succ, Nat.mul_comm, ← Nat.div_div_eq_div_mul, ← Nat.div_div_eq_div_mul] at this
        exact this
      by_cases hlen : sib.length ≠ 32
      · rw [verifyLoop_bad_length Sum256 sib rest flags cur _ hlen,
          verifyLoop_bad_length Sum256 sib rest flags cur _ hlen]
      · have h32 : sib.length = 32 := by omega
        cases flags with
        | nil => simp only [verifyLoop, hlen, if_false]
        | cons f flags =>
            by_cases hf : f = decide (a % 2 = 0)
            · subst hf
              rw [verifyLoop_cons Sum256 sib rest flags cur a h32]
              rw [h0, verifyLoop_cons Sum256 sib rest flags cur b h32]
              exact ih flags _ _ _ hrest
            · rw [verifyLoop_bad_flag Sum256 sib rest f flags cur a hf]
              rw [h0] at hf
              rw [verifyLoop_bad_flag Sum256 sib rest f flags cur b hf]

theorem div_mod_two_pow (n L t : Nat) (ht : t < L) :
    n % 2 ^ L / 2 ^ t % 2 = n / 2 ^ t % 2 := by
  have h := Nat.testBit_mod_two_pow n L t
  rw [Nat.testBit_to_div_mod, Nat.testBit_to_div_mod, decide_eq_true ht, Bool.true_and] at h
  have h1 : n % 2 ^ L / 2 ^ t % 2 < 2 := Nat.mod_lt _ (by omega)
  have h2 : n / 2 ^ t % 2 < 2 := Nat.mod_lt _ (by omega)
  by_cases hc : n / 2 ^ t % 2 = 1
  · rw [decide_eq_true hc, decide_eq_true_eq] at h
    omega
  · rw [decide_eq_false hc, decide_eq_false_iff_not] at h
    omega

theorem VerifyMerkleProof_mod (Sum256 : List UInt8 → Hash32) (txHash root : Hash32)
    (hashes : List (List UInt8)) (flags : List Bool) (n : Nat) :
    VerifyMerkleProof Sum256 txHash root hashes flags (n : Int) =
      VerifyMerkleProof Sum256 txHash root hashes flags ((n % 2 ^ hashes.length : Nat) : Int) := by
  unfold VerifyMerkleProof
  rw [verifyLoop_congr Sum256 hashes flags txHash n (n % 2 ^ hashes.length)
    (fun t ht => (div_mod_two_pow n hashes.length t ht).symm)]

/-- C39: for every index `txIndex ≥ 0` and every path, `VerifyMerkleProof`
returns the same for `txIndex` and for `txIndex mod 2 ^ L`, `L` being the number
of hashes of the path; so it returns the same for `txIndex + k * 2 ^ L` and for
`txIndex`, whatever `k ≥ 0`. -/
theorem C39_index_low_bits (Sum256 : List UInt8 → Hash32) (txHash root : Hash32)
    (hashes : List (List UInt8)) (flags : List Bool) (txIndex : Int) (h0 : 0 ≤ txIndex) :
    VerifyMerkleProof Sum256 txHash root hashes flags txIndex =
      VerifyMerkleProof Sum256 txHash root hashes flags (txIndex % 2 ^ hashes.length) ∧
    ∀ k : Nat, VerifyMerkleProof Sum256 txHash root hashes flags
        (txIndex + (k : Int) * 2 ^ hashes.length) =
      VerifyMerkleProof Sum256 txHash root hashes flags txIndex := by
  obtain ⟨n, rfl⟩ : ∃ n : Nat, txIndex = (n : Int) := Int.eq_ofNat_of_zero_le h0
  constructor
  · have e : (n : Int) % 2 ^ hashes.length = ((n % 2 ^ hashes.length : Nat) : Int) := by
      push_cast; rfl
    rw [e]
    exact VerifyMerkleProof_mod Sum256 txHash root hashes flags n
  · intro k
    have e : (n : Int) + (k : Int) * 2 ^ hashes.length =
        ((n + k * 2 ^ hashes.length : Nat) : Int) := by
      push_cast; rfl
    rw [e, VerifyMerkleProof_mod Sum256 txHash root hashes flags (n + k * 2 ^ hashes.length),
      Nat.add_mul_mod_self_right, ← VerifyMerkleProof_mod]

theorem C39_witness :
    VerifyMerkleProof sampleSum256 ⟨sampleHash 3, rfl⟩ ⟨sampleHash 9, rfl⟩
        [sampleHash 3, sampleHash 4] [true, false] 6 =
      VerifyMerkleProof sampleSum256 ⟨sampleHash 3, rfl⟩ ⟨sampleHash 9, rfl⟩
        [sampleHash 3, sampleHash 4] [true, false]
        (6 % 2 ^ [sampleHash 3, sampleHash 4].length) ∧
    ∀ k : Nat, VerifyMerkleProof sampleSum256 ⟨sampleHash 3, rfl⟩ ⟨sampleHash 9, rfl⟩
        [sampleHash 3, sampleHash 4] [true, false]
        (6 + (k : Int) * 2 ^ [sampleHash 3, sampleHash 4].length) =
      VerifyMerkleProof sampleSum256 ⟨sampleHash 3, rfl⟩ ⟨sampleHash 9, rfl⟩
        [sampleHash 3, sampleHash 4] [true, false] 6 :=
  C39_index_low_bits sampleSum256 ⟨sampleHash 3, rfl⟩ ⟨sampleHash 9, rfl⟩
    [sampleHash 3, sampleHash 4] [true, false] 6 (by decide)

end Blockchain

/-! ## The proofs of hash.go against the proofs of the tree -/

namespace Blockchain

theorem ite_bind {α β : Type} (c : Prop) [Decidable c] (a b : Option α) (f : α → Option β) :
    (if c then a.bind f else b.bind f) = (if c then a else b).bind f := by
  split_ifs <;> rfl

/-- The sibling that `GenerateMerkleProof` appends at position `j` of a level. -/
theorem sibling_pick (L : List Hash32) (j : Nat) (hj : j < L.length) :
    (if (if ((j : Int)).tmod 2 = 0 then (j : Int) + 1 else (j : Int) - 1) <
        ((L.map Subtype.val).length : Int) then
      indexInt (L.map Subtype.val) (if ((j : Int)).tmod 2 = 0 then (j : Int) + 1 else (j : Int) - 1)
    else indexInt (L.map Subtype.val) (j : Int)) = some (siblingHash L j).val := by
  rw [List.length_map]
  obtain ⟨cur, hcur⟩ : ∃ cur, L[j]? = some cur := ⟨L[j], List.getElem?_eq_getElem hj⟩
  by_cases hpar : j % 2 = 0
  · have ht : ((j : Int)).tmod 2 = 0 := (tmod_two_eq_zero_iff j).mpr hpar
    simp only [ht, if_true, siblingHash, hpar]
    have e1 : ((j : Int) + 1) = ((j + 1 : Nat) : Int) := by push_cast; rfl
    rw [e1]
    by_cases hlt : j + 1 < L.length
    · have hlt' : ((j + 1 : Nat) : Int) < (L.length : Int) := by exact_mod_cast hlt
      rw [if_pos hlt']
      simp only [indexInt, Int.toNat_ofNat, List.getElem?_map,
        List.getElem?_eq_getElem hlt, Option.map_some', Option.getD_some]
      rw [if_neg (by omega)]
    · have hlt' : ¬ ((j + 1 : Nat) : Int) < (L.length : Int) := by
        intro h; exact hlt (by exact_mod_cast h)
      rw [if_neg hlt']
      simp only [indexInt, Int.toNat_ofNat, List.getElem?_map, hcur, Option.map_some',
        List.getElem?_eq_none (show L.length ≤ j + 1 by omega), Option.getD_none,
        Option.getD_some]
      rw [if_neg (by omega)]
  · have ht : ¬ ((j : Int)).tmod 2 = 0 := fun h => hpar ((tmod_two_eq_zero_iff j).mp h)
    simp only [ht, if_false, siblingHash, hpar]
    have e1 : ((j : Int) - 1) = ((j - 1 : Nat) : Int) := by omega
    rw [e1]
    have hlt' : ((j - 1 : Nat) : Int) < (L.length : Int) := by omega
    rw [if_pos hlt']
    simp only [indexInt, Int.toNat_ofNat, List.getElem?_map,
      List.getElem?_eq_getElem (show j - 1 < L.length by omega), Option.map_some',
      Option.getD_some]
    rw [if_neg (by omega)]

/-- The loop of `GenerateMerkleProof` records the reference path, with the
flags of the tree negated. -/
theorem generateProofLoop_refPath (Sum256 : List UInt8 → Hash32) :
    ∀ (fuel : Nat) (L : List Hash32) (j : Nat) (hashes : List (List UInt8)) (flags : List Bool),
      L.length ≤ fuel + 1 → j < L.length →
      Utils.generateProofLoop Sum256 fuel (L.map Subtype.val) (j : Int) hashes flags =
        some (hashes ++ (refPath Sum256 L j).map Prod.fst,
          flags ++ (refPath Sum256 L j).map (fun p => !p.2)) := by
  intro fuel
  induction fuel with
  | zero =>
      intro L j hashes flags hl hj
      have h1 : ¬ (L.map Subtype.val).length > 1 := by rw [List.length_map]; omega
      rw [refPath_of_le Sum256 L j (by omega)]
      simp only [Utils.generateProofLoop, h1, if_false, List.map_nil, List.append_nil]
  | succ fuel ih =>
      intro L j hashes flags hl hj
      by_cases h1 : 1 < L.length
      · have h1' : (L.map Subtype.val).length > 1 := by rw [List.length_map]; exact h1
        have hlen := nextHashes_length Sum256 L
        have hrec := ih (nextHashes Sum256 L) (j / 2)
          (hashes ++ [(siblingHash L j).val]) (flags ++ [!decide (j % 2 = 0)])
          (by omega) (by omega)
        rw [refPath_of_lt Sum256 L j h1]
        unfold Utils.generateProofLoop
        rw [if_pos h1']
        simp only [Option.bind_eq_bind]
        rw [ite_bind, sibling_pick L j hj, Option.some_bind, merkleRootLevel_map, Option.some_bind,
          tdiv_two_natCast]
        have hflag : (if ((j : Int)).tmod 2 = 0 then false else true) = !decide (j % 2 = 0) := by
          by_cases hpar : j % 2 = 0
          · rw [if_pos ((tmod_two_eq_zero_iff j).mpr hpar), decide_eq_true hpar]; rfl
          · rw [if_neg (fun h => hpar ((tmod_two_eq_zero_iff j).mp h)), decide_eq_false hpar]; rfl
        rw [hflag, hrec]
        simp only [List.map_cons, List.append_assoc, List.singleton_append]
      · have h1' : ¬ (L.map Subtype.val).length > 1 := by rw [List.length_map]; omega
        rw [refPath_of_le Sum256 L j (by omega)]
        simp only [Utils.generateProofLoop, h1', if_false, List.map_nil, List.append_nil]

/-- The loop of `VerifyMerkleProof` of hash.go on the reference path with the
flags of the tree negated ends with the reference root. -/
theorem verifyProofLoop_refPath (Sum256 : List UInt8 → Hash32) :
    ∀ (n : Nat) (L : List Hash32) (j : Nat) (cur : Hash32), L.length ≤ n + 1 →
      L[j]? = some cur →
      Utils.verifyProofLoop Sum256 ((refPath Sum256 L j).map Prod.fst)
        ((refPath Sum256 L j).map (fun p => !p.2)) cur.val = some (rootHash Sum256 L).val := by
  intro n
  induction n with
  | zero =>
      intro L j cur hl hc
      have hj : j < L.length := (List.getElem?_eq_some.mp hc).1
      have hj0 : j = 0 := by omega
      subst hj0
      rw [refPath_of_le Sum256 L 0 (by omega), rootHash_of_le Sum256 L (by omega), hc]
      rfl
  | succ n ih =>
      intro L j cur hl hc
      have hj : j < L.length := (List.getElem?_eq_some.mp hc).1
      by_cases h1 : 1 < L.length
      · obtain ⟨cur', hc', hv⟩ := nextHashes_at Sum256 L j cur hc
        have hlen := nextHashes_length Sum256 L
        have hrec := ih (nextHashes Sum256 L) (j / 2) cur' (by omega) hc'
        rw [refPath_of_lt Sum256 L j h1, rootHash_of_lt Sum256 L h1]
        simp only [List.map_cons, Utils.verifyProofLoop, Option.bind_eq_bind]
        have hstep : (if (!decide (j % 2 = 0)) = true then
              Utils.MerkleHash Sum256 (siblingHash L j).val cur.val
            else Utils.MerkleHash Sum256 cur.val (siblingHash L j).val) = some cur'.val := by
          rw [hv]
          by_cases hpar : j % 2 = 0
          · simp only [hpar, decide_True, Bool.not_true, Bool.false_eq_true, if_false, if_true,
              Utils.MerkleHash, cur.property, (siblingHash L j).property, ne_eq,
              not_true_eq_false, or_self]
          · simp only [hpar, decide_False, Bool.not_false, if_true, if_false,
              Utils.MerkleHash, cur.property, (siblingHash L j).property, ne_eq,
              not_true_eq_false, or_self]
        rw [ite_bind, hstep, Option.some_bind, hrec]
      · have hj0 : j = 0 := by omega
        subst hj0
        rw [refPath_of_le Sum256 L 0 (by omega), rootHash_of_le Sum256 L (by omega), hc]
        rfl

theorem all_getD_self (x : List UInt8) (n : Nat) :
    (List.range n).all (fun i => x.getD i 0 == x.getD i 0) = true := by
  rw [List.all_eq_true]
  intro i _
  exact beq_self_eq_true _

theorem CompareHashes_self (x : List UInt8) (h : x.length = 32) :
    Utils.CompareHashes x x = true := by
  have hc : ¬ (x.length ≠ 32 ∨ x.length ≠ 32) := by omega
  unfold Utils.CompareHashes
  rw [if_neg hc]
  exact all_getD_self x 32

/-- What `GenerateMerkleProof` of hash.go returns at position `i`. -/
theorem GenerateMerkleProof_refPath (Sum256 : List UInt8 → Hash32) (hs : List (List UInt8))
    (i : Nat) (h32 : ∀ x ∈ hs, x.length = 32) (hi : i < hs.length) :
    Utils.GenerateMerkleProof Sum256 hs (i : Int) = some (some
      { Index := (i : Int), Hashes := (refPath Sum256 (leafHashes hs) i).map Prod.fst,
        Flags := (refPath Sum256 (leafHashes hs) i).map (fun p => !p.2) }) := by
  have hc1 : ¬ ((i : Int) < 0 ∨ (i : Int) ≥ (hs.length : Int)) := by omega
  have hc2 : ¬ hs.length = 0 := by omega
  have hL := leafHashes_length hs
  have hloop := generateProofLoop_refPath Sum256 hs.length (leafHashes hs) i [] []
    (by omega) (by omega)
  rw [leafHashes_map_val hs h32] at hloop
  unfold Utils.GenerateMerkleProof
  rw [if_neg hc1, if_neg hc2]
  simp only [Option.bind_eq_bind, hloop, Option.some_bind, List.nil_append]

/-- C40: for every list `hs` of 32-byte hashes that is not empty and every
index `i` below its length, `GenerateMerkleProof` of hash.go returns a proof with
the sibling hashes of the proof of the tree in the same order and with its flags
negated, true for a sibling on the left, and `VerifyMerkleProof` of hash.go
accepts that proof for `hs[i]` against `MerkleRoot(hs)`. -/
theorem C40_utils_proof_agrees (Sum256 : List UInt8 → Hash32) (hs : List (List UInt8))
    (i : Nat) (hne : hs ≠ []) (h32 : ∀ x ∈ hs, x.length = 32) (hi : i < hs.length) :
    ∃ t p q leafHash root, NewMerkleTree Sum256 hs = some t ∧
      GenerateProof t (i : Int) = some (some p) ∧
      Utils.GenerateMerkleProof Sum256 hs (i : Int) = some (some q) ∧
      q.Index = (i : Int) ∧ q.Hashes = p.ProofHashes ∧
      q.Flags = p.ProofFlags.map (fun f => !f) ∧
      (∀ k, k < q.Flags.length → q.Flags[k]? = some (decide ((i / 2 ^ k) % 2 = 1))) ∧
      hs[i]? = some leafHash ∧ Utils.MerkleRoot Sum256 hs = some root ∧
      Utils.VerifyMerkleProof Sum256 leafHash (some q) root = some true := by
  obtain ⟨t, leaf, ht, _, hl, hg⟩ := built_and_proved Sum256 hs i hne h32 hi
  have hleaf : hs[i]? = some leaf.val := by
    have e := leafHashes_map_val hs h32
    have : ((leafHashes hs).map Subtype.val)[i]? = some leaf.val := by
      rw [List.getElem?_map, hl]; rfl
    rw [e] at this
    exact this
  refine ⟨t, _, _, leaf.val, _, ht, hg, GenerateMerkleProof_refPath Sum256 hs i h32 hi, rfl, rfl,
    ?_, ?_, hleaf, MerkleRoot_eq_rootHash Sum256 hs hne h32, ?_⟩
  · simp only [List.map_map]
    rfl
  · show ∀ k, k < ((refPath Sum256 (leafHashes hs) i).map (fun p => !p.2)).length →
      ((refPath Sum256 (leafHashes hs) i).map (fun p => !p.2))[k]? =
        some (decide ((i / 2 ^ k) % 2 = 1))
    intro k hk
    rw [List.length_map] at hk
    have hf := refPath_flags Sum256 _ (leafHashes hs) i rfl k
      (by rw [List.length_map]; exact hk)
    have e : (List.map (fun p => !p.2) (refPath Sum256 (leafHashes hs) i))[k]? =
        (((refPath Sum256 (leafHashes hs) i).map Prod.snd)[k]?).map (fun f => !f) := by
      rw [List.getElem?_map, List.getElem?_map, Option.map_map]
      rfl
    rw [e, hf, Option.map_some']
    congr 1
    have h2 : i / 2 ^ k % 2 < 2 := Nat.mod_lt _ (by omega)
    by_cases hpar : i / 2 ^ k % 2 = 0
    · rw [decide_eq_true hpar, decide_eq_false (by omega)]; rfl
    · rw [decide_eq_false hpar, decide_eq_true (show i / 2 ^ k % 2 = 1 by omega)]; rfl
  · have hlen : ¬ ((refPath Sum256 (leafHashes hs) i).map Prod.fst).length ≠
        ((refPath Sum256 (leafHashes hs) i).map (fun p => !p.2)).length := by
      rw [List.length_map, List.length_map]; exact fun h => h rfl
    have hcopy : copyBytes (List.replicate 32 0) leaf.val = leaf.val :=
      copyBytes_eq_of_length _ _ (by rw [List.length_replicate]; exact leaf.property)
    have hloop := verifyProofLoop_refPath Sum256 hs.length (leafHashes hs) i leaf
      (by rw [leafHashes_length]; omega) hl
    unfold Utils.VerifyMerkleProof
    simp only [hlen, if_false, hcopy, Option.bind_eq_bind, hloop, Option.some_bind,
      CompareHashes_self _ (rootHash Sum256 (leafHashes hs)).property]

theorem C40_witness :
    ∃ t p q leafHash root, NewMerkleTree sampleSum256 sampleHashes = some t ∧
      GenerateProof t ((2 : Nat) : Int) = some (some p) ∧
      Utils.GenerateMerkleProof sampleSum256 sampleHashes ((2 : Nat) : Int) = some (some q) ∧
      q.Index = ((2 : Nat) : Int) ∧ q.Hashes = p.ProofHashes ∧
      q.Flags = p.ProofFlags.map (fun f => !f) ∧
      (∀ k, k < q.Flags.length → q.Flags[k]? = some (decide ((2 / 2 ^ k) % 2 = 1))) ∧
      sampleHashes[2]? = some leafHash ∧ Utils.MerkleRoot sampleSum256 sampleHashes = some root ∧
      Utils.VerifyMerkleProof sampleSum256 leafHash (some q) root = some true :=
  C40_utils_proof_agrees sampleSum256 sampleHashes 2 (by decide) (by decide) (by decide)

end Blockchain
